import Mathlib

/-!
# Packet-Flow Visualizer: core model

A shallow embedding of the simulator's core (`src/core/network.py`,
`src/core/packet.py`, `src/simulation/routing.py`, `src/simulation/engine.py`).

Modelling conventions:
* Python `float` values that the core computes with (latencies, costs,
  simulation time, progress fractions) are modelled as `ℚ`; the formulas are
  translated symbolically, so exact arithmetic replaces IEEE rounding.
* Python `dict`s (insertion ordered, unique keys) are association lists
  `List (String × α)`; deletion removes the key, insertion appends at the end,
  which matches CPython's ordering semantics for the operations the code uses.
* Packet objects are aliased (a packet sits in `active_packets` and in a node
  queue simultaneously), so the engine model owns a store `List Packet` and all
  lists/queues hold indices (references) into it.  Node queues therefore hold
  `Nat` references.
* Purely visual fields (positions, colors, scale, selection flags) and the
  unread `size`/`payload` fields are omitted; they are never consulted by the
  modelled logic.
* `time.time()` and `random` are oracles: every operation that reads them takes
  the sampled values as explicit arguments.
-/

namespace NetSim

/-- First-match lookup in an association list (Python `dict.get` /
`d[k]`; keys are unique in every reachable state, so first-match agrees). -/
def alookup (k : String) : List (String × α) → Option α
  | [] => none
  | (k', v) :: rest => if k' = k then some v else alookup k rest

/-- Remove the entry for a key (Python `del d[k]`). -/
def aerase (k : String) : List (String × α) → List (String × α)
  | [] => []
  | (k', v) :: rest => if k' = k then rest else (k', v) :: aerase k rest

/-- Mutate the value stored at a key in place (Python `d[k].method(...)` or
`d[k] = f(d[k])`); a no-op when the key is absent. -/
def amodify (k : String) (f : α → α) : List (String × α) → List (String × α)
  | [] => []
  | (k', v) :: rest => if k' = k then (k', f v) :: rest else (k', v) :: amodify k f rest

/-- Set the value stored at a key, appending when absent (Python
`d[k] = v`, used for routing tables whose keys may or may not exist). -/
def aset (k : String) (v : α) : List (String × α) → List (String × α)
  | [] => [(k, v)]
  | (k', v') :: rest => if k' = k then (k, v) :: rest else (k', v') :: aset k v rest

/-! ## `src/core/packet.py` -/

/-- `Packet` (src/core/packet.py).  `current_node_id`/`next_hop_id` are
`Optional[str]`; `path` tracks visited node ids; flags/drop data as in the
source.  `id` is the uuid-derived string (supplied by the caller's oracle). -/
structure Packet where
  id : String
  source_id : String
  destination_id : String
  current_node_id : Option String
  next_hop_id : Option String
  path : List String
  creation_time : ℚ
  delivery_time : Option ℚ
  hop_count : Nat
  progress : ℚ
  is_delivered : Bool
  is_dropped : Bool
  drop_reason : Option String
  deriving Repr, DecidableEq

/-- `Packet.__init__`: fresh in-flight packet at its source. -/
def Packet.mk' (pid source_id destination_id : String) (now : ℚ) : Packet :=
  { id := pid
    source_id := source_id
    destination_id := destination_id
    current_node_id := some source_id
    next_hop_id := none
    path := [source_id]
    creation_time := now
    delivery_time := none
    hop_count := 0
    progress := 0
    is_delivered := false
    is_dropped := false
    drop_reason := none }

/-- Python truthiness of an `Optional[str]`: `None` and `""` are falsy.
Used where the source tests `if self.next_hop_id:` / `if self.demo_packet_id:`. -/
def strTruthy : Option String → Bool
  | none => false
  | some s => s ≠ ""

/-- `Packet.advance_to_next_hop`: move to the resolved next hop (guarded by
truthiness of `next_hop_id` as in the source). -/
def Packet.advance_to_next_hop (p : Packet) : Packet :=
  match p.next_hop_id with
  | some nh =>
    if nh ≠ "" then
      { p with current_node_id := some nh
               path := p.path ++ [nh]
               hop_count := p.hop_count + 1
               next_hop_id := none
               progress := 0 }
    else p
  | none => p

/-- `Packet.mark_delivered`. -/
def Packet.mark_delivered (p : Packet) (now : ℚ) : Packet :=
  { p with is_delivered := true, delivery_time := some now }

/-- `Packet.mark_dropped`. -/
def Packet.mark_dropped (p : Packet) (reason : String) (now : ℚ) : Packet :=
  { p with is_dropped := true, drop_reason := some reason, delivery_time := some now }

/-- `Packet.get_latency`: `if self.delivery_time:` is a numeric truthiness
test, so a delivery time of exactly `0` yields `None`. -/
def Packet.get_latency (p : Packet) : Option ℚ :=
  match p.delivery_time with
  | some t => if t ≠ 0 then some ((t - p.creation_time) * 1000) else none
  | none => none

/-- `PacketQueue` (src/core/packet.py): bounded FIFO.  The deque holds packet
object references (`Nat` indices into the engine's packet store). -/
structure PacketQueue where
  max_size : Nat
  queue : List Nat
  total_enqueued : Nat
  total_dequeued : Nat
  total_dropped : Nat
  deriving Repr, DecidableEq

/-- `PacketQueue.__init__` (default capacity 20). -/
def PacketQueue.mk' (max_size : Nat) : PacketQueue :=
  { max_size := max_size, queue := [], total_enqueued := 0, total_dequeued := 0,
    total_dropped := 0 }

/-- `PacketQueue.enqueue`: reject (and count a drop) when full, else append. -/
def PacketQueue.enqueue (q : PacketQueue) (r : Nat) : PacketQueue × Bool :=
  if q.max_size ≤ q.queue.length then
    ({ q with total_dropped := q.total_dropped + 1 }, false)
  else
    ({ q with queue := q.queue ++ [r], total_enqueued := q.total_enqueued + 1 }, true)

/-- `PacketQueue.dequeue`: pop from the front. -/
def PacketQueue.dequeue (q : PacketQueue) : PacketQueue × Option Nat :=
  match q.queue with
  | [] => (q, none)
  | r :: rest =>
    ({ q with queue := rest, total_dequeued := q.total_dequeued + 1 }, some r)

/-- `PacketQueue.is_empty`. -/
def PacketQueue.is_empty (q : PacketQueue) : Bool := q.queue.length = 0

/-- `PacketQueue.is_full`. -/
def PacketQueue.is_full (q : PacketQueue) : Bool := q.max_size ≤ q.queue.length

/-- `PacketQueue.size`. -/
def PacketQueue.size (q : PacketQueue) : Nat := q.queue.length

/-- `PacketQueue.clear`. -/
def PacketQueue.clear (q : PacketQueue) : PacketQueue := { q with queue := [] }

/-! ## `src/core/network.py` -/

/-- `Node` (src/core/network.py).  Congestion thresholds are the fixed values
assigned in `__init__` (3/4/6); visual fields are omitted. -/
structure Node where
  id : String
  neighbors : List String
  routing_table : List (String × String)
  queue : PacketQueue
  force_congested : Bool
  congestion_state : String
  packets_sent : Nat
  packets_received : Nat
  packets_forwarded : Nat
  packets_dropped : Nat
  deriving Repr, DecidableEq

/-- `Node.__init__`: fresh node with an empty fixed-size queue (20). -/
def Node.mk' (node_id : String) : Node :=
  { id := node_id, neighbors := [], routing_table := [],
    queue := PacketQueue.mk' 20, force_congested := false,
    congestion_state := "low", packets_sent := 0, packets_received := 0,
    packets_forwarded := 0, packets_dropped := 0 }

/-- `Node.add_neighbor`: append if not already present. -/
def Node.add_neighbor (n : Node) (neighbor_id : String) : Node :=
  if neighbor_id ∈ n.neighbors then n
  else { n with neighbors := n.neighbors ++ [neighbor_id] }

/-- `Node.remove_neighbor`: remove the (first) occurrence if present. -/
def Node.remove_neighbor (n : Node) (neighbor_id : String) : Node :=
  { n with neighbors := n.neighbors.erase neighbor_id }

/-- `Node.update_routing_table`. -/
def Node.update_routing_table (n : Node) (destination next_hop : String) : Node :=
  { n with routing_table := aset destination next_hop n.routing_table }

/-- `Node.update_congestion_state` (thresholds 3/4/6 from `__init__`; the color
assignments are visual only and omitted). -/
def Node.update_congestion_state (n : Node) : Node :=
  let queue_size := n.queue.size
  if 6 < queue_size then { n with congestion_state := "high" }
  else if 4 ≤ queue_size then { n with congestion_state := "medium" }
  else { n with congestion_state := "low" }

/-- `Node.get_congestion_cost`: 1.0 when the queue has no capacity, the fixed
maximum 10.0 when force-congested, otherwise `1 + fill_ratio * 9`. -/
def Node.get_congestion_cost (n : Node) : ℚ :=
  if n.queue.max_size = 0 then 1
  else if n.force_congested then 10
  else 1 + ((n.queue.size : ℚ) / (n.queue.max_size : ℚ)) * 9

/-- `Link` (src/core/network.py); `weight` and `cost` are both initialised to
`latency`.  Visual fields and traffic statistics are omitted (never read by
the modelled logic). -/
structure Link where
  id : String
  source_id : String
  target_id : String
  bandwidth : ℚ
  latency : ℚ
  bidirectional : Bool
  weight : ℚ
  cost : ℚ
  deriving Repr, DecidableEq

/-- `Link.__init__` (defaults: bandwidth 100, latency 10, bidirectional). -/
def Link.mk' (link_id source_id target_id : String) (bandwidth latency : ℚ)
    (bidirectional : Bool) : Link :=
  { id := link_id, source_id := source_id, target_id := target_id,
    bandwidth := bandwidth, latency := latency, bidirectional := bidirectional,
    weight := latency, cost := latency }

/-- `Link.contains_node`. -/
def Link.contains_node (l : Link) (node_id : String) : Bool :=
  node_id = l.source_id ∨ node_id = l.target_id

/-- `Network` (src/core/network.py): insertion-ordered maps of nodes and
links, plus aggregate packet counters. -/
structure Network where
  nodes : List (String × Node)
  links : List (String × Link)
  total_packets : Nat
  delivered_packets : Nat
  dropped_packets : Nat
  deriving Repr, DecidableEq

/-- `Network.__init__`. -/
def Network.empty : Network :=
  { nodes := [], links := [], total_packets := 0, delivered_packets := 0,
    dropped_packets := 0 }

/-- `Network.add_node`: refuse duplicates. -/
def Network.add_node (net : Network) (node : Node) : Network × Bool :=
  if (alookup node.id net.nodes).isSome then (net, false)
  else ({ net with nodes := net.nodes ++ [(node.id, node)] }, true)

/-- `Network.get_node`. -/
def Network.get_node (net : Network) (node_id : String) : Option Node :=
  alookup node_id net.nodes

/-- `Network.get_link`. -/
def Network.get_link (net : Network) (link_id : String) : Option Link :=
  alookup link_id net.links

/-- `Network.get_link_between`: scan the link dict in insertion order; exact
(source,target) match, or reversed match for bidirectional links. -/
def Network.get_link_between (net : Network) (source_id target_id : String) :
    Option Link :=
  net.links.findSome? fun (_, link) =>
    if link.source_id = source_id ∧ link.target_id = target_id then some link
    else if link.bidirectional ∧ link.source_id = target_id ∧
        link.target_id = source_id then some link
    else none

/-- `Network.get_neighbors`: empty for unknown ids. -/
def Network.get_neighbors (net : Network) (node_id : String) : List String :=
  match net.get_node node_id with
  | some n => n.neighbors
  | none => []

/-- `Network.add_link`: refuse duplicate link ids and unknown endpoints; on
success register the link and update both endpoints' neighbor lists. -/
def Network.add_link (net : Network) (link : Link) : Network × Bool :=
  if (alookup link.id net.links).isSome then (net, false)
  else if (alookup link.source_id net.nodes).isNone ∨
      (alookup link.target_id net.nodes).isNone then (net, false)
  else
    let net := { net with links := net.links ++ [(link.id, link)] }
    let net := { net with
      nodes := amodify link.source_id (·.add_neighbor link.target_id) net.nodes }
    let net :=
      if link.bidirectional then
        { net with
          nodes := amodify link.target_id (·.add_neighbor link.source_id) net.nodes }
      else net
    (net, true)

/-- `Network.remove_link`: unregister the link and update neighbor lists of
any endpoints that still exist. -/
def Network.remove_link (net : Network) (link_id : String) : Network × Bool :=
  match alookup link_id net.links with
  | none => (net, false)
  | some link =>
    let net :=
      if (alookup link.source_id net.nodes).isSome then
        { net with
          nodes := amodify link.source_id (·.remove_neighbor link.target_id) net.nodes }
      else net
    let net :=
      if link.bidirectional ∧ (alookup link.target_id net.nodes).isSome then
        { net with
          nodes := amodify link.target_id (·.remove_neighbor link.source_id) net.nodes }
      else net
    ({ net with links := aerase link_id net.links }, true)

/-- `Network.remove_node`: cascade-remove every incident link, then delete the
node. -/
def Network.remove_node (net : Network) (node_id : String) : Network × Bool :=
  if (alookup node_id net.nodes).isNone then (net, false)
  else
    let links_to_remove :=
      (net.links.filter fun (_, link) => link.contains_node node_id).map (·.1)
    let net := links_to_remove.foldl (fun acc lid => (acc.remove_link lid).1) net
    ({ net with nodes := aerase node_id net.nodes }, true)

/-- `Network.clear`. -/
def Network.clear (_net : Network) : Network := Network.empty

/-! ## `src/simulation/routing.py` — `DijkstraRouting`

The Python implementation keeps `distances` / `previous` as dicts over the
node keys and a `heapq` of `(distance, node_id)` tuples.  Dicts become total
functions with default `⊤` / `none`: in every state the simulator reaches,
each id the algorithm looks up is a key of the dict (`add_link` refuses
unknown endpoints and `remove_node` cascades), so the total-function reading
agrees with the source.  The heap becomes a plain list whose pop extracts the
lexicographically least `(distance, node_id)` tuple — exactly the element
`heapq.heappop` returns. -/

/-- Python tuple order on heap entries `(distance, node_id)`. -/
def heapLE (x y : ℚ × String) : Prop :=
  x.1 < y.1 ∨ (x.1 = y.1 ∧ x.2 ≤ y.2)

instance (x y : ℚ × String) : Decidable (heapLE x y) :=
  inferInstanceAs (Decidable (x.1 < y.1 ∨ (x.1 = y.1 ∧ x.2 ≤ y.2)))

/-- `heapq.heappop`: remove and return the least entry (first of the ties). -/
def popMin : List (ℚ × String) → Option ((ℚ × String) × List (ℚ × String))
  | [] => none
  | x :: xs =>
    match popMin xs with
    | none => some (x, [])
    | some (m, rest) => if heapLE x m then some (x, xs) else some (m, x :: rest)

/-- The congestion multiplier the Dijkstra relaxation applies for traversing
into `neighbor_id` (`compute_route`, src/simulation/routing.py lines 104-110):
`99` for a force-congested neighbor, otherwise `Node.get_congestion_cost`,
and `1` when the node cannot be found. -/
def congestionMultiplier (net : Network) (neighbor_id : String) : ℚ :=
  match net.get_node neighbor_id with
  | none => 1
  | some neighbor_node =>
    if neighbor_node.force_congested then 99
    else neighbor_node.get_congestion_cost

/-- The edge cost Dijkstra uses for the step `a → b`:
`link.weight * congestionMultiplier b` for the link `get_link_between a b`
(`0` as an unused placeholder when there is no such link — the relaxation
skips those neighbors). -/
def dijkstraEdgeCost (net : Network) (a b : String) : ℚ :=
  match net.get_link_between a b with
  | none => 0
  | some link => link.weight * congestionMultiplier net b

/-- Dijkstra's mutable state: `distances`, `previous`, the heap, and the
visited set (kept as a list in settle order). -/
structure DijkState where
  dist : String → WithTop ℚ
  prev : String → Option String
  pq : List (ℚ × String)
  visited : List String

/-- One relaxation of `neighbor_id` from `current_id` (the body of the
`for neighbor_id in current_node.neighbors` loop of `compute_route`). -/
def relaxNeighbor (net : Network) (current_dist : ℚ) (current_id : String)
    (st : DijkState) (neighbor_id : String) : DijkState :=
  if neighbor_id ∈ st.visited then st
  else
    match net.get_link_between current_id neighbor_id with
    | none => st
    | some link =>
      let cost := link.weight * congestionMultiplier net neighbor_id
      let new_distance := current_dist + cost
      if (new_distance : WithTop ℚ) < st.dist neighbor_id then
        { st with
          dist := fun x =>
            if x = neighbor_id then (new_distance : WithTop ℚ) else st.dist x
          prev := fun x => if x = neighbor_id then some current_id else st.prev x
          pq := st.pq ++ [(new_distance, neighbor_id)] }
      else st

/-- All node ids occurring in some node's neighbor list (part of the loop
variant's universe; the algorithm only ever pushes such ids). -/
def nbrIds (net : Network) : Finset String :=
  net.nodes.foldr (fun p acc => p.2.neighbors.toFinset ∪ acc) ∅

/-- The ids currently on the heap. -/
def pqIds (pq : List (ℚ × String)) : Finset String := (pq.map (·.2)).toFinset

/-- Universe of ids the loop can still touch: ids pushable in the future plus
ids already on the heap. -/
def dijkUniv (net : Network) (pq : List (ℚ × String)) : Finset String :=
  nbrIds net ∪ pqIds pq

/- The next few lemmas exist only to discharge the termination obligations of
`dijkstraLoop` below (the Python `while pq:` loop terminates because every
iteration either shrinks the heap or settles a fresh id). -/

theorem popMin_eq_none {pq : List (ℚ × String)} : popMin pq = none ↔ pq = [] := by
  constructor
  · intro h
    cases pq with
    | nil => rfl
    | cons x xs =>
      exfalso
      cases hx : popMin xs with
      | none => simp [popMin, hx] at h
      | some p =>
        rcases p with ⟨m, rest⟩
        simp only [popMin, hx] at h
        split at h <;> simp_all
  · intro h
    subst h
    rfl

theorem popMin_split {pq : List (ℚ × String)} {e : ℚ × String}
    {rest : List (ℚ × String)} (h : popMin pq = some (e, rest)) :
    ∃ l1 l2, pq = l1 ++ e :: l2 ∧ rest = l1 ++ l2 := by
  induction pq generalizing e rest with
  | nil => exact Option.noConfusion h
  | cons x xs ih =>
    cases hx : popMin xs with
    | none =>
      have hxs : xs = [] := popMin_eq_none.mp hx
      simp only [popMin, hx, Option.some.injEq, Prod.mk.injEq] at h
      refine ⟨[], [], ?_, ?_⟩ <;> simp_all
    | some p =>
      rcases p with ⟨m, r⟩
      simp only [popMin, hx] at h
      split at h
      · simp only [Option.some.injEq, Prod.mk.injEq] at h
        refine ⟨[], xs, ?_, ?_⟩ <;> simp_all
      · simp only [Option.some.injEq, Prod.mk.injEq] at h
        obtain ⟨l1, l2, hxs', hr⟩ := ih hx
        refine ⟨x :: l1, l2, ?_, ?_⟩
        · simp_all
        · simp_all

theorem popMin_mem {pq : List (ℚ × String)} {e : ℚ × String}
    {rest : List (ℚ × String)} (h : popMin pq = some (e, rest)) : e ∈ pq := by
  obtain ⟨l1, l2, hpq, _⟩ := popMin_split h
  simp [hpq]

theorem popMin_rest_subset {pq : List (ℚ × String)} {e : ℚ × String}
    {rest : List (ℚ × String)} (h : popMin pq = some (e, rest)) :
    ∀ x ∈ rest, x ∈ pq := by
  obtain ⟨l1, l2, hpq, hrest⟩ := popMin_split h
  intro x hx
  rw [hrest] at hx
  rw [hpq]
  rcases List.mem_append.mp hx with h' | h'
  · exact List.mem_append.mpr (Or.inl h')
  · exact List.mem_append.mpr (Or.inr (List.mem_cons_of_mem _ h'))

theorem popMin_rest_length {pq : List (ℚ × String)} {e : ℚ × String}
    {rest : List (ℚ × String)} (h : popMin pq = some (e, rest)) :
    rest.length < pq.length := by
  obtain ⟨l1, l2, hpq, hrest⟩ := popMin_split h
  simp [hpq, hrest]

theorem relaxNeighbor_visited (net : Network) (d : ℚ) (cid : String)
    (st : DijkState) (nb : String) :
    (relaxNeighbor net d cid st nb).visited = st.visited := by
  unfold relaxNeighbor
  split
  · rfl
  · split
    · rfl
    · dsimp only
      split <;> rfl

theorem relaxNeighbor_pq (net : Network) (d : ℚ) (cid : String)
    (st : DijkState) (nb : String) :
    ∀ e ∈ (relaxNeighbor net d cid st nb).pq, e ∈ st.pq ∨ e.2 = nb := by
  unfold relaxNeighbor
  split
  · exact fun e he => Or.inl he
  · split
    · exact fun e he => Or.inl he
    · dsimp only
      split
      · intro e he
        simp only [List.mem_append, List.mem_singleton] at he
        rcases he with h | h
        · exact Or.inl h
        · exact Or.inr (by rw [h])
      · exact fun e he => Or.inl he

theorem foldRelax_visited (net : Network) (d : ℚ) (cid : String) :
    ∀ (l : List String) (st : DijkState),
      (l.foldl (relaxNeighbor net d cid) st).visited = st.visited := by
  intro l
  induction l with
  | nil => intro st; rfl
  | cons nb rest ih =>
    intro st
    rw [List.foldl_cons, ih, relaxNeighbor_visited]

theorem foldRelax_pq (net : Network) (d : ℚ) (cid : String) :
    ∀ (l : List String) (st : DijkState),
      ∀ e ∈ (l.foldl (relaxNeighbor net d cid) st).pq, e ∈ st.pq ∨ e.2 ∈ l := by
  intro l
  induction l with
  | nil => intro st e he; exact Or.inl he
  | cons nb rest ih =>
    intro st e he
    rw [List.foldl_cons] at he
    rcases ih _ e he with h | h
    · rcases relaxNeighbor_pq net d cid st nb e h with h' | h'
      · exact Or.inl h'
      · exact Or.inr (by simp [h'])
    · exact Or.inr (List.mem_cons_of_mem _ h)

theorem alookup_mem {l : List (String × α)} {k : String} {v : α}
    (h : alookup k l = some v) : (k, v) ∈ l := by
  induction l with
  | nil => simp [alookup] at h
  | cons p rest ih =>
    rcases p with ⟨k', v'⟩
    simp only [alookup] at h
    split at h
    · simp only [Option.some.injEq] at h
      simp_all
    · exact List.mem_cons_of_mem _ (ih h)

theorem mem_nbrIds_aux {cnode : Node} {nb : String}
    (hnb : nb ∈ cnode.neighbors) :
    ∀ (l : List (String × Node)) (cid : String), (cid, cnode) ∈ l →
      nb ∈ l.foldr (fun p acc => p.2.neighbors.toFinset ∪ acc) ∅ := by
  intro l
  induction l with
  | nil => intro cid h; simp at h
  | cons p rest ih =>
    intro cid hmem
    rcases List.mem_cons.mp hmem with h' | h'
    · simp only [List.foldr_cons, Finset.mem_union]
      exact Or.inl (by rw [← h']; simp [hnb])
    · simp only [List.foldr_cons, Finset.mem_union]
      exact Or.inr (ih cid h')

theorem mem_nbrIds {net : Network} {cid : String} {cnode : Node}
    (h : net.get_node cid = some cnode) :
    ∀ nb ∈ cnode.neighbors, nb ∈ nbrIds net :=
  fun _ hnb => mem_nbrIds_aux hnb net.nodes cid (alookup_mem h)

theorem dijkUniv_settle_card {net : Network} {pq pq' : List (ℚ × String)}
    {visited : List String} {cid : String}
    (hcid : cid ∈ pqIds pq) (hnv : cid ∉ visited)
    (hsub : dijkUniv net pq' ⊆ dijkUniv net pq) :
    (dijkUniv net pq' \ (visited ++ [cid]).toFinset).card <
      (dijkUniv net pq \ visited.toFinset).card := by
  apply Finset.card_lt_card
  constructor
  · intro x hx
    rcases Finset.mem_sdiff.mp hx with ⟨hx1, hx2⟩
    refine Finset.mem_sdiff.mpr ⟨hsub hx1, fun hc => hx2 ?_⟩
    simp only [List.toFinset_append, Finset.mem_union]
    exact Or.inl hc
  · intro hcon
    have h1 : cid ∈ dijkUniv net pq \ visited.toFinset := by
      refine Finset.mem_sdiff.mpr ⟨Finset.mem_union_right _ hcid, ?_⟩
      simpa using hnv
    have h2 := hcon h1
    rcases Finset.mem_sdiff.mp h2 with ⟨_, hc⟩
    exact hc (by simp)

theorem dijkUniv_mono {net : Network} {pq pq' : List (ℚ × String)}
    (h : ∀ e ∈ pq', e ∈ pq) : dijkUniv net pq' ⊆ dijkUniv net pq := by
  intro x hx
  rcases Finset.mem_union.mp hx with h' | h'
  · exact Finset.mem_union_left _ h'
  · refine Finset.mem_union_right _ ?_
    unfold pqIds at h' ⊢
    rcases List.mem_toFinset.mp h' with hx'
    rcases List.mem_map.mp hx' with ⟨e, he, rfl⟩
    exact List.mem_toFinset.mpr (List.mem_map.mpr ⟨e, h e he, rfl⟩)

/-- The main `while pq:` loop of `DijkstraRouting.compute_route`
(src/simulation/routing.py lines 74-119): pop the least entry, skip it if
already visited, settle it, break on the destination, and relax all
neighbors. -/
def dijkstraLoop (net : Network) (destination_id : String) (st : DijkState) :
    DijkState :=
  match hpop : popMin st.pq with
  | none => st
  | some ((current_dist, current_id), rest) =>
    if hv : current_id ∈ st.visited then
      dijkstraLoop net destination_id { st with pq := rest }
    else
      let st1 : DijkState :=
        { st with pq := rest, visited := st.visited ++ [current_id] }
      if current_id = destination_id then st1
      else
        match hnode : net.get_node current_id with
        | none => dijkstraLoop net destination_id st1
        | some current_node =>
          dijkstraLoop net destination_id
            (current_node.neighbors.foldl
              (relaxNeighbor net current_dist current_id) st1)
termination_by
  ((dijkUniv net st.pq \ st.visited.toFinset).card, st.pq.length)
decreasing_by
  · have hsub := popMin_rest_subset hpop
    have hlen := popMin_rest_length hpop
    have hcard : (dijkUniv net rest \ st.visited.toFinset).card ≤
        (dijkUniv net st.pq \ st.visited.toFinset).card :=
      Finset.card_le_card
        (Finset.sdiff_subset_sdiff (dijkUniv_mono hsub) (le_refl _))
    rcases lt_or_eq_of_le hcard with h | h
    · exact Prod.Lex.left _ _ h
    · rw [h]; exact Prod.Lex.right _ hlen
  · apply Prod.Lex.left
    have hcid : current_id ∈ pqIds st.pq :=
      List.mem_toFinset.mpr
        (List.mem_map.mpr ⟨_, popMin_mem hpop, rfl⟩)
    exact dijkUniv_settle_card hcid hv
      (dijkUniv_mono (popMin_rest_subset hpop))
  · apply Prod.Lex.left
    have hcid : current_id ∈ pqIds st.pq :=
      List.mem_toFinset.mpr
        (List.mem_map.mpr ⟨_, popMin_mem hpop, rfl⟩)
    rw [foldRelax_visited]
    apply dijkUniv_settle_card hcid hv
    intro x hx
    rcases Finset.mem_union.mp hx with h' | h'
    · exact Finset.mem_union_left _ h'
    · rcases List.mem_toFinset.mp h' with hx'
      rcases List.mem_map.mp hx' with ⟨e, he, rfl⟩
      rcases foldRelax_pq net current_dist current_id _ _ e he with h'' | h''
      · exact dijkUniv_mono (popMin_rest_subset hpop)
          (Finset.mem_union_right _
            (List.mem_toFinset.mpr (List.mem_map.mpr ⟨e, h'', rfl⟩)))
      · exact Finset.mem_union_left _ (mem_nbrIds hnode _ h'')

/-- The path-reconstruction loop at the end of `compute_route`
(`while current is not None: path.append(current); current = previous[current]`
then `path.reverse()`).  The fuel argument is a modelling artifact: the Python
loop has no bound, and we prove below that the chain of `previous` pointers is
acyclic, so the fuel `visited.length + 1` used by `compute_route` is never
exhausted. -/
def reconstruct (prev : String → Option String) :
    Nat → Option String → List String → Option (List String)
  | 0, _, _ => none
  | _ + 1, none, path => some path.reverse
  | fuel + 1, some current, path => reconstruct prev fuel (prev current) (path ++ [current])

namespace DijkstraRouting

/-- `DijkstraRouting.compute_route` (src/simulation/routing.py lines 48-132). -/
def compute_route (net : Network) (source_id destination_id : String) :
    Option (List String) :=
  if (net.get_node source_id).isNone ∨ (net.get_node destination_id).isNone then
    none
  else if source_id = destination_id then some [source_id]
  else
    let st0 : DijkState :=
      { dist := fun node_id => if node_id = source_id then ((0 : ℚ) : WithTop ℚ) else ⊤
        prev := fun _ => none
        pq := [(0, source_id)]
        visited := [] }
    let st := dijkstraLoop net destination_id st0
    if st.dist destination_id = ⊤ then none
    else reconstruct st.prev (st.visited.length + 1) (some destination_id) []

/-- `DijkstraRouting.update_routing_tables`: recompute every (source, dest)
pair's route and store the next hop.  The Python loop iterates over the live
dict's keys; the body never adds or removes nodes, so iterating the initial
key list is faithful. -/
def update_routing_tables (net : Network) : Network :=
  (net.nodes.map (·.1)).foldl
    (fun acc source_id =>
      (net.nodes.map (·.1)).foldl
        (fun acc2 dest_id =>
          if source_id = dest_id then acc2
          else
            match compute_route acc2 source_id dest_id with
            | some (_ :: next_hop :: _) =>
              { acc2 with
                nodes := amodify source_id
                  (·.update_routing_table dest_id next_hop) acc2.nodes }
            | _ => acc2)
        acc)
    net

end DijkstraRouting

/-! ## `src/simulation/engine.py` — `SimulationEngine`

Packet objects are shared between `active_packets` and node queues, so the
engine owns `store : List Packet` and every list/queue holds indices into it
(object identity).  `random` and `time.time()` are oracles passed in by the
caller; `uuid` packet ids likewise. -/

instance : Inhabited Packet := ⟨ Packet.mk' "" "" "" 0⟩

/-- Read a packet object through its reference. -/
def getP (store : List Packet) (r : Nat) : Packet := store.getD r default

/-- Write a packet object back through its reference. -/
def setP (store : List Packet) (r : Nat) (p : Packet) : List Packet := store.set r p

/-- Modelled from the spec: `config.py` is imported by `src/simulation/engine.py`
but is not among the repository's source files.  The spec says only that the
engine's speed is "clamped to configured [min,max]", that generation and
refresh cadences are fixed simulated-time gates, and that a global in-flight
cap exists; the constants are therefore left abstract in a `Config`
parameter, and theorems state the spec-implied side conditions
(e.g. scenario 4 requires `0` to lie inside `[min,max]`). -/
structure Config where
  DEFAULT_SIMULATION_SPEED : ℚ
  PACKET_GENERATION_INTERVAL : ℚ
  MAX_PACKETS_IN_FLIGHT : Nat
  MIN_SIMULATION_SPEED : ℚ
  MAX_SIMULATION_SPEED : ℚ
  deriving Repr, DecidableEq

/-- `SimulationEngine`'s state (`last_update_time` is used only to seed the
wall-clock delta outside the core and is omitted; the routing strategy is the
default `DijkstraRouting`, the one the claims concern). -/
structure Engine where
  network : Network
  is_running : Bool
  simulation_time : ℚ
  simulation_speed : ℚ
  store : List Packet
  active_packets : List Nat
  delivered_packets : List Nat
  dropped_packets : List Nat
  last_packet_generation_time : ℚ
  last_routing_update : ℚ
  auto_generate : Bool
  demo_packet_id : Option String
  total_packets_generated : Nat
  average_latency : ℚ
  delivery_rate : ℚ
  deriving Repr, DecidableEq

namespace Engine

/-- `SimulationEngine.__init__`. -/
def mk' (cfg : Config) (network : Network) : Engine :=
  { network := network
    is_running := false
    simulation_time := 0
    simulation_speed := cfg.DEFAULT_SIMULATION_SPEED
    store := []
    active_packets := []
    delivered_packets := []
    dropped_packets := []
    last_packet_generation_time := 0
    last_routing_update := 0
    auto_generate := true
    demo_packet_id := none
    total_packets_generated := 0
    average_latency := 0
    delivery_rate := 0 }

/-- `SimulationEngine.start`. -/
def start (e : Engine) : Engine := { e with is_running := true }

/-- `SimulationEngine.pause`. -/
def pause (e : Engine) : Engine := { e with is_running := false }

/-- `SimulationEngine.reset`: clear derived state, node queues and counters.
(The Python packet objects become garbage; the model's store keeps their
final records, unreferenced.) -/
def reset (e : Engine) : Engine :=
  { e with
    is_running := false
    simulation_time := 0
    active_packets := []
    delivered_packets := []
    dropped_packets := []
    total_packets_generated := 0
    last_packet_generation_time := 0
    last_routing_update := 0
    auto_generate := true
    demo_packet_id := none
    network :=
      { e.network with
        nodes := e.network.nodes.map fun p =>
          (p.1, { p.2 with queue := p.2.queue.clear, packets_sent := 0,
                           packets_received := 0, packets_forwarded := 0,
                           packets_dropped := 0 })
        total_packets := 0
        delivered_packets := 0
        dropped_packets := 0 } }

/-- `SimulationEngine.set_speed`: clamp into the configured range. -/
def set_speed (cfg : Config) (e : Engine) (speed : ℚ) : Engine :=
  { e with
    simulation_speed :=
      max cfg.MIN_SIMULATION_SPEED (min speed cfg.MAX_SIMULATION_SPEED) }

/-- `SimulationEngine.generate_packet` (src/simulation/engine.py lines
152-185).  Returns the updated engine and the new packet's reference (`none`
when the packet was dropped at generation, matching the implicit `return
None`). -/
def generate_packet (e : Engine) (source_id destination_id pid : String)
    (now : ℚ) : Engine × Option Nat :=
  let packet := Packet.mk' pid source_id destination_id now
  match DijkstraRouting.compute_route e.network source_id destination_id with
  | some (_ :: next_hop :: _) =>
    let packet := { packet with next_hop_id := some next_hop }
    let r := e.store.length
    let e :=
      { e with
        store := e.store ++ [packet]
        active_packets := e.active_packets ++ [r]
        total_packets_generated := e.total_packets_generated + 1
        network := { e.network with total_packets := e.network.total_packets + 1 } }
    let e :=
      if (e.network.get_node source_id).isSome then
        { e with network := { e.network with
            nodes := amodify source_id
              (fun n => { n with packets_sent := n.packets_sent + 1 })
              e.network.nodes } }
      else e
    (e, some r)
  | _ =>
    let packet := packet.mark_dropped "No route available" now
    let r := e.store.length
    ({ e with
        store := e.store ++ [packet]
        dropped_packets := e.dropped_packets ++ [r] }, none)

/-- `SimulationEngine.generate_random_packet`: skip below two nodes or at the
in-flight cap; otherwise pick a random source and a distinct random
destination (the random draws are the index oracles `i`, `j`). -/
def generate_random_packet (cfg : Config) (e : Engine) (i j : Nat)
    (pid : String) (now : ℚ) : Engine :=
  if e.network.nodes.length < 2 then e
  else if cfg.MAX_PACKETS_IN_FLIGHT ≤ e.active_packets.length then e
  else
    let node_ids := e.network.nodes.map (·.1)
    let source_id := node_ids.getD (i % node_ids.length) ""
    let others := node_ids.filter (· ≠ source_id)
    let destination_id := others.getD (j % others.length) ""
    (e.generate_packet source_id destination_id pid now).1

/-- `Network.get_node` lifted to the packet's `Optional[str]` current node
(Python's `dict.get(None)` is `None`). -/
def getNodeOpt (net : Network) : Option String → Option Node
  | some node_id => net.get_node node_id
  | none => none

/-- `SimulationEngine._update_packet_movement`: advance `progress` along the
current link (base speed 0.5, normalized by `latency / 10`), clamped at 1.
Position interpolation and the link's `is_active` flag are visual and
omitted. -/
def update_packet_movement (net : Network) (p : Packet) (delta_time : ℚ) :
    Packet :=
  if ¬ strTruthy p.next_hop_id then p
  else
    match getNodeOpt net p.current_node_id,
        getNodeOpt net p.next_hop_id with
    | some _, some _ =>
      match net.get_link_between (p.current_node_id.getD "")
          (p.next_hop_id.getD "") with
      | none => p
      | some link =>
        let base_speed : ℚ := 1 / 2
        let speed := base_speed / (link.latency / 10)
        { p with progress := min (p.progress + speed * delta_time) 1 }
    | _, _ => p

/-- `SimulationEngine._handle_packet_arrival` on the packet reference `r`:
advance to the next hop, then deliver, queue (store-and-forward), or drop on
a full queue. -/
def handle_packet_arrival (e : Engine) (r : Nat) (now : ℚ) : Engine :=
  let p := (getP e.store r).advance_to_next_hop
  match getNodeOpt e.network p.current_node_id with
  | none => { e with store := setP e.store r (p.mark_dropped "Node not found" now) }
  | some current_node =>
    if p.current_node_id = some p.destination_id then
      { e with
        store := setP e.store r (p.mark_delivered now)
        network := { e.network with
          nodes := amodify current_node.id
            (fun n => { n with packets_received := n.packets_received + 1 })
            e.network.nodes } }
    else if (current_node.queue.enqueue r).2 then
      { e with
        store := setP e.store r p
        network := { e.network with
          nodes := amodify current_node.id
            (fun n => { n with queue := (n.queue.enqueue r).1,
                               packets_forwarded := n.packets_forwarded + 1 })
            e.network.nodes } }
    else
      { e with
        store := setP e.store r
          (p.mark_dropped ("Queue full at node " ++ current_node.id) now)
        network := { e.network with
          nodes := amodify current_node.id
            (fun n => { n with queue := (n.queue.enqueue r).1,
                               packets_dropped := n.packets_dropped + 1 })
            e.network.nodes } }

/-- One iteration of `_update_packets`' first loop: queue terminal packets for
removal (dropped ones only after the 0.5s wall-clock grace), move the rest,
and resolve arrivals at `progress ≥ 1`. -/
def updPacketStep (delta_time now : ℚ) (acc : Engine × List Nat) (r : Nat) :
    Engine × List Nat :=
  let (e, to_remove) := acc
  let p := getP e.store r
  if p.is_delivered then (e, to_remove ++ [r])
  else if p.is_dropped then
    if 1 / 2 < now - p.delivery_time.getD 0 then (e, to_remove ++ [r])
    else (e, to_remove)
  else
    let p1 := update_packet_movement e.network p delta_time
    let e := { e with store := setP e.store r p1 }
    if 1 ≤ p1.progress then (handle_packet_arrival e r now, to_remove)
    else (e, to_remove)

/-- One iteration of `_update_packets`' removal loop: drop the reference from
`active_packets` and file it under delivered or dropped (with the matching
network counter). -/
def removePacketStep (e : Engine) (r : Nat) : Engine :=
  let e := { e with active_packets := e.active_packets.erase r }
  if (getP e.store r).is_delivered then
    { e with
      delivered_packets := e.delivered_packets ++ [r]
      network := { e.network with
        delivered_packets := e.network.delivered_packets + 1 } }
  else
    { e with
      dropped_packets := e.dropped_packets ++ [r]
      network := { e.network with
        dropped_packets := e.network.dropped_packets + 1 } }

/-- `SimulationEngine._update_packets`. -/
def update_packets (e : Engine) (delta_time now : ℚ) : Engine :=
  let (e1, to_remove) :=
    e.active_packets.foldl (updPacketStep delta_time now) (e, [])
  to_remove.foldl removePacketStep e1

/-- The `while not node.queue.is_full()` filler loop of
`_process_node_queue`'s force-congestion branch: allocate a fresh dummy
packet (`Packet(f"BLOCK_{node.id}", node.id, "NOWHERE")` — the third argument
binds the unread `size` parameter) and enqueue it.  The fuel
`node.queue.max_size` bounds the loop; each pass grows the queue by one, so
the fuel is never the reason the loop stops. -/
def fillQueue (node_id : String) (dummyIds : Nat → String) (now : ℚ) :
    Engine → Nat → Engine
  | e, 0 => e
  | e, k + 1 =>
    match e.network.get_node node_id with
    | none => e
    | some node =>
      if node.queue.is_full then e
      else
        let dummy := Packet.mk' (dummyIds k) ("BLOCK_" ++ node_id) node_id now
        let r := e.store.length
        let e :=
          { e with
            store := e.store ++ [dummy]
            network := { e.network with
              nodes := amodify node_id
                (fun n => { n with queue := (n.queue.enqueue r).1 })
                e.network.nodes } }
        fillQueue node_id dummyIds now e k

/-- `SimulationEngine._process_node_queue` for the node `node_id`.
`drain` is the oracle for `random.random() <= 0.05` (the 5% per-tick drain
gate); `dummyIds` supplies dummy-packet uuids. -/
def process_node_queue (e : Engine) (node_id : String) (drain : Bool)
    (dummyIds : Nat → String) (now : ℚ) : Engine :=
  match e.network.get_node node_id with
  | none => e
  | some node =>
    if node.force_congested then
      let e := fillQueue node_id dummyIds now e node.queue.max_size
      { e with network := { e.network with
          nodes := amodify node_id (·.update_congestion_state) e.network.nodes } }
    else if node.queue.is_empty then e
    else if ¬ drain then e
    else
      let (q', res) := node.queue.dequeue
      let e := { e with network := { e.network with
        nodes := amodify node_id (fun n => { n with queue := q' }) e.network.nodes } }
      match res with
      | none => e
      | some r =>
        let p := getP e.store r
        let route :=
          match p.current_node_id with
          | some c => DijkstraRouting.compute_route e.network c p.destination_id
          | none => none
        match route with
        | some (_ :: next_hop :: _) =>
          { e with store := setP e.store r { p with next_hop_id := some next_hop } }
        | _ =>
          { e with
            store := setP e.store r
              (p.mark_dropped "No route from queued node" now)
            network := { e.network with
              nodes := amodify node_id
                (fun n => { n with packets_dropped := n.packets_dropped + 1 })
                e.network.nodes } }

/-- `SimulationEngine._update_congestion_states`. -/
def update_congestion_states (e : Engine) : Engine :=
  { e with network := { e.network with
      nodes := e.network.nodes.map fun p => (p.1, p.2.update_congestion_state) } }

/-- `SimulationEngine._update_statistics`: percentage delivery rate when any
packet has completed, and the mean latency over delivered packets with truthy
latencies (`if p.get_latency()` drops `None` and exact-zero values). -/
def update_statistics (e : Engine) : Engine :=
  let total_completed := e.delivered_packets.length + e.dropped_packets.length
  let e :=
    if 0 < total_completed then
      { e with delivery_rate :=
          ((e.delivered_packets.length : ℚ) / (total_completed : ℚ)) * 100 }
    else e
  if e.delivered_packets.isEmpty then e
  else
    let latencies :=
      (e.delivered_packets.filterMap fun r => (getP e.store r).get_latency).filter
        (fun l => l ≠ 0)
    { e with average_latency :=
        if latencies.isEmpty then 0
        else latencies.sum / (latencies.length : ℚ) }

/-- The statistics dictionary `SimulationEngine.get_statistics` returns. -/
structure Stats where
  total_generated : Nat
  active : Nat
  delivered : Nat
  dropped : Nat
  delivery_rate : ℚ
  average_latency : ℚ
  simulation_time : ℚ
  deriving Repr, DecidableEq

/-- `SimulationEngine.get_statistics`. -/
def get_statistics (e : Engine) : Stats :=
  { total_generated := e.total_packets_generated
    active := e.active_packets.length
    delivered := e.delivered_packets.length
    dropped := e.dropped_packets.length
    delivery_rate := e.delivery_rate
    average_latency := e.average_latency
    simulation_time := e.simulation_time }

/-- The random/uuid draws one call to `SimulationEngine.update` consumes. -/
structure UpdOracle where
  srcIdx : Nat
  dstIdx : Nat
  pid : String
  drain : String → Bool
  dummyIds : String → Nat → String

/-- `SimulationEngine.update` (src/simulation/engine.py lines 89-135): the
per-tick pipeline — clock, auto-generation gate, demo-packet check, packet
movement/arrival/removal, per-node queue draining, congestion recomputation,
the 0.5s routing-refresh gate, statistics. -/
def update (cfg : Config) (e : Engine) (delta_time : ℚ) (o : UpdOracle)
    (now : ℚ) : Engine :=
  if ¬ e.is_running then e
  else
    let e := { e with
      simulation_time := e.simulation_time + delta_time * e.simulation_speed }
    let e :=
      if e.auto_generate ∧
          cfg.PACKET_GENERATION_INTERVAL ≤
            e.simulation_time - e.last_packet_generation_time then
        let e1 := generate_random_packet cfg e o.srcIdx o.dstIdx o.pid now
        { e1 with last_packet_generation_time := e1.simulation_time }
      else e
    let e :=
      if strTruthy e.demo_packet_id then
        if ¬ e.active_packets.any
            (fun r => (getP e.store r).id = e.demo_packet_id.getD "") then
          { e with auto_generate := true, demo_packet_id := none }
        else e
      else e
    let e := update_packets e (delta_time * e.simulation_speed) now
    let e :=
      (e.network.nodes.map (·.1)).foldl
        (fun acc nid =>
          process_node_queue acc nid (o.drain nid) (o.dummyIds nid) now)
        e
    let e := update_congestion_states e
    let e :=
      if 1 / 2 ≤ e.simulation_time - e.last_routing_update then
        { e with
          network := DijkstraRouting.update_routing_tables e.network
          last_routing_update := e.simulation_time }
      else e
    update_statistics e

/-- The `toggle_constant_congestion` external command (src/main.py lines
307-323): flip the force-congestion flag, clear the queue when turning it
off, and force an immediate routing refresh. -/
def toggle_force_congested (e : Engine) (node_id : String) : Engine :=
  match e.network.get_node node_id with
  | none => e
  | some _ =>
    let nodes1 := amodify node_id
      (fun n =>
        let n := { n with force_congested := !n.force_congested }
        if ¬ n.force_congested then
          ({ n with queue := n.queue.clear }).update_congestion_state
        else n)
      e.network.nodes
    { e with network :=
        DijkstraRouting.update_routing_tables { e.network with nodes := nodes1 } }

/-- The "force an immediate routing-table refresh" external command. -/
def force_refresh (e : Engine) : Engine :=
  { e with network := DijkstraRouting.update_routing_tables e.network }

end Engine

/-! ## Reachable network states and the topology invariant -/

/-- Network states reachable by a sequence of `add_node`, `remove_node`,
`add_link`, `remove_link` from the empty network (nodes and links built by
their constructors, as every caller does). -/
inductive Network.Reachable : Network → Prop
  | empty : Network.Reachable Network.empty
  | add_node (net : Network) (node_id : String) :
      Network.Reachable net →
      Network.Reachable (net.add_node (Node.mk' node_id)).1
  | remove_node (net : Network) (node_id : String) :
      Network.Reachable net → Network.Reachable (net.remove_node node_id).1
  | add_link (net : Network) (link_id source_id target_id : String)
      (bandwidth latency : ℚ) (bidirectional : Bool) :
      Network.Reachable net →
      Network.Reachable
        (net.add_link
          (Link.mk' link_id source_id target_id bandwidth latency
            bidirectional)).1
  | remove_link (net : Network) (link_id : String) :
      Network.Reachable net → Network.Reachable (net.remove_link link_id).1

/-- A live link that justifies `m` standing in `n`'s neighbor list: `(n, m)`
directly, or `(m, n)` for a bidirectional link. -/
def linksPair (link : Link) (n m : String) : Prop :=
  (link.source_id = n ∧ link.target_id = m) ∨
    (link.bidirectional = true ∧ link.source_id = m ∧ link.target_id = n)

instance (link : Link) (n m : String) : Decidable (linksPair link n m) :=
  inferInstanceAs (Decidable (_ ∨ _))

/-- The topology invariant the mutators maintain: unique keys, keys matching
ids, link endpoints present, every neighbor-list entry justified by a live
link, and duplicate-free neighbor lists. -/
structure NetInv (net : Network) : Prop where
  keys_nodup : (net.nodes.map (·.1)).Nodup
  link_keys_nodup : (net.links.map (·.1)).Nodup
  node_id_eq : ∀ n nd, net.get_node n = some nd → nd.id = n
  endpoints : ∀ q ∈ net.links,
    (alookup q.2.source_id net.nodes).isSome = true ∧
      (alookup q.2.target_id net.nodes).isSome = true
  neighbor_link : ∀ n m, m ∈ net.get_neighbors n →
    ∃ q ∈ net.links, linksPair q.2 n m
  neighbors_nodup : ∀ n, (net.get_neighbors n).Nodup

/-! ## Neighbor-edge paths and their adaptive cost (for §4.3's contract) -/

/-- The neighbor-edge relation the routing algorithms traverse: `b` stands in
`a`'s current neighbor list and `get_link_between` finds a link for the pair. -/
def Adj (net : Network) (a b : String) : Prop :=
  b ∈ net.get_neighbors a ∧ (net.get_link_between a b).isSome = true

instance (net : Network) (a b : String) : Decidable (Adj net a b) :=
  inferInstanceAs (Decidable (_ ∧ _))

/-- Neighbor-edge paths from `src` (inclusive node-id lists, extended at the
far end). -/
inductive IsPath (net : Network) (src : String) : String → List String → Prop
  | refl : IsPath net src src [src]
  | snoc (u v : String) (p : List String) :
      IsPath net src u p → Adj net u v → IsPath net src v (p ++ [v])

/-- Total cost of a node-id list under the adaptive edge cost. -/
def pathCost (net : Network) : List String → ℚ
  | a :: b :: rest => dijkstraEdgeCost net a b + pathCost net (b :: rest)
  | _ => 0

/-! ## Engine operations and reachable engine states -/

/-- All packet references currently sitting in some node's queue. -/
def queuedRefs (net : Network) : List Nat :=
  net.nodes.foldr (fun p acc => p.2.queue.queue ++ acc) []

/-- One public engine operation (the engine API of §6 plus the two documented
escape hatches; random draws, wall-clock samples and uuids are universally
quantified oracle arguments). -/
inductive EStep (cfg : Config) : Engine → Engine → Prop
  | start (e : Engine) : EStep cfg e e.start
  | pause (e : Engine) : EStep cfg e e.pause
  | reset (e : Engine) : EStep cfg e e.reset
  | set_speed (e : Engine) (v : ℚ) : EStep cfg e (e.set_speed cfg v)
  | generate_packet (e : Engine) (src dst pid : String) (now : ℚ) :
      EStep cfg e (e.generate_packet src dst pid now).1
  | generate_random (e : Engine) (i j : Nat) (pid : String) (now : ℚ) :
      EStep cfg e (Engine.generate_random_packet cfg e i j pid now)
  | update (e : Engine) (delta : ℚ) (o : Engine.UpdOracle) (now : ℚ) :
      EStep cfg e (e.update cfg delta o now)
  | toggle_force (e : Engine) (nid : String) :
      EStep cfg e (e.toggle_force_congested nid)
  | force_refresh (e : Engine) : EStep cfg e e.force_refresh
  | set_demo (e : Engine) (d : Option String) :
      EStep cfg e { e with demo_packet_id := d, auto_generate := false }

/-- Engine states reachable through engine operations, starting from an
engine built over any reachable network. -/
inductive EReachable (cfg : Config) : Engine → Prop
  | init (net : Network) :
      Network.Reachable net → EReachable cfg (Engine.mk' cfg net)
  | step {e e' : Engine} :
      EReachable cfg e → EStep cfg e e' → EReachable cfg e'

/-- The packet-lifecycle invariant the engine maintains: queued references
point below the store's length, no packet is both delivered and dropped,
queued packets are in-flight with no resolved next hop and zero progress,
no reference sits in two queue slots, an in-flight packet at full
progress always has a (truthy) resolved next hop, and every node value
carries its own dictionary key as `id`. -/
structure EInv (e : Engine) : Prop where
  queued_lt : ∀ r ∈ queuedRefs e.network, r < e.store.length
  flags : ∀ p ∈ e.store, ¬(p.is_delivered = true ∧ p.is_dropped = true)
  queued_ok : ∀ r ∈ queuedRefs e.network,
    (getP e.store r).is_delivered = false ∧
      (getP e.store r).is_dropped = false ∧
      (getP e.store r).next_hop_id = none ∧ (getP e.store r).progress = 0
  queued_nodup : (queuedRefs e.network).Nodup
  prog_ok : ∀ p ∈ e.store, p.is_delivered = false → p.is_dropped = false →
    1 ≤ p.progress → strTruthy p.next_hop_id = true
  ids_ok : ∀ p ∈ e.network.nodes, p.2.id = p.1

/-- Terminal packets are immutable across a state change: any store entry
already delivered or dropped is bit-for-bit unchanged. -/
def terminalFrozen (e e' : Engine) : Prop :=
  ∀ r p, e.store.get? r = some p →
    (p.is_delivered = true ∨ p.is_dropped = true) → e'.store.get? r = some p

/-! ## Operation alphabets and concrete instances used by witnesses -/

/-- A queue operation (for quantifying over arbitrary enqueue/dequeue
sequences). -/
inductive QOp where
  | enq (r : Nat)
  | deq
  deriving Repr, DecidableEq

/-- Apply one queue operation. -/
def applyQOp (q : PacketQueue) : QOp → PacketQueue
  | .enq r => (q.enqueue r).1
  | .deq => q.dequeue.1

/-- A 3-node line topology A—B—C (scenario 1 of the spec), built through the
public mutators. -/
def sampleNet : Network :=
  (((((Network.empty.add_node ( Node.mk' "A")).1.add_node
      ( Node.mk' "B")).1.add_node ( Node.mk' "C")).1.add_link
      ( Link.mk' "L1" "A" "B" 100 10 true)).1.add_link
      ( Link.mk' "L2" "B" "C" 100 10 true)).1

/-- Two parallel links between the same pair, then one removed: the state
that separates the live link set from the neighbor lists. -/
def c3CexNet : Network :=
  (((((Network.empty.add_node ( Node.mk' "a")).1.add_node
      ( Node.mk' "b")).1.add_link
      ( Link.mk' "L1" "a" "b" 100 10 true)).1.add_link
      ( Link.mk' "L2" "a" "b" 100 10 true)).1.remove_link "L1").1

/-- The invariant `dijkstraLoop` maintains, parametrized by one settled node
`excl` whose outgoing edges have not been relaxed yet (after the relaxation
fold, `excl`'s frontier property is restored and the full invariant holds:
see `DInvX.toFull`). -/
structure DInvX (net : Network) (source : String) (st : DijkState)
    (excl : String) : Prop where
  pq_dist : ∀ e ∈ st.pq, st.dist e.2 ≤ ((e.1 : ℚ) : WithTop ℚ)
  pq_reach : ∀ e ∈ st.pq, ∃ p, IsPath net source e.2 p ∧ pathCost net p = e.1
  dist_reach : ∀ v (q : ℚ), st.dist v = (q : WithTop ℚ) →
    ∃ p, IsPath net source v p ∧ pathCost net p = q
  visited_min : ∀ v ∈ st.visited, ∀ p, IsPath net source v p →
    st.dist v ≤ ((pathCost net p : ℚ) : WithTop ℚ)
  visited_frontier : ∀ v ∈ st.visited, v ≠ excl → ∀ u, Adj net v u →
    u ∉ st.visited →
    st.dist u ≤ st.dist v + ((dijkstraEdgeCost net v u : ℚ) : WithTop ℚ)
  unvisited_pq : ∀ v (q : ℚ), v ∉ st.visited → st.dist v = (q : WithTop ℚ) →
    (q, v) ∈ st.pq
  dist_source : st.dist source = ((0 : ℚ) : WithTop ℚ)
  prev_none : st.prev source = none
  prev_some : ∀ v u, st.prev v = some u → Adj net u v ∧ u ∈ st.visited ∧
    st.dist v = st.dist u + ((dijkstraEdgeCost net u v : ℚ) : WithTop ℚ) ∧
    (v ∈ st.visited → st.visited.indexOf u < st.visited.indexOf v)
  prev_of_dist : ∀ v (q : ℚ), v ≠ source → st.dist v = (q : WithTop ℚ) →
    ∃ u, st.prev v = some u
  visited_dist : ∀ v ∈ st.visited, ∃ q : ℚ, st.dist v = (q : WithTop ℚ)
  visited_nodup : st.visited.Nodup
  init_case : st.visited = [] → st.pq = [((0 : ℚ), source)] ∧
    st.prev = (fun _ => none) ∧
    st.dist = fun v => if v = source then ((0 : ℚ) : WithTop ℚ) else ⊤
  source_mem : st.visited ≠ [] → source ∈ st.visited

/-- The full loop invariant: `DInvX` with no excluded settled node (the
excluded name is chosen outside the visited list). -/
def DInv (net : Network) (source : String) (st : DijkState) : Prop :=
  ∀ excl, DInvX net source st excl

/-- What holds of the loop's final state: enough to reconstruct the path,
prove it minimal, and read unreachability off `⊤`. -/
structure FinalInv (net : Network) (source destination : String)
    (st : DijkState) : Prop where
  dist_reach : ∀ v (q : ℚ), st.dist v = (q : WithTop ℚ) →
    ∃ p, IsPath net source v p ∧ pathCost net p = q
  visited_min : ∀ v ∈ st.visited, ∀ p, IsPath net source v p →
    st.dist v ≤ ((pathCost net p : ℚ) : WithTop ℚ)
  dist_source : st.dist source = ((0 : ℚ) : WithTop ℚ)
  prev_none : st.prev source = none
  prev_some : ∀ v u, st.prev v = some u → Adj net u v ∧ u ∈ st.visited ∧
    st.dist v = st.dist u + ((dijkstraEdgeCost net u v : ℚ) : WithTop ℚ) ∧
    (v ∈ st.visited → st.visited.indexOf u < st.visited.indexOf v)
  prev_of_dist : ∀ v (q : ℚ), v ≠ source → st.dist v = (q : WithTop ℚ) →
    ∃ u, st.prev v = some u
  visited_dist : ∀ v ∈ st.visited, ∃ q : ℚ, st.dist v = (q : WithTop ℚ)
  dest_unreach : st.dist destination = ⊤ →
    ∀ p, ¬IsPath net source destination p
  dest_visited : ∀ q : ℚ, st.dist destination = (q : WithTop ℚ) →
    destination ∈ st.visited

/-! ## Association-list lemmas -/

theorem alookup_eq_none {l : List (String × α)} {k : String} :
    alookup k l = none ↔ k ∉ l.map (·.1) := by
  induction l with
  | nil => simp [alookup]
  | cons p rest ih =>
    rcases p with ⟨k', v⟩
    by_cases h : k' = k
    · subst h; simp [alookup]
    · simp [alookup, h, ih, Ne.symm h]

theorem alookup_isSome_of_mem {l : List (String × α)} {k : String} {v : α}
    (h : (k, v) ∈ l) : (alookup k l).isSome = true := by
  cases ha : alookup k l with
  | some _ => rfl
  | none =>
    exact absurd (List.mem_map.mpr ⟨(k, v), h, rfl⟩) (alookup_eq_none.mp ha)

theorem alookup_eq_some_of_mem {l : List (String × α)} {k : String} {v : α}
    (hnd : (l.map (·.1)).Nodup) (h : (k, v) ∈ l) : alookup k l = some v := by
  induction l with
  | nil => simp at h
  | cons p rest ih =>
    rcases p with ⟨k', v'⟩
    simp only [List.map_cons, List.nodup_cons] at hnd
    rcases List.mem_cons.mp h with h' | h'
    · obtain ⟨h1, h2⟩ := Prod.ext_iff.mp h'
      simp only [] at h1 h2
      simp [alookup, ← h1, ← h2]
    · have hk : k' ≠ k := fun hkk =>
        hnd.1 (by rw [hkk]; exact List.mem_map.mpr ⟨(k, v), h', rfl⟩)
      simp [alookup, hk, ih hnd.2 h']

theorem aerase_sublist (k : String) (l : List (String × α)) :
    (aerase k l).Sublist l := by
  induction l with
  | nil => simp [aerase]
  | cons p rest ih =>
    rcases p with ⟨k', v⟩
    by_cases h : k' = k
    · simp [aerase, h]
    · simpa [aerase, h] using ih.cons₂ (k', v)

theorem mem_aerase_of_ne {l : List (String × α)} {p : String × α} {k : String}
    (h : p ∈ l) (hne : p.1 ≠ k) : p ∈ aerase k l := by
  induction l with
  | nil => simp at h
  | cons q rest ih =>
    rcases q with ⟨k', v⟩
    rcases List.mem_cons.mp h with h' | h'
    · subst h'
      simp [aerase, fun hc : k' = k => hne hc]
    · by_cases hk : k' = k
      · simpa [aerase, hk] using h'
      · simpa [aerase, hk] using Or.inr (ih h')

theorem alookup_aerase_ne {l : List (String × α)} {k k' : String}
    (h : k' ≠ k) : alookup k' (aerase k l) = alookup k' l := by
  induction l with
  | nil => simp [aerase]
  | cons p rest ih =>
    rcases p with ⟨k0, v⟩
    by_cases h0 : k0 = k
    · have hkk : k ≠ k' := fun hc => h hc.symm
      simp [aerase, h0, alookup, hkk]
    · simp only [aerase, if_neg h0, alookup]
      rw [ih]

theorem amodify_map_fst (k : String) (f : α → α) (l : List (String × α)) :
    (amodify k f l).map (·.1) = l.map (·.1) := by
  induction l with
  | nil => rfl
  | cons p rest ih =>
    rcases p with ⟨k', v⟩
    by_cases h : k' = k
    · simp [amodify, h]
    · simp [amodify, h, ih]

theorem mem_amodify_weak {l : List (String × α)} {k : String} {f : α → α}
    {p : String × α} (h : p ∈ amodify k f l) :
    p ∈ l ∨ ∃ v, (k, v) ∈ l ∧ p = (k, f v) := by
  induction l with
  | nil => simp [amodify] at h
  | cons q rest ih =>
    rcases q with ⟨k', v'⟩
    by_cases hk : k' = k
    · subst hk
      simp only [amodify, if_pos rfl] at h
      rcases List.mem_cons.mp h with h' | h'
      · exact Or.inr ⟨v', List.mem_cons_self .., h'⟩
      · exact Or.inl (List.mem_cons_of_mem _ h')
    · simp only [amodify, if_neg hk] at h
      rcases List.mem_cons.mp h with h' | h'
      · exact Or.inl (h' ▸ List.mem_cons_self ..)
      · rcases ih h' with h'' | ⟨v, hv, hp⟩
        · exact Or.inl (List.mem_cons_of_mem _ h'')
        · exact Or.inr ⟨v, List.mem_cons_of_mem _ hv, hp⟩

theorem mem_amodify_of_ne {l : List (String × α)} {k : String} {f : α → α}
    {p : String × α} (h : p ∈ l) (hne : p.1 ≠ k) : p ∈ amodify k f l := by
  induction l with
  | nil => simp at h
  | cons q rest ih =>
    rcases q with ⟨k', v'⟩
    rcases List.mem_cons.mp h with h' | h'
    · subst h'
      by_cases hk : k' = k
      · exact absurd hk hne
      · simp [amodify, hk]
    · by_cases hk : k' = k
      · simp only [amodify, if_pos hk]
        exact List.mem_cons_of_mem _ h'
      · simp only [amodify, if_neg hk]
        exact List.mem_cons_of_mem _ (ih h')

theorem alookup_amodify_ne {l : List (String × α)} {k k' : String} {f : α → α}
    (h : k' ≠ k) : alookup k' (amodify k f l) = alookup k' l := by
  induction l with
  | nil => rfl
  | cons p rest ih =>
    rcases p with ⟨k0, v⟩
    by_cases h0 : k0 = k
    · have hkk : k ≠ k' := fun hc => h hc.symm
      simp [amodify, h0, alookup, hkk]
    · simp only [amodify, if_neg h0, alookup]
      rw [ih]

theorem alookup_decomp {l : List (String × α)} {k : String} {v : α}
    (hnd : (l.map (·.1)).Nodup) (h : alookup k l = some v) :
    ∃ l1 l2, l = l1 ++ (k, v) :: l2 ∧ k ∉ l1.map (·.1) ∧ k ∉ l2.map (·.1) := by
  induction l with
  | nil => simp [alookup] at h
  | cons p rest ih =>
    rcases p with ⟨k', v'⟩
    simp only [List.map_cons, List.nodup_cons] at hnd
    by_cases hk : k' = k
    · subst hk
      have hv : v' = v := by simpa [alookup] using h
      subst hv
      exact ⟨[], rest, by simp, by simp, hnd.1⟩
    · simp only [alookup, if_neg hk] at h
      obtain ⟨l1, l2, hl, h1, h2⟩ := ih hnd.2 h
      exact ⟨(k', v') :: l1, l2, by simp [hl], by simp [h1, Ne.symm hk], h2⟩

theorem amodify_append_notin {l1 l2 : List (String × α)} {k : String}
    (f : α → α) (h : k ∉ l1.map (·.1)) {v : α} :
    amodify k f (l1 ++ (k, v) :: l2) = l1 ++ (k, f v) :: l2 := by
  induction l1 with
  | nil => simp [amodify]
  | cons p rest ih =>
    rcases p with ⟨k', v'⟩
    simp only [List.map_cons, List.mem_cons] at h
    push_neg at h
    have hne : k' ≠ k := Ne.symm h.1
    simp [amodify, hne, ih h.2]

theorem alookup_append_notin {l1 l2 : List (String × α)} {k : String}
    (h : k ∉ l1.map (·.1)) {v : α} :
    alookup k (l1 ++ (k, v) :: l2) = some v := by
  induction l1 with
  | nil => simp [alookup]
  | cons p rest ih =>
    rcases p with ⟨k', v'⟩
    simp only [List.map_cons, List.mem_cons] at h
    push_neg at h
    have hne : k' ≠ k := Ne.symm h.1
    simp [alookup, hne, ih h.2]

theorem alookup_append_left {l1 l2 : List (String × α)} {k : String}
    (h : k ∉ l1.map (·.1)) : alookup k (l1 ++ l2) = alookup k l2 := by
  induction l1 with
  | nil => rfl
  | cons p rest ih =>
    rcases p with ⟨k', v'⟩
    simp only [List.map_cons, List.mem_cons] at h
    push_neg at h
    have hne : k' ≠ k := Ne.symm h.1
    simp [alookup, hne, ih h.2]

theorem alookup_append_of_some {l1 l2 : List (String × α)} {k : String} {v : α}
    (h : alookup k l1 = some v) : alookup k (l1 ++ l2) = some v := by
  induction l1 with
  | nil => simp [alookup] at h
  | cons p rest ih =>
    rcases p with ⟨k', v'⟩
    by_cases hk : k' = k
    · simpa [alookup, hk] using h
    · simp only [alookup, if_neg hk] at h ⊢
      exact ih h

theorem alookup_amodify_self {l : List (String × α)} {k : String} {f : α → α} :
    alookup k (amodify k f l) = (alookup k l).map f := by
  induction l with
  | nil => rfl
  | cons p rest ih =>
    rcases p with ⟨k', v'⟩
    by_cases hk : k' = k
    · simp [amodify, alookup, hk]
    · simp only [amodify, if_neg hk, alookup, if_neg hk]
      exact ih

theorem mem_aerase_nodup {l : List (String × α)} {k : String}
    (hnd : (l.map (·.1)).Nodup) {p : String × α} :
    p ∈ aerase k l ↔ p ∈ l ∧ p.1 ≠ k := by
  constructor
  · intro h
    refine ⟨(aerase_sublist k l).mem h, ?_⟩
    induction l with
    | nil => simp [aerase] at h
    | cons q rest ih =>
      rcases q with ⟨k0, v0⟩
      simp only [List.map_cons, List.nodup_cons] at hnd
      by_cases hk : k0 = k
      · subst hk
        simp only [aerase, if_pos rfl] at h
        intro hc
        exact hnd.1 (hc ▸ List.mem_map.mpr ⟨p, h, rfl⟩)
      · simp only [aerase, if_neg hk] at h
        rcases List.mem_cons.mp h with h' | h'
        · subst h'
          exact hk
        · exact ih hnd.2 h'
  · intro ⟨h1, h2⟩
    exact mem_aerase_of_ne h1 h2

theorem alookup_aerase_self {l : List (String × α)} {k : String}
    (hnd : (l.map (·.1)).Nodup) : alookup k (aerase k l) = none := by
  cases h : alookup k (aerase k l) with
  | none => rfl
  | some v =>
    have hm := alookup_mem h
    exact absurd ((mem_aerase_nodup hnd).mp hm).2 (by simp)

/-! ## Small `Node` helpers -/

theorem add_neighbor_id (n : Node) (m : String) :
    (n.add_neighbor m).id = n.id := by
  unfold Node.add_neighbor
  split <;> rfl

theorem remove_neighbor_id (n : Node) (m : String) :
    (n.remove_neighbor m).id = n.id := rfl

theorem mem_add_neighbor {n : Node} {m m0 : String} :
    m ∈ (n.add_neighbor m0).neighbors ↔ m ∈ n.neighbors ∨ m = m0 := by
  unfold Node.add_neighbor
  split
  · constructor
    · exact Or.inl
    · intro h
      rcases h with h | h
      · exact h
      · subst h; assumption
  · simp

theorem add_neighbor_nodup {n : Node} {m0 : String} (h : n.neighbors.Nodup) :
    (n.add_neighbor m0).neighbors.Nodup := by
  unfold Node.add_neighbor
  split
  · exact h
  · simpa [List.nodup_append] using ⟨h, by assumption⟩

theorem mem_remove_neighbor {n : Node} {m m0 : String}
    (h : m ∈ (n.remove_neighbor m0).neighbors) : m ∈ n.neighbors :=
  (n.neighbors.erase_sublist m0).mem h

theorem remove_neighbor_nodup {n : Node} {m0 : String}
    (h : n.neighbors.Nodup) : (n.remove_neighbor m0).neighbors.Nodup :=
  h.sublist (n.neighbors.erase_sublist m0)

theorem not_mem_remove_neighbor {n : Node} {m0 : String}
    (h : n.neighbors.Nodup) : m0 ∉ (n.remove_neighbor m0).neighbors :=
  h.not_mem_erase

/-! ## The topology invariant is maintained -/

theorem netInv_empty : NetInv Network.empty := by
  constructor <;> simp [Network.empty, Network.get_node, Network.get_neighbors,
    alookup]

theorem get_neighbors_of_some {net : Network} {n : String} {nd : Node}
    (h : alookup n net.nodes = some nd) : net.get_neighbors n = nd.neighbors := by
  unfold Network.get_neighbors Network.get_node
  rw [h]

theorem get_neighbors_of_none {net : Network} {n : String}
    (h : alookup n net.nodes = none) : net.get_neighbors n = [] := by
  unfold Network.get_neighbors Network.get_node
  rw [h]

/-- The neighbor list an association list of nodes yields for `n`
(`Network.get_neighbors` seen through `nodes`). -/
def neighborsOf (nodes : List (String × Node)) (n : String) : List String :=
  match alookup n nodes with
  | some nd => nd.neighbors
  | none => []

theorem get_neighbors_neighborsOf (net : Network) (n : String) :
    net.get_neighbors n = neighborsOf net.nodes n := rfl

theorem alookup_append_single {l : List (String × α)} {k0 : String} {v0 : α}
    (hnotin : k0 ∉ l.map (·.1)) (x : String) :
    alookup x (l ++ [(k0, v0)]) = if x = k0 then some v0 else alookup x l := by
  by_cases hx : x = k0
  · subst hx
    rw [if_pos rfl, alookup_append_left hnotin]
    simp [alookup]
  · rw [if_neg hx]
    cases ha : alookup x l with
    | some v => exact alookup_append_of_some ha
    | none =>
      rw [alookup_append_left (alookup_eq_none.mp ha)]
      simp [alookup, Ne.symm hx, ha]

theorem mem_neighborsOf_addnb {nodes : List (String × Node)} {s t n m : String}
    (hm : m ∈ neighborsOf (amodify s (·.add_neighbor t) nodes) n) :
    m ∈ neighborsOf nodes n ∨ (n = s ∧ m = t) := by
  unfold neighborsOf at hm ⊢
  by_cases hn : n = s
  · subst hn
    rw [alookup_amodify_self] at hm
    cases ha : alookup n nodes with
    | some nd =>
      rw [ha] at hm
      simp only [Option.map_some'] at hm
      rcases mem_add_neighbor.mp hm with h' | h'
      · exact Or.inl h'
      · exact Or.inr ⟨rfl, h'⟩
    | none => rw [ha] at hm; cases hm
  · rw [alookup_amodify_ne hn] at hm
    exact Or.inl hm

theorem nodup_neighborsOf_addnb {nodes : List (String × Node)} {s t : String}
    (hnd : ∀ n, (neighborsOf nodes n).Nodup) (n : String) :
    (neighborsOf (amodify s (·.add_neighbor t) nodes) n).Nodup := by
  unfold neighborsOf
  by_cases hn : n = s
  · subst hn
    rw [alookup_amodify_self]
    cases ha : alookup n nodes with
    | some nd =>
      simp only [Option.map_some']
      apply add_neighbor_nodup
      have := hnd n
      unfold neighborsOf at this
      rw [ha] at this
      exact this
    | none => simp
  · rw [alookup_amodify_ne hn]
    have := hnd n
    unfold neighborsOf at this
    exact this

theorem mem_neighborsOf_rmnb {nodes : List (String × Node)} {s t n m : String}
    (hnd : ∀ n, (neighborsOf nodes n).Nodup)
    (hm : m ∈ neighborsOf (amodify s (·.remove_neighbor t) nodes) n) :
    m ∈ neighborsOf nodes n ∧ ¬(n = s ∧ m = t) := by
  unfold neighborsOf at hm ⊢
  by_cases hn : n = s
  · subst hn
    rw [alookup_amodify_self] at hm
    cases ha : alookup n nodes with
    | some nd =>
      rw [ha] at hm
      simp only [Option.map_some'] at hm
      have hnd' : nd.neighbors.Nodup := by
        have := hnd n
        unfold neighborsOf at this
        rw [ha] at this
        exact this
      refine ⟨mem_remove_neighbor hm, ?_⟩
      rintro ⟨-, rfl⟩
      exact not_mem_remove_neighbor hnd' hm
    | none => rw [ha] at hm; cases hm
  · rw [alookup_amodify_ne hn] at hm
    exact ⟨hm, fun hc => hn hc.1⟩

theorem nodup_neighborsOf_rmnb {nodes : List (String × Node)} {s t : String}
    (hnd : ∀ n, (neighborsOf nodes n).Nodup) (n : String) :
    (neighborsOf (amodify s (·.remove_neighbor t) nodes) n).Nodup := by
  unfold neighborsOf
  by_cases hn : n = s
  · subst hn
    rw [alookup_amodify_self]
    cases ha : alookup n nodes with
    | some nd =>
      simp only [Option.map_some']
      apply remove_neighbor_nodup
      have := hnd n
      unfold neighborsOf at this
      rw [ha] at this
      exact this
    | none => simp
  · rw [alookup_amodify_ne hn]
    have := hnd n
    unfold neighborsOf at this
    exact this

theorem alookup_isSome_iff {l : List (String × α)} {k : String} :
    (alookup k l).isSome = true ↔ k ∈ l.map (·.1) := by
  constructor
  · intro h
    cases ha : alookup k l with
    | none => rw [ha] at h; cases h
    | some v => exact List.mem_map.mpr ⟨_, alookup_mem ha, rfl⟩
  · intro h
    cases ha : alookup k l with
    | none => exact absurd h (alookup_eq_none.mp ha)
    | some v => rfl

theorem nodeIdEq_amodify {nodes : List (String × Node)} {k : String}
    {f : Node → Node} (hid : ∀ nd, (f nd).id = nd.id)
    (h : ∀ n nd, alookup n nodes = some nd → nd.id = n) :
    ∀ n nd, alookup n (amodify k f nodes) = some nd → nd.id = n := by
  intro n nd hnd
  by_cases hn : n = k
  · subst hn
    rw [alookup_amodify_self] at hnd
    cases ha : alookup n nodes with
    | some v =>
      rw [ha] at hnd
      simp only [Option.map_some', Option.some.injEq] at hnd
      rw [← hnd, hid]
      exact h n v ha
    | none => rw [ha] at hnd; cases hnd
  · rw [alookup_amodify_ne hn] at hnd
    exact h n nd hnd

theorem netInv_add_node {net : Network} (h : NetInv net) (node : Node)
    (hnb : node.neighbors = []) : NetInv (net.add_node node).1 := by
  unfold Network.add_node
  split
  · exact h
  · rename_i hfresh
    have hnotin : node.id ∉ net.nodes.map (·.1) := by
      rw [← alookup_eq_none]
      cases ha : alookup node.id net.nodes with
      | none => rfl
      | some v => rw [ha] at hfresh; simp at hfresh
    have hlook : ∀ n, alookup n (net.nodes ++ [(node.id, node)]) =
        if n = node.id then some node else alookup n net.nodes := by
      intro n
      by_cases hn : n = node.id
      · subst hn
        cases ha : alookup node.id net.nodes with
        | some v =>
          exact absurd (List.mem_map.mpr ⟨_, alookup_mem ha, rfl⟩) hnotin
        | none =>
          simp [alookup_append_left (alookup_eq_none.mp ha), alookup]
      · rw [if_neg hn]
        cases ha : alookup n net.nodes with
        | some v => exact alookup_append_of_some ha
        | none =>
          rw [alookup_append_left (alookup_eq_none.mp ha)]
          simp [alookup, Ne.symm hn]
    constructor
    · rw [List.map_append]
      refine List.Nodup.append h.keys_nodup (by simp) ?_
      intro a ha hb
      simp only [List.map_cons, List.map_nil, List.mem_singleton] at hb
      subst hb
      exact hnotin ha
    · exact h.link_keys_nodup
    · intro n nd hnd
      simp only [Network.get_node] at hnd
      rw [hlook] at hnd
      by_cases hn : n = node.id
      · rw [if_pos hn] at hnd
        cases hnd
        exact hn.symm
      · rw [if_neg hn] at hnd
        exact h.node_id_eq n nd hnd
    · intro q hq
      obtain ⟨h1, h2⟩ := h.endpoints q hq
      constructor
      · rw [hlook]
        split
        · rfl
        · exact h1
      · rw [hlook]
        split
        · rfl
        · exact h2
    · intro n m hm
      by_cases hn : n = node.id
      · rw [get_neighbors_of_some (by rw [hlook]; rw [if_pos hn])] at hm
        rw [hnb] at hm
        cases hm
      · cases ha : alookup n net.nodes with
        | some nd =>
          rw [get_neighbors_of_some
            (by rw [hlook, if_neg hn]; exact ha)] at hm
          refine h.neighbor_link n m ?_
          rw [get_neighbors_of_some ha]
          exact hm
        | none =>
          rw [get_neighbors_of_none
            (by rw [hlook, if_neg hn]; exact ha)] at hm
          cases hm
    · intro n
      by_cases hn : n = node.id
      · rw [get_neighbors_of_some (by rw [hlook]; rw [if_pos hn]), hnb]
        exact List.nodup_nil
      · cases ha : alookup n net.nodes with
        | some nd =>
          rw [get_neighbors_of_some (by rw [hlook, if_neg hn]; exact ha)]
          have := h.neighbors_nodup n
          rw [get_neighbors_of_some ha] at this
          exact this
        | none =>
          rw [get_neighbors_of_none (by rw [hlook, if_neg hn]; exact ha)]
          exact List.nodup_nil

theorem netInv_add_link {net : Network} (h : NetInv net) (link : Link) :
    NetInv (net.add_link link).1 := by
  unfold Network.add_link
  split
  · exact h
  · split
    · exact h
    · rename_i hfresh hends
      push_neg at hends
      have hnotin : link.id ∉ net.links.map (·.1) := by
        rw [← alookup_eq_none]
        cases ha : alookup link.id net.links with
        | none => rfl
        | some v => rw [ha] at hfresh; simp at hfresh
      have hs : (alookup link.source_id net.nodes).isSome = true := by
        cases ha : alookup link.source_id net.nodes with
        | some v => rfl
        | none => rw [ha] at hends; simp at hends
      have ht : (alookup link.target_id net.nodes).isSome = true := by
        cases ha : alookup link.target_id net.nodes with
        | some v => rfl
        | none => rw [ha] at hends; simp at hends
      have hlinkmem : ∀ q ∈ net.links, q ∈ net.links ++ [(link.id, link)] :=
        fun q hq => List.mem_append.mpr (Or.inl hq)
      have hnewmem : (link.id, link) ∈ net.links ++ [(link.id, link)] :=
        List.mem_append.mpr (Or.inr (List.mem_singleton.mpr rfl))
      by_cases hb : link.bidirectional = true
      · simp only [hb, if_pos]
        constructor
        · rw [amodify_map_fst, amodify_map_fst]
          exact h.keys_nodup
        · rw [List.map_append]
          refine List.Nodup.append h.link_keys_nodup (by simp) ?_
          intro a ha hb'
          simp only [List.map_cons, List.map_nil, List.mem_singleton] at hb'
          subst hb'
          exact hnotin ha
        · intro n nd hnd
          refine nodeIdEq_amodify (fun nd => add_neighbor_id nd _)
            (nodeIdEq_amodify (fun nd => add_neighbor_id nd _) ?_) n nd hnd
          intro n' nd' hnd'
          exact h.node_id_eq n' nd' hnd'
        · intro q hq
          have hkeys : ∀ x, (alookup x
              (amodify link.target_id (·.add_neighbor link.source_id)
                (amodify link.source_id (·.add_neighbor link.target_id)
                  net.nodes))).isSome = true ↔
              (alookup x net.nodes).isSome = true := by
            intro x
            rw [alookup_isSome_iff, alookup_isSome_iff, amodify_map_fst,
              amodify_map_fst]
          rcases List.mem_append.mp hq with hq' | hq'
          · obtain ⟨h1, h2⟩ := h.endpoints q hq'
            exact ⟨(hkeys _).mpr h1, (hkeys _).mpr h2⟩
          · rw [List.mem_singleton] at hq'
            subst hq'
            exact ⟨(hkeys _).mpr hs, (hkeys _).mpr ht⟩
        · intro n m hm
          rw [get_neighbors_neighborsOf] at hm
          rcases mem_neighborsOf_addnb hm with hm' | ⟨rfl, rfl⟩
          · rcases mem_neighborsOf_addnb hm' with hm'' | ⟨rfl, rfl⟩
            · obtain ⟨q, hq, hpair⟩ := h.neighbor_link n m
                (by rw [get_neighbors_neighborsOf]; exact hm'')
              exact ⟨q, hlinkmem q hq, hpair⟩
            · exact ⟨(link.id, link), hnewmem, Or.inl ⟨rfl, rfl⟩⟩
          · exact ⟨(link.id, link), hnewmem, Or.inr ⟨hb, rfl, rfl⟩⟩
        · intro n
          rw [get_neighbors_neighborsOf]
          apply nodup_neighborsOf_addnb
          apply nodup_neighborsOf_addnb
          intro n'
          rw [← get_neighbors_neighborsOf]
          exact h.neighbors_nodup n'
      · simp only [hb, if_neg, Bool.false_eq_true, if_false]
        constructor
        · rw [amodify_map_fst]
          exact h.keys_nodup
        · rw [List.map_append]
          refine List.Nodup.append h.link_keys_nodup (by simp) ?_
          intro a ha hb'
          simp only [List.map_cons, List.map_nil, List.mem_singleton] at hb'
          subst hb'
          exact hnotin ha
        · intro n nd hnd
          refine nodeIdEq_amodify (fun nd => add_neighbor_id nd _) ?_ n nd hnd
          intro n' nd' hnd'
          exact h.node_id_eq n' nd' hnd'
        · intro q hq
          have hkeys : ∀ x, (alookup x
              (amodify link.source_id (·.add_neighbor link.target_id)
                net.nodes)).isSome = true ↔
              (alookup x net.nodes).isSome = true := by
            intro x
            rw [alookup_isSome_iff, alookup_isSome_iff, amodify_map_fst]
          rcases List.mem_append.mp hq with hq' | hq'
          · obtain ⟨h1, h2⟩ := h.endpoints q hq'
            exact ⟨(hkeys _).mpr h1, (hkeys _).mpr h2⟩
          · rw [List.mem_singleton] at hq'
            subst hq'
            exact ⟨(hkeys _).mpr hs, (hkeys _).mpr ht⟩
        · intro n m hm
          rw [get_neighbors_neighborsOf] at hm
          rcases mem_neighborsOf_addnb hm with hm' | ⟨rfl, rfl⟩
          · obtain ⟨q, hq, hpair⟩ := h.neighbor_link n m
              (by rw [get_neighbors_neighborsOf]; exact hm')
            exact ⟨q, hlinkmem q hq, hpair⟩
          · exact ⟨(link.id, link), hnewmem, Or.inl ⟨rfl, rfl⟩⟩
        · intro n
          rw [get_neighbors_neighborsOf]
          apply nodup_neighborsOf_addnb
          intro n'
          rw [← get_neighbors_neighborsOf]
          exact h.neighbors_nodup n'

theorem netInv_remove_link {net : Network} (h : NetInv net) (lid : String) :
    NetInv (net.remove_link lid).1 := by
  unfold Network.remove_link
  cases hl : alookup lid net.links with
  | none => exact h
  | some link =>
    dsimp only
    have hmemL : (lid, link) ∈ net.links := alookup_mem hl
    have hs : (alookup link.source_id net.nodes).isSome = true :=
      (h.endpoints _ hmemL).1
    have ht : (alookup link.target_id net.nodes).isSome = true :=
      (h.endpoints _ hmemL).2
    have hlinkpair : ∀ q ∈ net.links, q.1 = lid → q.2 = link := by
      intro q hq hq1
      have hmq : (lid, q.2) ∈ net.links := by rw [← hq1]; exact hq
      have := alookup_eq_some_of_mem h.link_keys_nodup hmq
      rw [hl] at this
      exact (Option.some.injEq .. ▸ this).symm
    rw [if_pos hs]
    dsimp only
    have ht' : (alookup link.target_id
        (amodify link.source_id (·.remove_neighbor link.target_id)
          net.nodes)).isSome = true := by
      rw [alookup_isSome_iff, amodify_map_fst, ← alookup_isSome_iff]
      exact ht
    have hlinks' : ∀ q ∈ aerase lid net.links, q ∈ net.links ∧ q.1 ≠ lid :=
      fun q hq => (mem_aerase_nodup h.link_keys_nodup).mp hq
    have hlinkkeys : (aerase lid net.links).map (·.1) |>.Nodup :=
      h.link_keys_nodup.sublist ((aerase_sublist lid net.links).map _)
    by_cases hb : link.bidirectional = true
    · rw [if_pos ⟨hb, ht'⟩]
      constructor
      · rw [amodify_map_fst, amodify_map_fst]
        exact h.keys_nodup
      · exact hlinkkeys
      · intro n nd hnd
        refine nodeIdEq_amodify (fun nd => remove_neighbor_id nd _)
          (nodeIdEq_amodify (fun nd => remove_neighbor_id nd _) ?_) n nd hnd
        intro n' nd' hnd'
        exact h.node_id_eq n' nd' hnd'
      · intro q hq
        obtain ⟨hq', -⟩ := hlinks' q hq
        obtain ⟨h1, h2⟩ := h.endpoints q hq'
        constructor
        · rw [alookup_isSome_iff, amodify_map_fst, amodify_map_fst,
            ← alookup_isSome_iff]
          exact h1
        · rw [alookup_isSome_iff, amodify_map_fst, amodify_map_fst,
            ← alookup_isSome_iff]
          exact h2
      · intro n m hm
        rw [get_neighbors_neighborsOf] at hm
        have hnd1 : ∀ n', (neighborsOf
            (amodify link.source_id (·.remove_neighbor link.target_id)
              net.nodes) n').Nodup := by
          intro n'
          apply nodup_neighborsOf_rmnb
          intro n''
          rw [← get_neighbors_neighborsOf]
          exact h.neighbors_nodup n''
        obtain ⟨hm1, hnot1⟩ := mem_neighborsOf_rmnb hnd1 hm
        obtain ⟨hm0, hnot0⟩ := mem_neighborsOf_rmnb
          (fun n'' => by rw [← get_neighbors_neighborsOf]
                         exact h.neighbors_nodup n'') hm1
        obtain ⟨q, hq, hpair⟩ := h.neighbor_link n m
          (by rw [get_neighbors_neighborsOf]; exact hm0)
        by_cases hqlid : q.1 = lid
        · exfalso
          have hq2 := hlinkpair q hq hqlid
          rw [hq2] at hpair
          rcases hpair with ⟨e1, e2⟩ | ⟨-, e1, e2⟩
          · exact hnot0 ⟨e1.symm, e2.symm⟩
          · exact hnot1 ⟨e2.symm, e1.symm⟩
        · exact ⟨q, mem_aerase_of_ne hq hqlid, hpair⟩
      · intro n
        rw [get_neighbors_neighborsOf]
        apply nodup_neighborsOf_rmnb
        apply nodup_neighborsOf_rmnb
        intro n'
        rw [← get_neighbors_neighborsOf]
        exact h.neighbors_nodup n'
    · rw [if_neg (fun hc => hb hc.1)]
      constructor
      · rw [amodify_map_fst]
        exact h.keys_nodup
      · exact hlinkkeys
      · intro n nd hnd
        refine nodeIdEq_amodify (fun nd => remove_neighbor_id nd _) ?_ n nd hnd
        intro n' nd' hnd'
        exact h.node_id_eq n' nd' hnd'
      · intro q hq
        obtain ⟨hq', -⟩ := hlinks' q hq
        obtain ⟨h1, h2⟩ := h.endpoints q hq'
        constructor
        · rw [alookup_isSome_iff, amodify_map_fst, ← alookup_isSome_iff]
          exact h1
        · rw [alookup_isSome_iff, amodify_map_fst, ← alookup_isSome_iff]
          exact h2
      · intro n m hm
        rw [get_neighbors_neighborsOf] at hm
        obtain ⟨hm0, hnot0⟩ := mem_neighborsOf_rmnb
          (fun n'' => by rw [← get_neighbors_neighborsOf]
                         exact h.neighbors_nodup n'') hm
        obtain ⟨q, hq, hpair⟩ := h.neighbor_link n m
          (by rw [get_neighbors_neighborsOf]; exact hm0)
        by_cases hqlid : q.1 = lid
        · exfalso
          have hq2 := hlinkpair q hq hqlid
          rw [hq2] at hpair
          rcases hpair with ⟨e1, e2⟩ | ⟨hb', -, -⟩
          · exact hnot0 ⟨e1.symm, e2.symm⟩
          · exact hb hb'
        · exact ⟨q, mem_aerase_of_ne hq hqlid, hpair⟩
      · intro n
        rw [get_neighbors_neighborsOf]
        apply nodup_neighborsOf_rmnb
        intro n'
        rw [← get_neighbors_neighborsOf]
        exact h.neighbors_nodup n'

theorem remove_link_links (net : Network) (lid : String) :
    (net.remove_link lid).1.links =
      match alookup lid net.links with
      | none => net.links
      | some _ => aerase lid net.links := by
  unfold Network.remove_link
  cases alookup lid net.links with
  | none => rfl
  | some link =>
    dsimp only
    split
    · split <;> rfl
    · split <;> rfl

theorem remove_link_nodes_keys (net : Network) (lid : String) :
    (net.remove_link lid).1.nodes.map (·.1) = net.nodes.map (·.1) := by
  unfold Network.remove_link
  cases alookup lid net.links with
  | none => rfl
  | some link =>
    dsimp only
    split
    · split
      · rw [amodify_map_fst, amodify_map_fst]
      · rw [amodify_map_fst]
    · split
      · rw [amodify_map_fst]
      · rfl

theorem remove_link_links_sub {net : Network}
    (hnd : (net.links.map (·.1)).Nodup) (lid : String) :
    ∀ q ∈ (net.remove_link lid).1.links, q ∈ net.links ∧ q.1 ≠ lid := by
  rw [remove_link_links]
  cases hl : alookup lid net.links with
  | none =>
    intro q hq
    refine ⟨hq, fun hc => ?_⟩
    have hm : (lid, q.2) ∈ net.links := by rw [← hc]; exact hq
    have := alookup_isSome_of_mem hm
    rw [hl] at this
    cases this
  | some link =>
    intro q hq
    exact (mem_aerase_nodup hnd).mp hq

theorem foldl_remove_link_netInv (ids : List String) :
    ∀ net, NetInv net →
      NetInv (ids.foldl (fun acc lid => (acc.remove_link lid).1) net) ∧
      (∀ q ∈ (ids.foldl (fun acc lid => (acc.remove_link lid).1) net).links,
        q ∈ net.links ∧ q.1 ∉ ids) ∧
      (ids.foldl (fun acc lid => (acc.remove_link lid).1) net).nodes.map (·.1) =
        net.nodes.map (·.1) := by
  induction ids with
  | nil =>
    intro net h
    exact ⟨h, fun q hq => ⟨hq, by simp⟩, rfl⟩
  | cons lid rest ih =>
    intro net h
    have h1 := netInv_remove_link h lid
    obtain ⟨ha, hb, hc⟩ := ih _ h1
    rw [List.foldl_cons]
    refine ⟨ha, ?_, ?_⟩
    · intro q hq
      obtain ⟨hq1, hq2⟩ := hb q hq
      obtain ⟨hq3, hq4⟩ := remove_link_links_sub h.link_keys_nodup lid q hq1
      refine ⟨hq3, ?_⟩
      intro hc'
      rcases List.mem_cons.mp hc' with h' | h'
      · exact hq4 h'
      · exact hq2 h'
    · rw [hc, remove_link_nodes_keys]

theorem remove_node_spec {net : Network} (h : NetInv net) (nid : String) :
    NetInv (net.remove_node nid).1 ∧
      (∀ q ∈ (net.remove_node nid).1.links, q.2.contains_node nid = false) ∧
      alookup nid (net.remove_node nid).1.nodes = none := by
  unfold Network.remove_node
  split
  · rename_i habs
    have hnone : alookup nid net.nodes = none := by
      cases ha : alookup nid net.nodes with
      | none => rfl
      | some v => rw [ha] at habs; simp at habs
    refine ⟨h, ?_, hnone⟩
    intro q hq
    cases hcont : q.2.contains_node nid with
    | false => rfl
    | true =>
      exfalso
      unfold Link.contains_node at hcont
      obtain ⟨h1, h2⟩ := h.endpoints q hq
      rcases of_decide_eq_true hcont with h' | h'
      · rw [← h'] at h1
        rw [hnone] at h1
        cases h1
      · rw [← h'] at h2
        rw [hnone] at h2
        cases h2
  · dsimp only
    obtain ⟨hInv, hsub, hkeys⟩ :=
      foldl_remove_link_netInv
        ((net.links.filter fun p => p.2.contains_node nid).map (·.1)) net h
    have hnodup2 : ((List.foldl (fun acc lid => (acc.remove_link lid).1) net
        ((net.links.filter fun p => p.2.contains_node nid).map (·.1))).nodes.map
          (·.1)).Nodup := by
      rw [hkeys]
      exact h.keys_nodup
    have hincident : ∀ q ∈ (List.foldl (fun acc lid => (acc.remove_link lid).1)
        net ((net.links.filter fun p => p.2.contains_node nid).map (·.1))).links,
        q.2.contains_node nid = false := by
      intro q hq
      obtain ⟨hq1, hq2⟩ := hsub q hq
      cases hcont : q.2.contains_node nid with
      | false => rfl
      | true =>
        exact absurd (List.mem_map.mpr
          ⟨q, List.mem_filter.mpr ⟨hq1, hcont⟩, rfl⟩) hq2
    refine ⟨?_, ?_, ?_⟩
    · constructor
      · exact hnodup2.sublist ((aerase_sublist nid _).map _)
      · exact hInv.link_keys_nodup
      · intro n nd hnd
        simp only [Network.get_node] at hnd
        by_cases hn : n = nid
        · subst hn
          rw [alookup_aerase_self hnodup2] at hnd
          cases hnd
        · rw [alookup_aerase_ne hn] at hnd
          exact hInv.node_id_eq n nd hnd
      · intro q hq
        obtain ⟨h1, h2⟩ := hInv.endpoints q hq
        have hcont := hincident q hq
        unfold Link.contains_node at hcont
        have hne : ¬(nid = q.2.source_id ∨ nid = q.2.target_id) :=
          of_decide_eq_false hcont
        push_neg at hne
        constructor
        · rw [alookup_aerase_ne (Ne.symm hne.1)]
          exact h1
        · rw [alookup_aerase_ne (Ne.symm hne.2)]
          exact h2
      · intro n m hm
        rw [get_neighbors_neighborsOf] at hm
        unfold neighborsOf at hm
        by_cases hn : n = nid
        · subst hn
          rw [alookup_aerase_self hnodup2] at hm
          cases hm
        · rw [alookup_aerase_ne hn] at hm
          apply hInv.neighbor_link n m
          rw [get_neighbors_neighborsOf]
          unfold neighborsOf
          exact hm
      · intro n
        rw [get_neighbors_neighborsOf]
        unfold neighborsOf
        by_cases hn : n = nid
        · subst hn
          rw [alookup_aerase_self hnodup2]
          exact List.nodup_nil
        · rw [alookup_aerase_ne hn]
          have := hInv.neighbors_nodup n
          rw [get_neighbors_neighborsOf] at this
          unfold neighborsOf at this
          exact this
    · exact hincident
    · exact alookup_aerase_self hnodup2

theorem reachable_netInv {net : Network} (h : Network.Reachable net) :
    NetInv net := by
  induction h with
  | empty => exact netInv_empty
  | add_node net nid _ ih => exact netInv_add_node ih (Node.mk' nid) rfl
  | remove_node net nid _ ih => exact (remove_node_spec ih nid).1
  | add_link net lid s t bw lat bd _ ih =>
    exact netInv_add_link ih (Link.mk' lid s t bw lat bd)
  | remove_link net lid _ ih => exact netInv_remove_link ih lid

/-! ## Heap-order lemmas -/

theorem heapLE_refl (x : ℚ × String) : heapLE x x := Or.inr ⟨rfl, le_refl _⟩

theorem heapLE_total (x y : ℚ × String) : heapLE x y ∨ heapLE y x := by
  rcases lt_trichotomy x.1 y.1 with h | h | h
  · exact Or.inl (Or.inl h)
  · rcases le_total x.2 y.2 with h2 | h2
    · exact Or.inl (Or.inr ⟨h, h2⟩)
    · exact Or.inr (Or.inr ⟨h.symm, h2⟩)
  · exact Or.inr (Or.inl h)

theorem heapLE_trans {x y z : ℚ × String} (h1 : heapLE x y) (h2 : heapLE y z) :
    heapLE x z := by
  rcases h1 with h1 | ⟨h1, h1'⟩
  · rcases h2 with h2 | ⟨h2, h2'⟩
    · exact Or.inl (h1.trans h2)
    · exact Or.inl (h2 ▸ h1)
  · rcases h2 with h2 | ⟨h2, h2'⟩
    · exact Or.inl (h1 ▸ h2)
    · exact Or.inr ⟨h1.trans h2, h1'.trans h2'⟩

theorem popMin_le {pq : List (ℚ × String)} {e : ℚ × String}
    {rest : List (ℚ × String)} (h : popMin pq = some (e, rest)) :
    ∀ x ∈ pq, heapLE e x := by
  induction pq generalizing e rest with
  | nil => exact Option.noConfusion h
  | cons x xs ih =>
    cases hx : popMin xs with
    | none =>
      have hxs : xs = [] := popMin_eq_none.mp hx
      simp only [popMin, hx, Option.some.injEq, Prod.mk.injEq] at h
      intro y hy
      rw [← h.1]
      subst hxs
      rcases List.mem_singleton.mp hy with rfl
      exact heapLE_refl _
    | some p =>
      rcases p with ⟨m, r⟩
      have hmle := ih hx
      simp only [popMin, hx] at h
      split at h
      · rename_i hle
        simp only [Option.some.injEq, Prod.mk.injEq] at h
        rw [← h.1]
        intro y hy
        rcases List.mem_cons.mp hy with rfl | hy'
        · exact heapLE_refl _
        · exact heapLE_trans hle (hmle y hy')
      · rename_i hnle
        simp only [Option.some.injEq, Prod.mk.injEq] at h
        rw [← h.1]
        intro y hy
        rcases List.mem_cons.mp hy with rfl | hy'
        · exact (heapLE_total y m).resolve_left hnle
        · exact hmle y hy'

theorem popMin_mem_rest {pq : List (ℚ × String)} {e x : ℚ × String}
    {rest : List (ℚ × String)} (h : popMin pq = some (e, rest))
    (hx : x ∈ pq) (hne : x ≠ e) : x ∈ rest := by
  obtain ⟨l1, l2, hpq, hrest⟩ := popMin_split h
  subst hpq hrest
  rcases List.mem_append.mp hx with h' | h'
  · exact List.mem_append.mpr (Or.inl h')
  · rcases List.mem_cons.mp h' with rfl | h''
    · exact absurd rfl hne
    · exact List.mem_append.mpr (Or.inr h'')

/-! ## Path and cost lemmas -/

theorem IsPath.getLast {net : Network} {src v : String} {p : List String}
    (h : IsPath net src v p) : p.getLast? = some v := by
  induction h with
  | refl => rfl
  | snoc u v p hp hadj ih => simp

theorem IsPath.ne_nil {net : Network} {src v : String} {p : List String}
    (h : IsPath net src v p) : p ≠ [] := by
  induction h with
  | refl => simp
  | snoc u v p hp hadj ih => simp

theorem pathCost_single (net : Network) (x : String) :
    pathCost net [x] = 0 := rfl

theorem pathCost_snoc (net : Network) {p : List String} {u : String}
    (hu : p.getLast? = some u) (v : String) :
    pathCost net (p ++ [v]) = pathCost net p + dijkstraEdgeCost net u v := by
  induction p generalizing u with
  | nil => simp at hu
  | cons a rest ih =>
    cases rest with
    | nil =>
      have ha : a = u := by simpa using hu
      rw [← ha]
      show dijkstraEdgeCost net a v + 0 = 0 + dijkstraEdgeCost net a v
      ring
    | cons b rest' =>
      have hu' : (b :: rest').getLast? = some u := by
        rw [← hu]
        simp [List.getLast?_cons_cons]
      have := ih hu'
      show dijkstraEdgeCost net a b + pathCost net ((b :: rest') ++ [v]) = _
      rw [this]
      show _ = dijkstraEdgeCost net a b + pathCost net (b :: rest') +
        dijkstraEdgeCost net u v
      ring

theorem get_link_between_mem {net : Network} {a b : String} {link : Link}
    (h : net.get_link_between a b = some link) :
    ∃ lid, (lid, link) ∈ net.links := by
  unfold Network.get_link_between at h
  obtain ⟨q, hq, hfq⟩ := List.exists_of_findSome?_eq_some h
  rcases q with ⟨lid, l⟩
  dsimp only at hfq
  split at hfq
  · cases hfq
    exact ⟨lid, hq⟩
  · split at hfq
    · cases hfq
      exact ⟨lid, hq⟩
    · cases hfq

theorem congestionMultiplier_nonneg (net : Network) (b : String) :
    0 ≤ congestionMultiplier net b := by
  unfold congestionMultiplier
  cases net.get_node b with
  | none => norm_num
  | some nb =>
    dsimp only
    unfold Node.get_congestion_cost
    have h1 : (0 : ℚ) ≤ (nb.queue.size : ℚ) / (nb.queue.max_size : ℚ) :=
      div_nonneg (by positivity) (by positivity)
    split
    · norm_num
    · split
      · norm_num
      · nlinarith

theorem dijkstraEdgeCost_nonneg {net : Network}
    (hw : ∀ q ∈ net.links, 0 ≤ q.2.weight) (a b : String) :
    0 ≤ dijkstraEdgeCost net a b := by
  unfold dijkstraEdgeCost
  cases hl : net.get_link_between a b with
  | none => exact le_refl 0
  | some link =>
    dsimp only
    obtain ⟨lid, hmem⟩ := get_link_between_mem hl
    exact mul_nonneg (hw (lid, link) hmem) (congestionMultiplier_nonneg net b)

theorem pathCost_nonneg {net : Network}
    (hc : ∀ a b, 0 ≤ dijkstraEdgeCost net a b) :
    ∀ p : List String, 0 ≤ pathCost net p := by
  intro p
  induction p with
  | nil => exact le_refl 0
  | cons a rest ih =>
    cases rest with
    | nil => exact le_refl 0
    | cons b rest' =>
      show 0 ≤ dijkstraEdgeCost net a b + pathCost net (b :: rest')
      have := hc a b
      linarith

theorem ne_append_bang (s : String) : s ≠ s ++ "!" := by
  intro h
  have h2 := congrArg String.length h
  rw [String.length_append] at h2
  have h3 : ("!" : String).length = 1 := rfl
  rw [h3] at h2
  omega

theorem DInv.toX {net : Network} {source : String} {st : DijkState}
    (h : DInv net source st) (excl : String) : DInvX net source st excl :=
  h excl

theorem DInv.frontier {net : Network} {source : String} {st : DijkState}
    (h : DInv net source st) :
    ∀ v ∈ st.visited, ∀ u, Adj net v u → u ∉ st.visited →
      st.dist u ≤ st.dist v + ((dijkstraEdgeCost net v u : ℚ) : WithTop ℚ) :=
  fun v hv u hadj hu =>
    (h (v ++ "!")).visited_frontier v hv (ne_append_bang v) u hadj hu

theorem DInvX_full {net : Network} {source : String} {st : DijkState}
    {excl : String} (h : DInvX net source st excl)
    (hfr : ∀ u, Adj net excl u → u ∉ st.visited →
      st.dist u ≤ st.dist excl + ((dijkstraEdgeCost net excl u : ℚ) : WithTop ℚ)) :
    DInv net source st := by
  intro excl'
  refine { h with visited_frontier := ?_ }
  intro v hv hne u hadj hu
  by_cases heq : v = excl
  · subst heq
    exact hfr u hadj hu
  · exact h.visited_frontier v hv heq u hadj hu

theorem sampleNet_reachable : Network.Reachable sampleNet :=
  .add_link _ _ _ _ _ _ _ (.add_link _ _ _ _ _ _ _
    (.add_node _ _ (.add_node _ _ (.add_node _ _ .empty))))

/-! ## Claim C3 — link/neighbor consistency over reachable networks -/

/-- C3 (amended): for every reachable network state, every link's endpoints
exist among the current nodes, and a node id `m` in node `n`'s neighbor list
is always justified by some live link connecting `n` to `m` (as `(n,m)`, or
as `(m,n)` when bidirectional).  The converse direction of the claimed "if
and only if" — every live link keeps its endpoints in each other's neighbor
lists — fails when two parallel links connect the same pair and one is
removed (see the counterexample). -/
theorem c3_reachable_link_neighbor_invariant (net : Network)
    (h : Network.Reachable net) :
    (∀ q ∈ net.links, (net.get_node q.2.source_id).isSome = true ∧
      (net.get_node q.2.target_id).isSome = true) ∧
    (∀ n m, m ∈ net.get_neighbors n → ∃ q ∈ net.links, linksPair q.2 n m) := by
  have hInv := reachable_netInv h
  exact ⟨fun q hq => hInv.endpoints q hq, hInv.neighbor_link⟩

/-- C3 witness: the amended invariant evaluated on the concrete A—B—C line. -/
theorem c3_witness :
    (∀ q ∈ sampleNet.links, (sampleNet.get_node q.2.source_id).isSome = true ∧
      (sampleNet.get_node q.2.target_id).isSome = true) ∧
    (∀ n m, m ∈ sampleNet.get_neighbors n →
      ∃ q ∈ sampleNet.links, linksPair q.2 n m) :=
  c3_reachable_link_neighbor_invariant sampleNet sampleNet_reachable

/-- C3 counterexample: after `add_link L1 a b`, `add_link L2 a b`,
`remove_link L1`, the live link `L2` still connects `a` to `b` but `b` no
longer appears in `a`'s neighbor list — the claimed "if and only if" fails in
the (live link → neighbor) direction on this reachable state. -/
theorem c3_counterexample :
    Network.Reachable c3CexNet ∧
    (∃ q ∈ c3CexNet.links, q.2.source_id = "a" ∧ q.2.target_id = "b" ∧
      (c3CexNet.get_node "a").isSome = true ∧
      (c3CexNet.get_node "b").isSome = true) ∧
    "b" ∉ c3CexNet.get_neighbors "a" := by
  refine ⟨?_, ?_, ?_⟩
  · exact .remove_link _ _ (.add_link _ _ _ _ _ _ _ (.add_link _ _ _ _ _ _ _
      (.add_node _ _ (.add_node _ _ .empty))))
  · decide
  · decide

/-! ## Claim C5 — node removal cascades -/

/-- C5: removing a present node removes every incident link, and afterwards
no node's neighbor list (in particular no former endpoint's) mentions the
removed id. -/
theorem c5_remove_node_cascades (net : Network) (h : Network.Reachable net)
    (nid : String) (hmem : (net.get_node nid).isSome = true) :
    (∀ q ∈ (net.remove_node nid).1.links, q.2.contains_node nid = false) ∧
    (∀ m, nid ∉ (net.remove_node nid).1.get_neighbors m) := by
  have hInv := reachable_netInv h
  obtain ⟨hInv', hnoinc, hlook⟩ := remove_node_spec hInv nid
  refine ⟨hnoinc, ?_⟩
  intro m hm
  obtain ⟨q, hq, hpair⟩ := hInv'.neighbor_link m nid hm
  have hcont := hnoinc q hq
  unfold Link.contains_node at hcont
  have hne := of_decide_eq_false hcont
  push_neg at hne
  rcases hpair with ⟨e1, e2⟩ | ⟨-, e1, e2⟩
  · exact hne.2 e2.symm
  · exact hne.1 e1.symm

/-- C5 witness: removing `B` from the A—B—C line. -/
theorem c5_witness :
    (∀ q ∈ (sampleNet.remove_node "B").1.links,
      q.2.contains_node "B" = false) ∧
    (∀ m, "B" ∉ (sampleNet.remove_node "B").1.get_neighbors m) :=
  c5_remove_node_cascades sampleNet sampleNet_reachable "B" (by decide)

/-! ## Claim C1 — the adaptive edge cost formula -/

/-- C1: the cost Dijkstra's relaxation uses to traverse from `a` into a
neighbor `b` (with a link between them and a positive queue capacity at `b`)
is the link weight times the congestion multiplier: the fixed maximum `99`
when `b` is force-congested, and `1 + 9 * occupancy/capacity` otherwise. -/
theorem c1_adaptive_edge_cost (net : Network) (a b : String) (link : Link)
    (nb : Node) (hlink : net.get_link_between a b = some link)
    (hnode : net.get_node b = some nb) (hcap : 0 < nb.queue.max_size) :
    dijkstraEdgeCost net a b =
      link.weight *
        (if nb.force_congested then (99 : ℚ)
         else 1 + 9 * ((nb.queue.size : ℚ) / (nb.queue.max_size : ℚ))) := by
  unfold dijkstraEdgeCost
  rw [hlink]
  dsimp only
  unfold congestionMultiplier
  rw [hnode]
  dsimp only
  by_cases hf : nb.force_congested
  · rw [if_pos hf, if_pos hf]
  · rw [if_neg hf, if_neg hf]
    unfold Node.get_congestion_cost
    rw [if_neg (Nat.pos_iff_ne_zero.mp hcap), if_neg hf]
    ring_nf

/-- C1 witness: the edge A→B of the concrete line network (the stored node
for `B` carries the neighbor list the two `add_link` calls produced). -/
theorem c1_witness :
    dijkstraEdgeCost sampleNet "A" "B" =
      ( Link.mk' "L1" "A" "B" 100 10 true).weight *
        (if { Node.mk' "B" with neighbors := ["A", "C"] }.force_congested
         then (99 : ℚ)
         else 1 + 9 *
           (({ Node.mk' "B" with neighbors := ["A", "C"] }.queue.size : ℚ) /
            ({ Node.mk' "B" with neighbors := ["A", "C"] }.queue.max_size : ℚ))) :=
  c1_adaptive_edge_cost sampleNet "A" "B" _ _ (by decide) (by decide) (by decide)

/-! ## Claim C4 — bounded FIFO queue -/

theorem applyQOp_max_size (q : PacketQueue) (op : QOp) :
    (applyQOp q op).max_size = q.max_size := by
  cases op with
  | enq r =>
    show ((q.enqueue r).1).max_size = q.max_size
    unfold PacketQueue.enqueue
    split <;> rfl
  | deq =>
    show (q.dequeue.1).max_size = q.max_size
    unfold PacketQueue.dequeue
    cases q.queue <;> rfl

theorem applyQOp_size_le {q : PacketQueue} (h : q.size ≤ q.max_size)
    (op : QOp) : (applyQOp q op).size ≤ q.max_size := by
  cases op with
  | enq r =>
    show ((q.enqueue r).1).size ≤ q.max_size
    unfold PacketQueue.enqueue
    split
    · exact h
    · rename_i hlt
      push_neg at hlt
      unfold PacketQueue.size at h ⊢
      simp only [List.length_append, List.length_cons, List.length_nil]
      omega
  | deq =>
    show (q.dequeue.1).size ≤ q.max_size
    unfold PacketQueue.dequeue
    unfold PacketQueue.size at h ⊢
    cases hq : q.queue with
    | nil => simp [hq]
    | cons a rest =>
      rw [hq] at h
      simp only [List.length_cons] at h
      simp only [List.length_cons]
      omega

theorem foldl_qops_size_le (ops : List QOp) :
    ∀ q : PacketQueue, q.size ≤ q.max_size →
      (ops.foldl applyQOp q).size ≤ q.max_size := by
  induction ops with
  | nil => exact fun q h => h
  | cons op rest ih =>
    intro q h
    rw [List.foldl_cons]
    have h1 := applyQOp_size_le h op
    have h2 := applyQOp_max_size q op
    have := ih (applyQOp q op) (h2 ▸ h1)
    rw [h2] at this
    exact this

/-- C4: enqueue on a queue whose occupancy equals its capacity fails,
increments the drop counter by exactly one, and leaves the contents (and
hence occupancy) unchanged; and no sequence of enqueue/dequeue operations
from a fresh queue ever raises occupancy past capacity. -/
theorem c4_enqueue_full (q : PacketQueue) (r : Nat)
    (hfull : q.size = q.max_size) :
    (q.enqueue r).2 = false ∧
    (q.enqueue r).1.total_dropped = q.total_dropped + 1 ∧
    (q.enqueue r).1.queue = q.queue ∧
    (∀ cap : Nat, ∀ ops : List QOp,
      (ops.foldl applyQOp (PacketQueue.mk' cap)).size ≤ cap) := by
  have hcond : q.max_size ≤ q.queue.length := le_of_eq hfull.symm
  unfold PacketQueue.enqueue
  rw [if_pos hcond]
  refine ⟨rfl, rfl, rfl, ?_⟩
  intro cap ops
  exact foldl_qops_size_le ops (PacketQueue.mk' cap) (by simp [PacketQueue.mk',
    PacketQueue.size])

/-- C4 witness: a concrete full queue of capacity 1. -/
theorem c4_witness :
    ((((PacketQueue.mk' 1).enqueue 0).1.enqueue 1).2 = false ∧
    (((PacketQueue.mk' 1).enqueue 0).1.enqueue 1).1.total_dropped =
      ((PacketQueue.mk' 1).enqueue 0).1.total_dropped + 1 ∧
    (((PacketQueue.mk' 1).enqueue 0).1.enqueue 1).1.queue =
      ((PacketQueue.mk' 1).enqueue 0).1.queue ∧
    (∀ cap : Nat, ∀ ops : List QOp,
      (ops.foldl applyQOp (PacketQueue.mk' cap)).size ≤ cap)) :=
  c4_enqueue_full ((PacketQueue.mk' 1).enqueue 0).1 1 (by decide)

/-! ## Dijkstra settling: the crossing lemma and the settle step -/

theorem indexOf_append_self {l : List String} {a : String} (h : a ∉ l) :
    (l ++ [a]).indexOf a = l.length := by
  induction l with
  | nil => simp
  | cons b l' ih =>
    have hb : b ≠ a := fun hba => h (hba ▸ List.mem_cons_self b l')
    have h' : a ∉ l' := fun h'' => h (List.mem_cons_of_mem b h'')
    simp only [List.cons_append, List.indexOf_cons_ne _ hb, ih h',
      List.length_cons]

/-- Any path out of the visited region crosses the frontier: it contains a
visited node `x` with an unvisited neighbor `y`, and the prefix up to `x`
plus the crossing edge costs no more than the whole path. -/
theorem crossing {net : Network} {source : String}
    (hc : ∀ a b, 0 ≤ dijkstraEdgeCost net a b)
    {visited : List String} (hsrc : source ∈ visited) {v : String}
    {p : List String} (hp : IsPath net source v p) :
    v ∉ visited →
    ∃ x y ppre, x ∈ visited ∧ y ∉ visited ∧ Adj net x y ∧
      IsPath net source x ppre ∧
      pathCost net ppre + dijkstraEdgeCost net x y ≤ pathCost net p := by
  induction hp with
  | refl => intro hv; exact absurd hsrc hv
  | snoc u w p hpu hadj ih =>
    intro hw
    by_cases hu : u ∈ visited
    · exact ⟨u, w, p, hu, hw, hadj, hpu,
        le_of_eq (pathCost_snoc net hpu.getLast w).symm⟩
    · obtain ⟨x, y, ppre, hx, hy, hxy, hpx, hcost⟩ := ih hu
      refine ⟨x, y, ppre, hx, hy, hxy, hpx, ?_⟩
      rw [pathCost_snoc net hpu.getLast w]
      have := hc u w
      linarith

/-- Settling the popped node: when the heap's minimum `(d, cid)` is
unvisited, `d` is exactly `dist cid`, `d` is a lower bound on the cost of
every path to `cid`, and marking `cid` visited preserves the invariant with
`cid` as the one node whose edges are not yet relaxed. -/
theorem settle_step {net : Network} {source : String}
    (hc : ∀ a b, 0 ≤ dijkstraEdgeCost net a b) {st : DijkState}
    (hinv : DInv net source st) {d : ℚ} {cid : String}
    {rest : List (ℚ × String)}
    (hpop : popMin st.pq = some ((d, cid), rest)) (hnv : cid ∉ st.visited) :
    st.dist cid = ((d : ℚ) : WithTop ℚ) ∧
    (∀ p, IsPath net source cid p → d ≤ pathCost net p) ∧
    DInvX net source
      { st with pq := rest, visited := st.visited ++ [cid] } cid := by
  have hX := hinv.toX cid
  have hmem : (d, cid) ∈ st.pq := popMin_mem hpop
  have hdle : st.dist cid ≤ ((d : ℚ) : WithTop ℚ) := by
    simpa using hX.pq_dist (d, cid) hmem
  obtain ⟨q, hq, hqle⟩ := WithTop.le_coe_iff.mp hdle
  have hdisteq : st.dist cid = ((d : ℚ) : WithTop ℚ) := by
    rcases lt_or_eq_of_le hqle with hlt | heq
    · exfalso
      have hqmem : (q, cid) ∈ st.pq := hX.unvisited_pq cid q hnv hq
      have hle := popMin_le hpop (q, cid) hqmem
      dsimp only [heapLE] at hle
      rcases hle with h' | ⟨h', -⟩
      · linarith
      · linarith
    · rw [hq, heq]
  have hmin : ∀ p, IsPath net source cid p → d ≤ pathCost net p := by
    intro p hp
    by_cases hvis : st.visited = []
    · obtain ⟨hpq0, -, -⟩ := hX.init_case hvis
      rw [hpq0] at hpop
      have h0 : popMin [((0 : ℚ), source)] = some (((0 : ℚ), source), []) := rfl
      rw [h0] at hpop
      have heq := Option.some.inj hpop
      have hd0 : (0 : ℚ) = d := congrArg (fun z => z.1.1) heq
      rw [← hd0]
      exact pathCost_nonneg hc p
    · have hsrc := hX.source_mem hvis
      obtain ⟨x, y, ppre, hx, hy, hxy, hpx, hcost⟩ := crossing hc hsrc hp hnv
      have h1 : st.dist x ≤ ((pathCost net ppre : ℚ) : WithTop ℚ) :=
        hX.visited_min x hx ppre hpx
      have h2 : st.dist y ≤
          st.dist x + ((dijkstraEdgeCost net x y : ℚ) : WithTop ℚ) :=
        hinv.frontier x hx y hxy hy
      have h3 : st.dist y ≤
          (((pathCost net ppre + dijkstraEdgeCost net x y : ℚ)) : WithTop ℚ) := by
        calc st.dist y ≤
            st.dist x + ((dijkstraEdgeCost net x y : ℚ) : WithTop ℚ) := h2
          _ ≤ ((pathCost net ppre : ℚ) : WithTop ℚ) +
              ((dijkstraEdgeCost net x y : ℚ) : WithTop ℚ) :=
            add_le_add_right h1 _
          _ = (((pathCost net ppre + dijkstraEdgeCost net x y : ℚ)) :
              WithTop ℚ) := by rw [WithTop.coe_add]
      obtain ⟨qy, hqy, hqyle⟩ := WithTop.le_coe_iff.mp h3
      have hymem : (qy, y) ∈ st.pq := hX.unvisited_pq y qy hy hqy
      have hle := popMin_le hpop (qy, y) hymem
      dsimp only [heapLE] at hle
      have hdqy : d ≤ qy := by
        rcases hle with h' | ⟨h', -⟩
        · exact le_of_lt h'
        · exact le_of_eq h'
      calc d ≤ qy := hdqy
        _ ≤ pathCost net ppre + dijkstraEdgeCost net x y := hqyle
        _ ≤ pathCost net p := hcost
  refine ⟨hdisteq, hmin, ?_⟩
  have hsub : ∀ x ∈ rest, x ∈ st.pq := popMin_rest_subset hpop
  refine
    { pq_dist := ?_, pq_reach := ?_, dist_reach := ?_, visited_min := ?_,
      visited_frontier := ?_, unvisited_pq := ?_, dist_source := ?_,
      prev_none := ?_, prev_some := ?_, prev_of_dist := ?_,
      visited_dist := ?_, visited_nodup := ?_, init_case := ?_,
      source_mem := ?_ }
  · intro e he; exact hX.pq_dist e (hsub e he)
  · intro e he; exact hX.pq_reach e (hsub e he)
  · exact hX.dist_reach
  · intro v hv p hp
    rcases List.mem_append.mp hv with hv' | hv'
    · exact hX.visited_min v hv' p hp
    · rcases List.mem_singleton.mp hv' with rfl
      rw [hdisteq]
      exact WithTop.coe_le_coe.mpr (hmin p hp)
  · intro v hv hne u hadj hu
    have hv' : v ∈ st.visited := by
      rcases List.mem_append.mp hv with h' | h'
      · exact h'
      · exact absurd (List.mem_singleton.mp h') hne
    have hu' : u ∉ st.visited := fun h' =>
      hu (List.mem_append.mpr (Or.inl h'))
    exact hinv.frontier v hv' u hadj hu'
  · intro v q' hv hq'
    have hvs : v ∉ st.visited := fun h' =>
      hv (List.mem_append.mpr (Or.inl h'))
    have hvc : v ≠ cid := by
      intro h'
      exact hv (List.mem_append.mpr (Or.inr (by simp [h'])))
    have hmem' : (q', v) ∈ st.pq := hX.unvisited_pq v q' hvs hq'
    refine popMin_mem_rest hpop hmem' ?_
    intro h'
    exact hvc (congrArg Prod.snd h')
  · exact hX.dist_source
  · exact hX.prev_none
  · intro v u hprev
    obtain ⟨hadj, humem, hdeq, hord⟩ := hX.prev_some v u hprev
    refine ⟨hadj, List.mem_append.mpr (Or.inl humem), hdeq, ?_⟩
    intro hvmem
    rcases List.mem_append.mp hvmem with hv' | hv'
    · rw [List.indexOf_append_of_mem humem, List.indexOf_append_of_mem hv']
      exact hord hv'
    · rcases List.mem_singleton.mp hv' with rfl
      rw [List.indexOf_append_of_mem humem, indexOf_append_self hnv]
      exact List.indexOf_lt_length.mpr humem
  · exact hX.prev_of_dist
  · intro v hv
    rcases List.mem_append.mp hv with hv' | hv'
    · exact hX.visited_dist v hv'
    · rcases List.mem_singleton.mp hv' with rfl
      exact ⟨d, hdisteq⟩
  · refine List.Nodup.append hX.visited_nodup (List.nodup_singleton cid) ?_
    intro a ha hb
    rcases List.mem_singleton.mp hb with rfl
    exact hnv ha
  · intro h
    exact absurd h (by simp)
  · intro _
    by_cases hvis : st.visited = []
    · obtain ⟨hpq0, -, -⟩ := hX.init_case hvis
      rw [hpq0] at hpop
      have h0 : popMin [((0 : ℚ), source)] = some (((0 : ℚ), source), []) := rfl
      rw [h0] at hpop
      have heq := Option.some.inj hpop
      have hsc : source = cid := congrArg (fun z => z.1.2) heq
      rw [hvis]
      simp [hsc]
    · exact List.mem_append.mpr (Or.inl (hX.source_mem hvis))

/-- One relaxation step preserves the invariant (with the settled node `cid`
excluded), does not touch the visited list or `cid`'s distance, only lowers
distances, and establishes the frontier bound for the relaxed neighbor. -/
theorem relax_step {net : Network} {source : String} {d : ℚ} {cid : String}
    {st : DijkState} {nb : String}
    (hX : DInvX net source st cid) (hd : st.dist cid = ((d : ℚ) : WithTop ℚ))
    (hcv : cid ∈ st.visited) (hnb : nb ∈ net.get_neighbors cid) :
    DInvX net source (relaxNeighbor net d cid st nb) cid ∧
    (relaxNeighbor net d cid st nb).visited = st.visited ∧
    (relaxNeighbor net d cid st nb).dist cid = ((d : ℚ) : WithTop ℚ) ∧
    (∀ u, (relaxNeighbor net d cid st nb).dist u ≤ st.dist u) ∧
    (nb ∉ st.visited → Adj net cid nb →
      (relaxNeighbor net d cid st nb).dist nb ≤
        ((d : ℚ) : WithTop ℚ) +
          ((dijkstraEdgeCost net cid nb : ℚ) : WithTop ℚ)) := by
  unfold relaxNeighbor
  by_cases hv : nb ∈ st.visited
  · rw [if_pos hv]
    exact ⟨hX, rfl, hd, fun u => le_refl _, fun h _ => absurd hv h⟩
  · rw [if_neg hv]
    cases hlink : net.get_link_between cid nb with
    | none =>
      dsimp only
      refine ⟨hX, rfl, hd, fun u => le_refl _, ?_⟩
      intro _ hadj
      exact absurd hadj.2 (by rw [hlink]; simp)
    | some link =>
      dsimp only
      have hcost : dijkstraEdgeCost net cid nb =
          link.weight * congestionMultiplier net nb := by
        unfold dijkstraEdgeCost
        rw [hlink]
      by_cases hlt : ((d + link.weight * congestionMultiplier net nb : ℚ) :
          WithTop ℚ) < st.dist nb
      · rw [if_pos hlt]
        have hcidnb : cid ≠ nb := fun h => hv (h ▸ hcv)
        have hAdj : Adj net cid nb := ⟨hnb, by rw [hlink]; rfl⟩
        obtain ⟨p0, hp0, hc0⟩ := hX.dist_reach cid d hd
        have hpathnb : IsPath net source nb (p0 ++ [nb]) :=
          IsPath.snoc _ _ _ hp0 hAdj
        have hcostnb : pathCost net (p0 ++ [nb]) =
            d + link.weight * congestionMultiplier net nb := by
          rw [pathCost_snoc net hp0.getLast nb, hc0, hcost]
        have hsv : source ∈ st.visited :=
          hX.source_mem (List.ne_nil_of_mem hcv)
        have hsnb : source ≠ nb := fun h => hv (h ▸ hsv)
        refine ⟨?_, rfl, ?_, ?_, ?_⟩
        · refine
            { pq_dist := ?_, pq_reach := ?_, dist_reach := ?_,
              visited_min := ?_, visited_frontier := ?_, unvisited_pq := ?_,
              dist_source := ?_, prev_none := ?_, prev_some := ?_,
              prev_of_dist := ?_, visited_dist := ?_, visited_nodup := ?_,
              init_case := ?_, source_mem := ?_ }
          · intro e he
            rcases List.mem_append.mp he with he' | he'
            · show (if e.2 = nb then _ else _) ≤ _
              by_cases h2 : e.2 = nb
              · rw [if_pos h2]
                have h3 := hX.pq_dist e he'
                rw [h2] at h3
                exact le_trans (le_of_lt hlt) h3
              · rw [if_neg h2]
                exact hX.pq_dist e he'
            · have h4 : e = (d + link.weight * congestionMultiplier net nb, nb) :=
                List.mem_singleton.mp he'
              rw [h4]
              show (if nb = nb then _ else _) ≤ _
              rw [if_pos rfl]
          · intro e he
            rcases List.mem_append.mp he with he' | he'
            · exact hX.pq_reach e he'
            · have h4 : e = (d + link.weight * congestionMultiplier net nb, nb) :=
                List.mem_singleton.mp he'
              rw [h4]
              exact ⟨p0 ++ [nb], hpathnb, hcostnb⟩
          · intro v q hq
            dsimp only at hq
            by_cases hvnb : v = nb
            · rw [if_pos hvnb] at hq
              rw [hvnb]
              have hqv : d + link.weight * congestionMultiplier net nb = q := by
                exact_mod_cast hq
              exact ⟨p0 ++ [nb], hpathnb, hcostnb.trans hqv⟩
            · rw [if_neg hvnb] at hq
              exact hX.dist_reach v q hq
          · intro v hvv p hp
            have hvne : v ≠ nb := fun h => hv (h ▸ hvv)
            show (if v = nb then _ else _) ≤ _
            rw [if_neg hvne]
            exact hX.visited_min v hvv p hp
          · intro v hvv hne u hadj hu
            have hvne : v ≠ nb := fun h => hv (h ▸ hvv)
            show (if u = nb then _ else _) ≤ (if v = nb then _ else _) + _
            rw [if_neg hvne]
            by_cases hunb : u = nb
            · rw [if_pos hunb]
              have hlt2 : ((d + link.weight * congestionMultiplier net nb : ℚ) :
                  WithTop ℚ) < st.dist u := by rw [hunb]; exact hlt
              exact le_trans (le_of_lt hlt2)
                (hX.visited_frontier v hvv hne u hadj hu)
            · rw [if_neg hunb]
              exact hX.visited_frontier v hvv hne u hadj hu
          · intro v q hvv hq
            dsimp only at hq
            by_cases hvnb : v = nb
            · rw [if_pos hvnb] at hq
              have hqv : d + link.weight * congestionMultiplier net nb = q := by
                exact_mod_cast hq
              rw [hvnb, ← hqv]
              exact List.mem_append.mpr (Or.inr (by simp))
            · rw [if_neg hvnb] at hq
              exact List.mem_append.mpr (Or.inl (hX.unvisited_pq v q hvv hq))
          · show (if source = nb then _ else _) = _
            rw [if_neg hsnb]
            exact hX.dist_source
          · show (if source = nb then _ else _) = _
            rw [if_neg hsnb]
            exact hX.prev_none
          · intro v u hprev
            dsimp only at hprev
            by_cases hvnb : v = nb
            · rw [if_pos hvnb] at hprev
              have huc : u = cid := (Option.some.inj hprev).symm
              rw [hvnb, huc]
              refine ⟨hAdj, hcv, ?_, ?_⟩
              · show (if nb = nb then _ else _) =
                  (if cid = nb then _ else _) + _
                rw [if_pos rfl, if_neg hcidnb, hd, hcost, ← WithTop.coe_add]
              · intro hnbv
                exact absurd hnbv hv
            · rw [if_neg hvnb] at hprev
              obtain ⟨ha, hu, hde, hord⟩ := hX.prev_some v u hprev
              have hunb : u ≠ nb := fun h => hv (h ▸ hu)
              refine ⟨ha, hu, ?_, hord⟩
              show (if v = nb then _ else _) = (if u = nb then _ else _) + _
              rw [if_neg hvnb, if_neg hunb]
              exact hde
          · intro v q hvs hq
            dsimp only at hq
            by_cases hvnb : v = nb
            · refine ⟨cid, ?_⟩
              show (if v = nb then _ else _) = _
              rw [if_pos hvnb]
            · rw [if_neg hvnb] at hq
              obtain ⟨u, hu⟩ := hX.prev_of_dist v q hvs hq
              refine ⟨u, ?_⟩
              show (if v = nb then _ else _) = _
              rw [if_neg hvnb]
              exact hu
          · intro v hvv
            have hvne : v ≠ nb := fun h => hv (h ▸ hvv)
            obtain ⟨q, hq⟩ := hX.visited_dist v hvv
            refine ⟨q, ?_⟩
            show (if v = nb then _ else _) = _
            rw [if_neg hvne]
            exact hq
          · exact hX.visited_nodup
          · intro h
            have h' : st.visited = [] := h
            rw [h'] at hcv
            cases hcv
          · intro _
            exact hX.source_mem (List.ne_nil_of_mem hcv)
        · show (if cid = nb then _ else _) = _
          rw [if_neg hcidnb]
          exact hd
        · intro u
          show (if u = nb then _ else _) ≤ _
          by_cases hunb : u = nb
          · rw [if_pos hunb]
            have hlt2 : ((d + link.weight * congestionMultiplier net nb : ℚ) :
                WithTop ℚ) < st.dist u := by rw [hunb]; exact hlt
            exact le_of_lt hlt2
          · rw [if_neg hunb]
        · intro _ _
          show (if nb = nb then _ else _) ≤ _
          rw [if_pos rfl, hcost, ← WithTop.coe_add]
      · rw [if_neg hlt]
        refine ⟨hX, rfl, hd, fun u => le_refl _, ?_⟩
        intro _ _
        push_neg at hlt
        rw [hcost, ← WithTop.coe_add]
        exact hlt

/-- Folding the relaxation over any sublist of the settled node's neighbor
list preserves the invariant, keeps the visited list and `cid`'s distance
fixed, only lowers distances, and establishes the frontier bound for every
relaxed adjacent unvisited neighbor. -/
theorem foldRelax_inv {net : Network} {source : String} {d : ℚ}
    {cid : String} (l : List String)
    (hl : ∀ u ∈ l, u ∈ net.get_neighbors cid) :
    ∀ st : DijkState, DInvX net source st cid →
      st.dist cid = ((d : ℚ) : WithTop ℚ) → cid ∈ st.visited →
      DInvX net source (l.foldl (relaxNeighbor net d cid) st) cid ∧
      (l.foldl (relaxNeighbor net d cid) st).visited = st.visited ∧
      (l.foldl (relaxNeighbor net d cid) st).dist cid =
        ((d : ℚ) : WithTop ℚ) ∧
      (∀ u, (l.foldl (relaxNeighbor net d cid) st).dist u ≤ st.dist u) ∧
      (∀ u ∈ l, u ∉ st.visited → Adj net cid u →
        (l.foldl (relaxNeighbor net d cid) st).dist u ≤
          ((d : ℚ) : WithTop ℚ) +
            ((dijkstraEdgeCost net cid u : ℚ) : WithTop ℚ)) := by
  induction l with
  | nil =>
    intro st hX hd hcv
    exact ⟨hX, rfl, hd, fun u => le_refl _, by simp⟩
  | cons nb l' ih =>
    intro st hX hd hcv
    have hnbmem : nb ∈ net.get_neighbors cid := hl nb (List.mem_cons_self nb l')
    have hl' : ∀ u ∈ l', u ∈ net.get_neighbors cid := fun u hu =>
      hl u (List.mem_cons_of_mem nb hu)
    obtain ⟨hX1, hvis1, hd1, hmono1, hbnd1⟩ := relax_step hX hd hcv hnbmem
    have hcv1 : cid ∈ (relaxNeighbor net d cid st nb).visited := by
      rw [hvis1]; exact hcv
    obtain ⟨hX2, hvis2, hd2, hmono2, hbnd2⟩ := ih hl' _ hX1 hd1 hcv1
    rw [List.foldl_cons]
    refine ⟨hX2, hvis2.trans hvis1, hd2, ?_, ?_⟩
    · intro u
      exact le_trans (hmono2 u) (hmono1 u)
    · intro u hu hunv hadj
      rcases List.mem_cons.mp hu with rfl | hu'
      · exact le_trans (hmono2 u) (hbnd1 hunv hadj)
      · exact hbnd2 u hu' (by rw [hvis1]; exact hunv) hadj

/-- Settling the popped minimum and relaxing all its neighbors yields the
full invariant again (the loop body of `compute_route` for a fresh popped
node that is not the destination). -/
theorem settle_relax {net : Network} {source : String}
    (hc : ∀ a b, 0 ≤ dijkstraEdgeCost net a b) {st : DijkState}
    (hinv : DInv net source st) {d : ℚ} {cid : String}
    {rest : List (ℚ × String)} {cnode : Node}
    (hpop : popMin st.pq = some ((d, cid), rest)) (hnv : cid ∉ st.visited)
    (hnode : net.get_node cid = some cnode) :
    DInv net source (cnode.neighbors.foldl (relaxNeighbor net d cid)
      { st with pq := rest, visited := st.visited ++ [cid] }) := by
  obtain ⟨hdist, hmin, hX1⟩ := settle_step hc hinv hpop hnv
  have hgn : net.get_neighbors cid = cnode.neighbors := by
    unfold Network.get_neighbors
    rw [hnode]
  have hcv1 : cid ∈
      ({ st with pq := rest, visited := st.visited ++ [cid] } :
        DijkState).visited := by simp
  have hl : ∀ u ∈ cnode.neighbors, u ∈ net.get_neighbors cid := by
    intro u hu
    rw [hgn]
    exact hu
  obtain ⟨hX2, hvis2, hd2, hmono2, hbnd2⟩ :=
    foldRelax_inv cnode.neighbors hl _ hX1 hdist hcv1
  apply DInvX_full hX2
  intro u hadj hu
  have humem : u ∈ cnode.neighbors := by
    rw [← hgn]
    exact hadj.1
  rw [hvis2] at hu
  have hu1 : u ∉ st.visited ++ [cid] := hu
  rw [hd2]
  exact hbnd2 u humem hu1 hadj

/-! ## One-step unfolding equations for the Dijkstra loop -/

theorem dijkstraLoop_none {net : Network} {dest : String} {st : DijkState}
    (h : popMin st.pq = none) : dijkstraLoop net dest st = st := by
  unfold dijkstraLoop
  split
  · rfl
  · rename_i d cid rest heq
    rw [h] at heq
    cases heq

theorem dijkstraLoop_skip {net : Network} {dest : String} {st : DijkState}
    {d : ℚ} {cid : String} {rest : List (ℚ × String)}
    (h : popMin st.pq = some ((d, cid), rest)) (hv : cid ∈ st.visited) :
    dijkstraLoop net dest st = dijkstraLoop net dest { st with pq := rest } := by
  conv_lhs => unfold dijkstraLoop
  split
  · rename_i heq
    rw [h] at heq
    cases heq
  · rename_i d' cid' rest' heq
    rw [h] at heq
    cases heq
    rw [dif_pos hv]

theorem dijkstraLoop_break {net : Network} {dest : String} {st : DijkState}
    {d : ℚ} {rest : List (ℚ × String)}
    (h : popMin st.pq = some ((d, dest), rest)) (hv : dest ∉ st.visited) :
    dijkstraLoop net dest st =
      { st with pq := rest, visited := st.visited ++ [dest] } := by
  conv_lhs => unfold dijkstraLoop
  split
  · rename_i heq
    rw [h] at heq
    cases heq
  · rename_i d' cid' rest' heq
    rw [h] at heq
    cases heq
    rw [dif_neg hv, if_pos rfl]

theorem dijkstraLoop_nonode {net : Network} {dest : String} {st : DijkState}
    {d : ℚ} {cid : String} {rest : List (ℚ × String)}
    (h : popMin st.pq = some ((d, cid), rest)) (hv : cid ∉ st.visited)
    (hne : cid ≠ dest) (hn : net.get_node cid = none) :
    dijkstraLoop net dest st = dijkstraLoop net dest
      { st with pq := rest, visited := st.visited ++ [cid] } := by
  conv_lhs => unfold dijkstraLoop
  split
  · rename_i heq
    rw [h] at heq
    cases heq
  · rename_i d' cid' rest' heq
    rw [h] at heq
    cases heq
    rw [dif_neg hv, if_neg hne]
    split
    · rfl
    · rename_i cnode heq2
      rw [hn] at heq2
      cases heq2

theorem dijkstraLoop_relax {net : Network} {dest : String} {st : DijkState}
    {d : ℚ} {cid : String} {rest : List (ℚ × String)} {cnode : Node}
    (h : popMin st.pq = some ((d, cid), rest)) (hv : cid ∉ st.visited)
    (hne : cid ≠ dest) (hn : net.get_node cid = some cnode) :
    dijkstraLoop net dest st = dijkstraLoop net dest
      (cnode.neighbors.foldl (relaxNeighbor net d cid)
        { st with pq := rest, visited := st.visited ++ [cid] }) := by
  conv_lhs => unfold dijkstraLoop
  split
  · rename_i heq
    rw [h] at heq
    cases heq
  · rename_i d' cid' rest' heq
    rw [h] at heq
    cases heq
    rw [dif_neg hv, if_neg hne]
    split
    · rename_i heq2
      rw [hn] at heq2
      cases heq2
    · rename_i cnode' heq2
      rw [hn] at heq2
      cases heq2
      rfl

/-! ## The loop invariant through each branch of the loop body -/

/-- Popping an already-visited entry (lazy deletion) preserves the
invariant. -/
theorem skip_inv {net : Network} {source : String} {st : DijkState}
    {d : ℚ} {cid : String} {rest : List (ℚ × String)}
    (hinv : DInv net source st)
    (hpop : popMin st.pq = some ((d, cid), rest)) (hcv : cid ∈ st.visited) :
    DInv net source { st with pq := rest } := by
  intro excl
  have hX := hinv excl
  have hsub := popMin_rest_subset hpop
  refine
    { hX with
      pq_dist := ?_
      pq_reach := ?_
      unvisited_pq := ?_
      init_case := ?_ }
  · intro e he
    exact hX.pq_dist e (hsub e he)
  · intro e he
    exact hX.pq_reach e (hsub e he)
  · intro v q hv hq
    have hvc : v ≠ cid := fun h => hv (h ▸ hcv)
    refine popMin_mem_rest hpop (hX.unvisited_pq v q hv hq) ?_
    intro h
    exact hvc (congrArg Prod.snd h)
  · intro h
    have h' : st.visited = [] := h
    rw [h'] at hcv
    cases hcv

/-- When the heap empties, every node that admits a path has been visited
with a finite distance, so the final invariant holds. -/
theorem final_of_empty {net : Network} {source destination : String}
    {st : DijkState} (hc : ∀ a b, 0 ≤ dijkstraEdgeCost net a b)
    (hinv : DInv net source st) (hpq : st.pq = []) :
    FinalInv net source destination st := by
  have hX := hinv.toX ""
  have hreach : ∀ v p, IsPath net source v p → v ∈ st.visited := by
    intro v p hp
    by_contra hnv
    by_cases hvis : st.visited = []
    · have h0 := hX.init_case hvis
      rw [h0.1] at hpq
      cases hpq
    · have hsrc := hX.source_mem hvis
      obtain ⟨x, y, ppre, hx, hy, hxy, hpx, -⟩ := crossing hc hsrc hp hnv
      obtain ⟨qx, hqx⟩ := hX.visited_dist x hx
      have hfr := hinv.frontier x hx y hxy hy
      rw [hqx] at hfr
      have hfr2 : st.dist y ≤
          ((qx + dijkstraEdgeCost net x y : ℚ) : WithTop ℚ) := by
        rw [WithTop.coe_add]
        exact hfr
      obtain ⟨qy, hqy, -⟩ := WithTop.le_coe_iff.mp hfr2
      have hmem := hX.unvisited_pq y qy hy hqy
      rw [hpq] at hmem
      cases hmem
  refine
    { dist_reach := hX.dist_reach, visited_min := hX.visited_min,
      dist_source := hX.dist_source, prev_none := hX.prev_none,
      prev_some := hX.prev_some, prev_of_dist := hX.prev_of_dist,
      visited_dist := hX.visited_dist, dest_unreach := ?_,
      dest_visited := ?_ }
  · intro h p hp
    obtain ⟨q, hq⟩ := hX.visited_dist destination (hreach destination p hp)
    rw [hq] at h
    exact WithTop.coe_ne_top h
  · intro q hq
    by_contra hnd
    have hmem := hX.unvisited_pq destination q hnd hq
    rw [hpq] at hmem
    cases hmem

/-- Settling the destination itself: the loop breaks and the final
invariant holds in the settled state. -/
theorem final_of_break {net : Network} {source destination : String}
    {st : DijkState} {d : ℚ} {rest : List (ℚ × String)}
    (hc : ∀ a b, 0 ≤ dijkstraEdgeCost net a b)
    (hinv : DInv net source st)
    (hpop : popMin st.pq = some ((d, destination), rest))
    (hnv : destination ∉ st.visited) :
    FinalInv net source destination
      { st with pq := rest, visited := st.visited ++ [destination] } := by
  obtain ⟨hdist, hmin, hX⟩ := settle_step hc hinv hpop hnv
  refine
    { dist_reach := hX.dist_reach, visited_min := hX.visited_min,
      dist_source := hX.dist_source, prev_none := hX.prev_none,
      prev_some := hX.prev_some, prev_of_dist := hX.prev_of_dist,
      visited_dist := hX.visited_dist, dest_unreach := ?_,
      dest_visited := ?_ }
  · intro h
    have h' : st.dist destination = ⊤ := h
    rw [hdist] at h'
    exact absurd h' (by simp)
  · intro q _
    simp

/-- Settling a node absent from the node dict: no edges leave it, so the
frontier condition for it is vacuous and the full invariant survives. -/
theorem settle_nonode {net : Network} {source : String} {st : DijkState}
    {d : ℚ} {cid : String} {rest : List (ℚ × String)}
    (hc : ∀ a b, 0 ≤ dijkstraEdgeCost net a b)
    (hinv : DInv net source st)
    (hpop : popMin st.pq = some ((d, cid), rest)) (hnv : cid ∉ st.visited)
    (hn : net.get_node cid = none) :
    DInv net source { st with pq := rest, visited := st.visited ++ [cid] } := by
  obtain ⟨-, -, hX⟩ := settle_step hc hinv hpop hnv
  apply DInvX_full hX
  intro u hadj _
  exfalso
  have h1 : u ∈ net.get_neighbors cid := hadj.1
  rw [show net.get_neighbors cid = [] from by
    unfold Network.get_neighbors; rw [hn]] at h1
  cases h1

/-- The Dijkstra loop carries the invariant to the final invariant. -/
theorem loop_final {net : Network} {source destination : String}
    (hc : ∀ a b, 0 ≤ dijkstraEdgeCost net a b) (st : DijkState) :
    DInv net source st →
    FinalInv net source destination (dijkstraLoop net destination st) := by
  induction st using dijkstraLoop.induct net destination with
  | case1 x hpop =>
    intro hinv
    rw [dijkstraLoop_none hpop]
    exact final_of_empty hc hinv (popMin_eq_none.mp hpop)
  | case2 x d cid rest hpop hcv ih =>
    intro hinv
    rw [dijkstraLoop_skip hpop hcv]
    exact ih (skip_inv hinv hpop hcv)
  | case3 x d rest hpop hnv =>
    intro hinv
    rw [dijkstraLoop_break hpop hnv]
    exact final_of_break hc hinv hpop hnv
  | case4 x d cid rest hpop hnv st1 hne hn ih =>
    intro hinv
    rw [dijkstraLoop_nonode hpop hnv hne hn]
    exact ih (settle_nonode hc hinv hpop hnv hn)
  | case5 x d cid rest hpop hnv st1 hne cnode hn ih =>
    intro hinv
    rw [dijkstraLoop_relax hpop hnv hne hn]
    exact ih (settle_relax hc hinv hpop hnv hn)

/-! ## Path reconstruction and the initial state -/

/-- Following the `previous` pointers from any visited node with finite
distance is acyclic (the settle order strictly decreases), reaches the
source, and spells out a path whose cost is exactly the recorded distance;
the fuel `visited.length + 1` never runs out. -/
theorem reconstruct_spec {net : Network} {source : String} {st : DijkState}
    (hps : ∀ v u, st.prev v = some u → Adj net u v ∧ u ∈ st.visited ∧
      st.dist v = st.dist u + ((dijkstraEdgeCost net u v : ℚ) : WithTop ℚ) ∧
      (v ∈ st.visited → st.visited.indexOf u < st.visited.indexOf v))
    (hpn : st.prev source = none)
    (hpd : ∀ v (q : ℚ), v ≠ source → st.dist v = ((q : ℚ) : WithTop ℚ) →
      ∃ u, st.prev v = some u)
    (hds : st.dist source = ((0 : ℚ) : WithTop ℚ)) :
    ∀ n, ∀ v ∈ st.visited, st.visited.indexOf v < n →
      ∀ q : ℚ, st.dist v = ((q : ℚ) : WithTop ℚ) →
      ∃ rpath, IsPath net source v rpath ∧ pathCost net rpath = q ∧
        ∀ fuel acc, st.visited.indexOf v + 2 ≤ fuel →
          reconstruct st.prev fuel (some v) acc =
            some (rpath ++ acc.reverse) := by
  intro n
  induction n with
  | zero =>
    intro v hv h
    exact absurd h (Nat.not_lt_zero _)
  | succ n ih =>
    intro v hv hlt q hq
    by_cases hvs : v = source
    · subst hvs
      have hq0 : q = 0 := by
        rw [hds] at hq
        exact_mod_cast hq.symm
      refine ⟨[v], IsPath.refl, ?_, ?_⟩
      · rw [pathCost_single, hq0]
      · intro fuel acc hfuel
        obtain ⟨f, rfl⟩ : ∃ f, fuel = f + 2 := ⟨fuel - 2, by omega⟩
        have e1 : reconstruct st.prev (f + 2) (some v) acc =
            reconstruct st.prev (f + 1) (st.prev v) (acc ++ [v]) := rfl
        rw [e1, hpn]
        have e2 : reconstruct st.prev (f + 1) none (acc ++ [v]) =
            some (acc ++ [v]).reverse := rfl
        rw [e2, List.reverse_append]
        rfl
    · obtain ⟨u, hpu⟩ := hpd v q hvs hq
      obtain ⟨hadj, humem, hdeq, hord⟩ := hps v u hpu
      have hidx : st.visited.indexOf u < st.visited.indexOf v := hord hv
      have hune : st.dist u ≠ ⊤ := by
        intro h
        rw [h, hq] at hdeq
        simp at hdeq
      obtain ⟨qu, hqu⟩ := WithTop.ne_top_iff_exists.mp hune
      have hquq : q = qu + dijkstraEdgeCost net u v := by
        rw [hq, ← hqu, ← WithTop.coe_add] at hdeq
        exact_mod_cast hdeq
      have hun : st.visited.indexOf u < n := by omega
      obtain ⟨rpU, hIsU, hcostU, hrecU⟩ := ih u humem hun qu hqu.symm
      refine ⟨rpU ++ [v], IsPath.snoc _ _ _ hIsU hadj, ?_, ?_⟩
      · rw [pathCost_snoc net hIsU.getLast v, hcostU, hquq]
      · intro fuel acc hfuel
        obtain ⟨f, rfl⟩ : ∃ f, fuel = f + 1 := ⟨fuel - 1, by omega⟩
        have e1 : reconstruct st.prev (f + 1) (some v) acc =
            reconstruct st.prev f (st.prev v) (acc ++ [v]) := rfl
        rw [e1, hpu, hrecU f (acc ++ [v]) (by omega), List.reverse_append]
        simp

/-- The state `compute_route` seeds the loop with satisfies the
invariant. -/
theorem init_DInv {net : Network} {source : String} :
    DInv net source
      { dist := fun node_id =>
          if node_id = source then ((0 : ℚ) : WithTop ℚ) else ⊤
        prev := fun _ => none
        pq := [((0 : ℚ), source)]
        visited := [] } := by
  intro excl
  refine
    { pq_dist := ?_, pq_reach := ?_, dist_reach := ?_, visited_min := ?_,
      visited_frontier := ?_, unvisited_pq := ?_, dist_source := ?_,
      prev_none := ?_, prev_some := ?_, prev_of_dist := ?_,
      visited_dist := ?_, visited_nodup := ?_, init_case := ?_,
      source_mem := ?_ }
  · intro e he
    have h4 : e = (((0 : ℚ)), source) := List.mem_singleton.mp he
    rw [h4]
    show (if source = source then _ else _) ≤ _
    rw [if_pos rfl]
  · intro e he
    have h4 : e = (((0 : ℚ)), source) := List.mem_singleton.mp he
    rw [h4]
    exact ⟨[source], IsPath.refl, rfl⟩
  · intro v q hq
    dsimp only at hq
    by_cases hvs : v = source
    · rw [if_pos hvs] at hq
      have h0 : (0 : ℚ) = q := by exact_mod_cast hq
      rw [hvs]
      exact ⟨[source], IsPath.refl, h0⟩
    · rw [if_neg hvs] at hq
      exact absurd hq.symm WithTop.coe_ne_top
  · intro v hv
    cases hv
  · intro v hv
    cases hv
  · intro v q hv hq
    dsimp only at hq
    by_cases hvs : v = source
    · rw [if_pos hvs] at hq
      have h0 : (0 : ℚ) = q := by exact_mod_cast hq
      rw [hvs, ← h0]
      exact List.mem_singleton_self _
    · rw [if_neg hvs] at hq
      exact absurd hq.symm WithTop.coe_ne_top
  · show (if source = source then _ else _) = _
    rw [if_pos rfl]
  · rfl
  · intro v u hprev
    dsimp only at hprev
    cases hprev
  · intro v q hvs hq
    dsimp only at hq
    rw [if_neg hvs] at hq
    exact absurd hq.symm WithTop.coe_ne_top
  · intro v hv
    cases hv
  · exact List.nodup_nil
  · intro _
    exact ⟨rfl, rfl, rfl⟩
  · intro h
    exact absurd rfl h

/-- C2: for the adaptive strategy over a network with nonnegative link
weights and both endpoints present, `compute_route x x = [x]`; the route is
`none` exactly when no neighbor-edge path exists; and any returned path is a
neighbor-edge path of minimal total adaptive cost at computation time. -/
theorem c2_dijkstra_route_correct {net : Network} {source destination : String}
    (hw : ∀ q ∈ net.links, 0 ≤ q.2.weight)
    (hs : (net.get_node source).isSome = true)
    (hd : (net.get_node destination).isSome = true) :
    DijkstraRouting.compute_route net source source = some [source] ∧
    (DijkstraRouting.compute_route net source destination = none ↔
      ∀ p, ¬IsPath net source destination p) ∧
    ∀ p, DijkstraRouting.compute_route net source destination = some p →
      IsPath net source destination p ∧
      ∀ p2, IsPath net source destination p2 →
        pathCost net p ≤ pathCost net p2 := by
  obtain ⟨snode, hsn⟩ := Option.isSome_iff_exists.mp hs
  obtain ⟨dnode, hdn⟩ := Option.isSome_iff_exists.mp hd
  have hc : ∀ a b, 0 ≤ dijkstraEdgeCost net a b := dijkstraEdgeCost_nonneg hw
  have hcond : ¬((net.get_node source).isNone = true ∨
      (net.get_node destination).isNone = true) := by
    simp [hsn, hdn]
  have hself : DijkstraRouting.compute_route net source source =
      some [source] := by
    unfold DijkstraRouting.compute_route
    rw [if_neg (by simp [hsn]), if_pos rfl]
  set st : DijkState := dijkstraLoop net destination
    { dist := fun node_id =>
        if node_id = source then ((0 : ℚ) : WithTop ℚ) else ⊤
      prev := fun _ => none
      pq := [((0 : ℚ), source)]
      visited := [] } with hst
  have hfin : FinalInv net source destination st := loop_final hc _ init_DInv
  have hroute : source ≠ destination →
      DijkstraRouting.compute_route net source destination =
        (if st.dist destination = ⊤ then none
         else reconstruct st.prev (st.visited.length + 1)
           (some destination) []) := by
    intro hsd
    unfold DijkstraRouting.compute_route
    rw [if_neg hcond, if_neg hsd]
  have hfinq : ¬st.dist destination = ⊤ →
      ∃ q : ℚ, st.dist destination = ((q : ℚ) : WithTop ℚ) := by
    intro htop
    obtain ⟨q, hq⟩ := WithTop.ne_top_iff_exists.mp htop
    exact ⟨q, hq.symm⟩
  have hrecon : ∀ q : ℚ, st.dist destination = ((q : ℚ) : WithTop ℚ) →
      ∃ rpath, IsPath net source destination rpath ∧
        pathCost net rpath = q ∧
        reconstruct st.prev (st.visited.length + 1) (some destination) [] =
          some rpath := by
    intro q hq
    have hdv := hfin.dest_visited q hq
    obtain ⟨rpath, hIs, hcost, hrec⟩ :=
      reconstruct_spec hfin.prev_some hfin.prev_none hfin.prev_of_dist
        hfin.dist_source (st.visited.indexOf destination + 1) destination hdv
        (Nat.lt_succ_self _) q hq
    refine ⟨rpath, hIs, hcost, ?_⟩
    have hfuel : st.visited.indexOf destination + 2 ≤
        st.visited.length + 1 := by
      have := List.indexOf_lt_length.mpr hdv
      omega
    rw [hrec (st.visited.length + 1) [] hfuel]
    simp
  refine ⟨hself, ?_, ?_⟩
  · by_cases hsd : source = destination
    · subst hsd
      constructor
      · intro hnone
        rw [hself] at hnone
        cases hnone
      · intro hnp
        exact absurd IsPath.refl (hnp [source])
    · constructor
      · intro hnone p hp
        rw [hroute hsd] at hnone
        by_cases htop : st.dist destination = ⊤
        · exact hfin.dest_unreach htop p hp
        · exfalso
          rw [if_neg htop] at hnone
          obtain ⟨q, hq⟩ := hfinq htop
          obtain ⟨rpath, -, -, hres⟩ := hrecon q hq
          rw [hres] at hnone
          cases hnone
      · intro hnp
        have htop : st.dist destination = ⊤ := by
          by_contra htop
          obtain ⟨q, hq⟩ := hfinq htop
          obtain ⟨p, hp, -⟩ := hfin.dist_reach destination q hq
          exact absurd hp (hnp p)
        rw [hroute hsd, if_pos htop]
  · intro p hp
    by_cases hsd : source = destination
    · subst hsd
      rw [hself] at hp
      have hpe : [source] = p := Option.some.inj hp
      rw [← hpe]
      refine ⟨IsPath.refl, ?_⟩
      intro p2 hp2
      rw [pathCost_single]
      exact pathCost_nonneg hc p2
    · rw [hroute hsd] at hp
      by_cases htop : st.dist destination = ⊤
      · rw [if_pos htop] at hp
        cases hp
      · rw [if_neg htop] at hp
        obtain ⟨q, hq⟩ := hfinq htop
        obtain ⟨rpath, hIs, hcost, hres⟩ := hrecon q hq
        rw [hres] at hp
        have hpe : rpath = p := Option.some.inj hp
        rw [← hpe]
        refine ⟨hIs, ?_⟩
        intro p2 hp2
        have hmin := hfin.visited_min destination (hfin.dest_visited q hq)
          p2 hp2
        rw [hq] at hmin
        have hqle : q ≤ pathCost net p2 := by exact_mod_cast hmin
        rw [hcost]
        exact hqle

/-- C2 witness: the 3-node line A—B—C; source A and destination C are
present and all link weights are nonnegative, so the theorem applies. -/
theorem c2_witness :
    ((∀ q ∈ sampleNet.links, 0 ≤ q.2.weight) ∧
      (sampleNet.get_node "A").isSome = true ∧
      (sampleNet.get_node "C").isSome = true) ∧
    (DijkstraRouting.compute_route sampleNet "A" "A" = some ["A"] ∧
      (DijkstraRouting.compute_route sampleNet "A" "C" = none ↔
        ∀ p, ¬IsPath sampleNet "A" "C" p) ∧
      ∀ p, DijkstraRouting.compute_route sampleNet "A" "C" = some p →
        IsPath sampleNet "A" "C" p ∧
        ∀ p2, IsPath sampleNet "A" "C" p2 →
          pathCost sampleNet p ≤ pathCost sampleNet p2) :=
  ⟨⟨by decide, by decide, by decide⟩,
    c2_dijkstra_route_correct (by decide) (by decide) (by decide)⟩

/-! ## Claims C7, C8, C10 — generation-time drops and statistics -/

theorem getP_append_length (l : List Packet) (p : Packet) :
    getP (l ++ [p]) l.length = p := by
  induction l with
  | nil => rfl
  | cons x xs ih =>
    show getP (x :: (xs ++ [p])) (xs.length + 1) = p
    exact ih

/-- The no-route branch of `generate_packet` in closed form. -/
theorem generate_packet_no_route {e : Engine} {src dst pid : String} {now : ℚ}
    (hno : ∀ a b rest,
      DijkstraRouting.compute_route e.network src dst ≠ some (a :: b :: rest)) :
    e.generate_packet src dst pid now =
      ({ e with
          store := e.store ++
            [(Packet.mk' pid src dst now).mark_dropped "No route available" now]
          dropped_packets := e.dropped_packets ++ [e.store.length] }, none) := by
  unfold Engine.generate_packet
  cases hr : DijkstraRouting.compute_route e.network src dst with
  | none => rfl
  | some l =>
    cases l with
    | nil => rfl
    | cons a l2 =>
      cases l2 with
      | nil => rfl
      | cons b rest => exact absurd hr (hno a b rest)

/-- A fresh engine over the empty network: no pair of nodes has a route. -/
def emptyEngine : Engine := Engine.mk' ⟨1, 1, 10, 0, 10⟩ Network.empty

/-- C7 (amended): when routing finds no route (or one of fewer than two
nodes) at generation time, the packet is immediately marked dropped with
reason "No route available" (the code capitalizes the reason, unlike the
spec's quoted string), is appended to the dropped list, and is never added
to the active list; the call returns no packet reference. -/
theorem c7_no_route_drop (e : Engine) (src dst pid : String) (now : ℚ)
    (hno : ∀ a b rest,
      DijkstraRouting.compute_route e.network src dst ≠ some (a :: b :: rest)) :
    (e.generate_packet src dst pid now).2 = none ∧
    (e.generate_packet src dst pid now).1.active_packets = e.active_packets ∧
    (e.generate_packet src dst pid now).1.dropped_packets =
      e.dropped_packets ++ [e.store.length] ∧
    (getP (e.generate_packet src dst pid now).1.store
      e.store.length).is_dropped = true ∧
    (getP (e.generate_packet src dst pid now).1.store
      e.store.length).drop_reason = some "No route available" := by
  rw [generate_packet_no_route hno]
  refine ⟨rfl, rfl, rfl, ?_, ?_⟩
  · show (getP (e.store ++
      [(Packet.mk' pid src dst now).mark_dropped "No route available" now])
      e.store.length).is_dropped = true
    rw [getP_append_length]
    rfl
  · show (getP (e.store ++
      [(Packet.mk' pid src dst now).mark_dropped "No route available" now])
      e.store.length).drop_reason = some "No route available"
    rw [getP_append_length]
    rfl

/-- C7 counterexample: the recorded drop reason is "No route available",
not the spec's "no route available". -/
theorem c7_counterexample :
    (getP (emptyEngine.generate_packet "a" "b" "p1" 0).1.store
      0).drop_reason = some "No route available" ∧
    (getP (emptyEngine.generate_packet "a" "b" "p1" 0).1.store
      0).drop_reason ≠ some "no route available" := by
  decide

/-- C7 witness: a concrete no-route generation on the empty network. -/
theorem c7_witness :
    (emptyEngine.generate_packet "a" "b" "p1" 0).2 = none ∧
    (emptyEngine.generate_packet "a" "b" "p1" 0).1.active_packets =
      emptyEngine.active_packets ∧
    (emptyEngine.generate_packet "a" "b" "p1" 0).1.dropped_packets =
      emptyEngine.dropped_packets ++ [emptyEngine.store.length] ∧
    (getP (emptyEngine.generate_packet "a" "b" "p1" 0).1.store
      emptyEngine.store.length).is_dropped = true ∧
    (getP (emptyEngine.generate_packet "a" "b" "p1" 0).1.store
      emptyEngine.store.length).drop_reason = some "No route available" :=
  c7_no_route_drop emptyEngine "a" "b" "p1" 0 (by
    intro a b rest h
    have hnone : DijkstraRouting.compute_route emptyEngine.network "a" "b" =
        none := by decide
    rw [hnone] at h
    cases h)

/-- C8 (amended): once at least one packet has completed, the reported
delivery rate is the delivered fraction times 100 (a percentage), not the
bare ratio the spec states. -/
theorem c8_delivery_rate (e : Engine)
    (h : 0 < e.delivered_packets.length + e.dropped_packets.length) :
    (Engine.get_statistics (Engine.update_statistics e)).delivery_rate =
      ((e.delivered_packets.length : ℚ) /
        (((e.delivered_packets.length + e.dropped_packets.length : Nat)) : ℚ))
        * 100 := by
  unfold Engine.update_statistics Engine.get_statistics
  dsimp only
  rw [if_pos h]
  split
  · rfl
  · rfl

/-- A state of the engine with exactly one delivered and one dropped
packet on record. -/
def twoDoneEngine : Engine :=
  { emptyEngine with
    delivered_packets := [0]
    dropped_packets := [1] }

/-- C8 counterexample: one delivered and one dropped packet report a
delivery rate of 50, not the ratio 1/2 the spec's formula gives. -/
theorem c8_counterexample :
    (Engine.get_statistics
      (Engine.update_statistics twoDoneEngine)).delivery_rate = 50 ∧
    (Engine.get_statistics
      (Engine.update_statistics twoDoneEngine)).delivery_rate ≠
      (1 : ℚ) / 2 := by
  have h : (Engine.get_statistics
      (Engine.update_statistics twoDoneEngine)).delivery_rate = 50 := by
    norm_num [Engine.update_statistics, Engine.get_statistics, twoDoneEngine,
      emptyEngine, Engine.mk', getP, Packet.get_latency, List.getD]
  refine ⟨h, ?_⟩
  rw [h]
  norm_num

/-- C8 witness: the amended percentage formula evaluated on the same
concrete one-delivered/one-dropped state. -/
theorem c8_witness :
    0 < twoDoneEngine.delivered_packets.length +
      twoDoneEngine.dropped_packets.length ∧
    (Engine.get_statistics
      (Engine.update_statistics twoDoneEngine)).delivery_rate =
      ((twoDoneEngine.delivered_packets.length : ℚ) /
        (((twoDoneEngine.delivered_packets.length +
          twoDoneEngine.dropped_packets.length : Nat)) : ℚ)) * 100 :=
  ⟨by decide, c8_delivery_rate twoDoneEngine (by decide)⟩

/-- C10: a generation-time routing failure moves none of the generation
counters — `total_packets_generated`, the network's `total_packets`, and
every node (hence the source's `packets_sent`) are untouched, while the
packet lands in the dropped list only; in the successful branch the first
two counters increment and the packet becomes active. -/
theorem c10_no_route_frame (e : Engine) (src dst pid : String) (now : ℚ)
    (hno : ∀ a b rest,
      DijkstraRouting.compute_route e.network src dst ≠ some (a :: b :: rest)) :
    (e.generate_packet src dst pid now).1.total_packets_generated =
      e.total_packets_generated ∧
    (e.generate_packet src dst pid now).1.network.total_packets =
      e.network.total_packets ∧
    (e.generate_packet src dst pid now).1.network.nodes = e.network.nodes ∧
    (e.generate_packet src dst pid now).1.dropped_packets =
      e.dropped_packets ++ [e.store.length] ∧
    (e.generate_packet src dst pid now).1.active_packets = e.active_packets ∧
    ∀ (e2 : Engine) (a b : String) (rest : List String),
      DijkstraRouting.compute_route e2.network src dst =
        some (a :: b :: rest) →
      (e2.generate_packet src dst pid now).1.total_packets_generated =
        e2.total_packets_generated + 1 ∧
      (e2.generate_packet src dst pid now).1.network.total_packets =
        e2.network.total_packets + 1 ∧
      (e2.generate_packet src dst pid now).1.active_packets =
        e2.active_packets ++ [e2.store.length] := by
  rw [generate_packet_no_route hno]
  refine ⟨rfl, rfl, rfl, rfl, rfl, ?_⟩
  intro e2 a b rest hr
  unfold Engine.generate_packet
  rw [hr]
  dsimp only
  split
  · exact ⟨rfl, rfl, rfl⟩
  · exact ⟨rfl, rfl, rfl⟩

/-- C10 witness: counters frozen on a concrete no-route generation. -/
theorem c10_witness :
    (emptyEngine.generate_packet "a" "b" "p2" 0).1.total_packets_generated =
      emptyEngine.total_packets_generated ∧
    (emptyEngine.generate_packet "a" "b" "p2" 0).1.network.total_packets =
      emptyEngine.network.total_packets ∧
    (emptyEngine.generate_packet "a" "b" "p2" 0).1.network.nodes =
      emptyEngine.network.nodes ∧
    (emptyEngine.generate_packet "a" "b" "p2" 0).1.dropped_packets =
      emptyEngine.dropped_packets ++ [emptyEngine.store.length] ∧
    (emptyEngine.generate_packet "a" "b" "p2" 0).1.active_packets =
      emptyEngine.active_packets ∧
    (∀ (e2 : Engine) (a b : String) (rest : List String),
      DijkstraRouting.compute_route e2.network "a" "b" =
        some (a :: b :: rest) →
      (e2.generate_packet "a" "b" "p2" 0).1.total_packets_generated =
        e2.total_packets_generated + 1 ∧
      (e2.generate_packet "a" "b" "p2" 0).1.network.total_packets =
        e2.network.total_packets + 1 ∧
      (e2.generate_packet "a" "b" "p2" 0).1.active_packets =
        e2.active_packets ++ [e2.store.length]) :=
  c10_no_route_frame emptyEngine "a" "b" "p2" 0 (by
    intro a b rest h
    have hnone : DijkstraRouting.compute_route emptyEngine.network "a" "b" =
        none := by decide
    rw [hnone] at h
    cases h)

/-! ## Claim C9 — frame lemmas through the update pipeline -/

open Engine

/-- The engine fields the speed-0 argument tracks: clock, speed, generation
gate state, generation counter and the in-flight list. -/
def engFrame (e e' : Engine) : Prop :=
  e'.simulation_time = e.simulation_time ∧
  e'.simulation_speed = e.simulation_speed ∧
  e'.last_packet_generation_time = e.last_packet_generation_time ∧
  e'.total_packets_generated = e.total_packets_generated ∧
  e'.active_packets = e.active_packets

theorem engFrame_refl (e : Engine) : engFrame e e := ⟨rfl, rfl, rfl, rfl, rfl⟩

theorem engFrame_trans {a b c : Engine} (h1 : engFrame a b)
    (h2 : engFrame b c) : engFrame a c :=
  ⟨h2.1.trans h1.1, h2.2.1.trans h1.2.1, h2.2.2.1.trans h1.2.2.1,
    h2.2.2.2.1.trans h1.2.2.2.1, h2.2.2.2.2.trans h1.2.2.2.2⟩

/-- Like `engFrame` but the in-flight list may only shrink. -/
def engFrameSub (e e' : Engine) : Prop :=
  e'.simulation_time = e.simulation_time ∧
  e'.simulation_speed = e.simulation_speed ∧
  e'.last_packet_generation_time = e.last_packet_generation_time ∧
  e'.total_packets_generated = e.total_packets_generated ∧
  ∀ r ∈ e'.active_packets, r ∈ e.active_packets

theorem engFrame.toSub {a b : Engine} (h : engFrame a b) : engFrameSub a b :=
  ⟨h.1, h.2.1, h.2.2.1, h.2.2.2.1, fun r hr => h.2.2.2.2 ▸ hr⟩

theorem engFrameSub_trans {a b c : Engine} (h1 : engFrameSub a b)
    (h2 : engFrameSub b c) : engFrameSub a c :=
  ⟨h2.1.trans h1.1, h2.2.1.trans h1.2.1, h2.2.2.1.trans h1.2.2.1,
    h2.2.2.2.1.trans h1.2.2.2.1,
    fun r hr => h1.2.2.2.2 r (h2.2.2.2.2 r hr)⟩

theorem handle_arrival_engFrame (e : Engine) (r : Nat) (now : ℚ) :
    engFrame e (e.handle_packet_arrival r now) := by
  unfold Engine.handle_packet_arrival
  dsimp only
  (repeat' split) <;> exact ⟨rfl, rfl, rfl, rfl, rfl⟩

theorem updPacketStep_engFrame (dt now : ℚ) (acc : Engine × List Nat)
    (r : Nat) : engFrame acc.1 (updPacketStep dt now acc r).1 := by
  rcases acc with ⟨e, tr⟩
  unfold updPacketStep
  dsimp only
  (repeat' split) <;>
    first
      | exact ⟨rfl, rfl, rfl, rfl, rfl⟩
      | exact handle_arrival_engFrame _ _ _

theorem foldl_upd_engFrame (dt now : ℚ) (rs : List Nat) :
    ∀ acc : Engine × List Nat,
      engFrame acc.1 ((rs.foldl (updPacketStep dt now) acc).1) := by
  induction rs with
  | nil => intro acc; exact engFrame_refl _
  | cons r rs ih =>
    intro acc
    rw [List.foldl_cons]
    exact engFrame_trans (updPacketStep_engFrame dt now acc r)
      (ih (updPacketStep dt now acc r))

theorem removePacketStep_engFrameSub (e : Engine) (r : Nat) :
    engFrameSub e (removePacketStep e r) := by
  unfold removePacketStep
  dsimp only
  split <;>
    exact ⟨rfl, rfl, rfl, rfl, fun x hx => List.mem_of_mem_erase hx⟩

theorem foldl_remove_engFrameSub (rs : List Nat) :
    ∀ e : Engine, engFrameSub e (rs.foldl removePacketStep e) := by
  induction rs with
  | nil => intro e; exact (engFrame_refl e).toSub
  | cons r rs ih =>
    intro e
    rw [List.foldl_cons]
    exact engFrameSub_trans (removePacketStep_engFrameSub e r)
      (ih (removePacketStep e r))

theorem update_packets_engFrameSub (e : Engine) (dt now : ℚ) :
    engFrameSub e (e.update_packets dt now) := by
  unfold Engine.update_packets
  exact engFrameSub_trans
    (foldl_upd_engFrame dt now e.active_packets (e, [])).toSub
    (foldl_remove_engFrameSub
      (e.active_packets.foldl (updPacketStep dt now) (e, [])).2
      (e.active_packets.foldl (updPacketStep dt now) (e, [])).1)

theorem fillQueue_engFrame (nid : String) (di : Nat → String) (now : ℚ) :
    ∀ (k : Nat) (e : Engine), engFrame e (fillQueue nid di now e k) := by
  intro k
  induction k with
  | zero => intro e; exact engFrame_refl _
  | succ k ih =>
    intro e
    unfold fillQueue
    dsimp only
    split
    · exact engFrame_refl _
    · split
      · exact engFrame_refl _
      · exact engFrame_trans ⟨rfl, rfl, rfl, rfl, rfl⟩ (ih _)

theorem process_engFrame (e : Engine) (nid : String) (dr : Bool)
    (di : Nat → String) (now : ℚ) :
    engFrame e (process_node_queue e nid dr di now) := by
  unfold process_node_queue
  dsimp only
  (repeat' split) <;>
    first
      | exact ⟨rfl, rfl, rfl, rfl, rfl⟩
      | exact engFrame_trans (fillQueue_engFrame nid di now _ e)
          ⟨rfl, rfl, rfl, rfl, rfl⟩

theorem foldl_process_engFrame (nids : List String) (dr : String → Bool)
    (di : String → Nat → String) (now : ℚ) :
    ∀ e : Engine,
      engFrame e (nids.foldl
        (fun acc nid => process_node_queue acc nid (dr nid) (di nid) now)
        e) := by
  induction nids with
  | nil => intro e; exact engFrame_refl _
  | cons nid nids ih =>
    intro e
    rw [List.foldl_cons]
    exact engFrame_trans (process_engFrame e nid (dr nid) (di nid) now) (ih _)

theorem foldl_process_simt (nids : List String) (dr : String → Bool)
    (di : String → Nat → String) (now : ℚ) (e : Engine) :
    (nids.foldl
      (fun acc nid => process_node_queue acc nid (dr nid) (di nid) now)
      e).simulation_time = e.simulation_time :=
  (foldl_process_engFrame nids dr di now e).1

theorem foldl_process_spd (nids : List String) (dr : String → Bool)
    (di : String → Nat → String) (now : ℚ) (e : Engine) :
    (nids.foldl
      (fun acc nid => process_node_queue acc nid (dr nid) (di nid) now)
      e).simulation_speed = e.simulation_speed :=
  (foldl_process_engFrame nids dr di now e).2.1

theorem foldl_process_lpg (nids : List String) (dr : String → Bool)
    (di : String → Nat → String) (now : ℚ) (e : Engine) :
    (nids.foldl
      (fun acc nid => process_node_queue acc nid (dr nid) (di nid) now)
      e).last_packet_generation_time = e.last_packet_generation_time :=
  (foldl_process_engFrame nids dr di now e).2.2.1

theorem foldl_process_tpg (nids : List String) (dr : String → Bool)
    (di : String → Nat → String) (now : ℚ) (e : Engine) :
    (nids.foldl
      (fun acc nid => process_node_queue acc nid (dr nid) (di nid) now)
      e).total_packets_generated = e.total_packets_generated :=
  (foldl_process_engFrame nids dr di now e).2.2.2.1

theorem foldl_process_act (nids : List String) (dr : String → Bool)
    (di : String → Nat → String) (now : ℚ) (e : Engine) :
    (nids.foldl
      (fun acc nid => process_node_queue acc nid (dr nid) (di nid) now)
      e).active_packets = e.active_packets :=
  (foldl_process_engFrame nids dr di now e).2.2.2.2

theorem update_packets_simt (e : Engine) (dt now : ℚ) :
    (e.update_packets dt now).simulation_time = e.simulation_time :=
  (update_packets_engFrameSub e dt now).1

theorem update_packets_spd (e : Engine) (dt now : ℚ) :
    (e.update_packets dt now).simulation_speed = e.simulation_speed :=
  (update_packets_engFrameSub e dt now).2.1

theorem update_packets_lpg (e : Engine) (dt now : ℚ) :
    (e.update_packets dt now).last_packet_generation_time =
      e.last_packet_generation_time :=
  (update_packets_engFrameSub e dt now).2.2.1

theorem update_packets_tpg (e : Engine) (dt now : ℚ) :
    (e.update_packets dt now).total_packets_generated =
      e.total_packets_generated :=
  (update_packets_engFrameSub e dt now).2.2.2.1

theorem update_packets_act_sub (e : Engine) (dt now : ℚ) :
    ∀ r ∈ (e.update_packets dt now).active_packets, r ∈ e.active_packets :=
  (update_packets_engFrameSub e dt now).2.2.2.2

/-- One tick at speed 0 under the generation-gap invariant: the clock, the
generation gate state and the generation counter are all frozen, and no new
packet enters the in-flight list. -/
theorem update_speed_zero (cfg : Config) (e : Engine) (delta : ℚ)
    (o : Engine.UpdOracle) (now : ℚ)
    (hs : e.simulation_speed = 0)
    (hgap : e.simulation_time - e.last_packet_generation_time <
      cfg.PACKET_GENERATION_INTERVAL) :
    (e.update cfg delta o now).simulation_time = e.simulation_time ∧
    (e.update cfg delta o now).simulation_speed = 0 ∧
    (e.update cfg delta o now).last_packet_generation_time =
      e.last_packet_generation_time ∧
    (e.update cfg delta o now).total_packets_generated =
      e.total_packets_generated ∧
    ∀ r ∈ (e.update cfg delta o now).active_packets, r ∈ e.active_packets := by
  unfold Engine.update
  split
  · exact ⟨rfl, hs, rfl, rfl, fun r h => h⟩
  · dsimp only
    have hg : ¬(e.auto_generate = true ∧ cfg.PACKET_GENERATION_INTERVAL ≤
        e.simulation_time + delta * e.simulation_speed -
          e.last_packet_generation_time) := by
      rintro ⟨-, hle⟩
      rw [hs] at hle
      have h2 : e.simulation_time + delta * 0 -
          e.last_packet_generation_time =
          e.simulation_time - e.last_packet_generation_time := by ring
      rw [h2] at hle
      linarith
    rw [if_neg hg]
    refine ⟨?_, ?_, ?_, ?_, ?_⟩
    · simp only [Engine.update_statistics, Engine.update_congestion_states,
        apply_ite Engine.simulation_time, ite_self, foldl_process_simt,
        update_packets_simt]
      rw [hs]
      ring
    · simp only [Engine.update_statistics, Engine.update_congestion_states,
        apply_ite Engine.simulation_speed, ite_self, foldl_process_spd,
        update_packets_spd]
      exact hs
    · simp only [Engine.update_statistics, Engine.update_congestion_states,
        apply_ite Engine.last_packet_generation_time, ite_self,
        foldl_process_lpg, update_packets_lpg]
    · simp only [Engine.update_statistics, Engine.update_congestion_states,
        apply_ite Engine.total_packets_generated, ite_self,
        foldl_process_tpg, update_packets_tpg]
    · intro r hr
      simp only [Engine.update_statistics, Engine.update_congestion_states,
        apply_ite Engine.active_packets, ite_self, foldl_process_act] at hr
      have hr2 := update_packets_act_sub _ _ _ r hr
      simp only [apply_ite Engine.active_packets, ite_self] at hr2
      exact hr2

/-- Folding any sequence of ticks over a speed-0 engine satisfying the
generation-gap invariant freezes the tracked fields. -/
theorem speed_zero_ticks (cfg : Config) :
    ∀ ticks : List ((ℚ × Engine.UpdOracle) × ℚ), ∀ e0 : Engine,
      e0.simulation_speed = 0 →
      e0.simulation_time - e0.last_packet_generation_time <
        cfg.PACKET_GENERATION_INTERVAL →
      (ticks.foldl (fun acc t => acc.update cfg t.1.1 t.1.2 t.2)
        e0).simulation_time = e0.simulation_time ∧
      (ticks.foldl (fun acc t => acc.update cfg t.1.1 t.1.2 t.2)
        e0).simulation_speed = 0 ∧
      (ticks.foldl (fun acc t => acc.update cfg t.1.1 t.1.2 t.2)
        e0).last_packet_generation_time = e0.last_packet_generation_time ∧
      (ticks.foldl (fun acc t => acc.update cfg t.1.1 t.1.2 t.2)
        e0).total_packets_generated = e0.total_packets_generated ∧
      ∀ r ∈ (ticks.foldl (fun acc t => acc.update cfg t.1.1 t.1.2 t.2)
        e0).active_packets, r ∈ e0.active_packets := by
  intro ticks
  induction ticks with
  | nil =>
    intro e0 hs hgap
    exact ⟨rfl, hs, rfl, rfl, fun r h => h⟩
  | cons t ts ih =>
    intro e0 hs hgap
    rw [List.foldl_cons]
    obtain ⟨h1, h2, h3, h4, h5⟩ :=
      update_speed_zero cfg e0 t.1.1 t.1.2 t.2 hs hgap
    obtain ⟨g1, g2, g3, g4, g5⟩ := ih (e0.update cfg t.1.1 t.1.2 t.2) h2
      (by rw [h1, h3]; exact hgap)
    exact ⟨g1.trans h1, g2, g3.trans h3, g4.trans h4,
      fun r hr => h5 r (g5 r hr)⟩

/-- C9 (amended): with the configured speed range containing 0 and the
engine's generation gap below the generation interval (which holds whenever
the demo command has not suspended auto-generation past an interval),
setting the speed to 0 freezes the simulated clock, the generation counter
and the generation gate across every subsequent sequence of update calls,
and no new packet ever enters the in-flight list. -/
theorem c9_speed_zero_frame (cfg : Config) (e : Engine)
    (hmin : cfg.MIN_SIMULATION_SPEED ≤ 0)
    (hmax : 0 ≤ cfg.MAX_SIMULATION_SPEED)
    (hgap : e.simulation_time - e.last_packet_generation_time <
      cfg.PACKET_GENERATION_INTERVAL) :
    ∀ ticks : List ((ℚ × Engine.UpdOracle) × ℚ),
      (ticks.foldl (fun acc t => acc.update cfg t.1.1 t.1.2 t.2)
        (e.set_speed cfg 0)).simulation_time = e.simulation_time ∧
      (ticks.foldl (fun acc t => acc.update cfg t.1.1 t.1.2 t.2)
        (e.set_speed cfg 0)).total_packets_generated =
        e.total_packets_generated ∧
      ∀ r ∈ (ticks.foldl (fun acc t => acc.update cfg t.1.1 t.1.2 t.2)
        (e.set_speed cfg 0)).active_packets, r ∈ e.active_packets := by
  intro ticks
  have hs0 : (e.set_speed cfg 0).simulation_speed = 0 := by
    unfold Engine.set_speed
    dsimp only
    rw [min_eq_left hmax, max_eq_right hmin]
  have hgap0 : (e.set_speed cfg 0).simulation_time -
      (e.set_speed cfg 0).last_packet_generation_time <
      cfg.PACKET_GENERATION_INTERVAL := hgap
  obtain ⟨h1, h2, h3, h4, h5⟩ := speed_zero_ticks cfg ticks _ hs0 hgap0
  exact ⟨h1, h4, fun r hr => h5 r hr⟩

/-- C9 witness: a fresh engine (zero gap) over the empty network with the
speed range [0, 10] and interval 1. -/
theorem c9_witness :
    (([((1, ⟨0, 0, "p", fun _ => true, fun _ _ => "d"⟩), 1)] :
        List ((ℚ × Engine.UpdOracle) × ℚ)).foldl
      (fun acc t => acc.update ⟨1, 1, 10, 0, 10⟩ t.1.1 t.1.2 t.2)
      (emptyEngine.set_speed ⟨1, 1, 10, 0, 10⟩ 0)).simulation_time =
      emptyEngine.simulation_time ∧
    (([((1, ⟨0, 0, "p", fun _ => true, fun _ _ => "d"⟩), 1)] :
        List ((ℚ × Engine.UpdOracle) × ℚ)).foldl
      (fun acc t => acc.update ⟨1, 1, 10, 0, 10⟩ t.1.1 t.1.2 t.2)
      (emptyEngine.set_speed ⟨1, 1, 10, 0, 10⟩ 0)).total_packets_generated =
      emptyEngine.total_packets_generated ∧
    ∀ r ∈ (([((1, ⟨0, 0, "p", fun _ => true, fun _ _ => "d"⟩), 1)] :
        List ((ℚ × Engine.UpdOracle) × ℚ)).foldl
      (fun acc t => acc.update ⟨1, 1, 10, 0, 10⟩ t.1.1 t.1.2 t.2)
      (emptyEngine.set_speed ⟨1, 1, 10, 0, 10⟩ 0)).active_packets,
      r ∈ emptyEngine.active_packets :=
  c9_speed_zero_frame ⟨1, 1, 10, 0, 10⟩ emptyEngine (by decide) (by decide)
    (by simp [emptyEngine, Engine.mk'])
    [((1, ⟨0, 0, "p", fun _ => true, fun _ _ => "d"⟩), 1)]

/-! ## Claim C9 — the demo-window counterexample -/

/-- Abstract config instance for the counterexample: default speed 1,
generation interval 1/4, in-flight cap 10, speed range [0, 10]. -/
def cfg9 : Config := ⟨1, 1/4, 10, 0, 10⟩

/-- Two nodes joined by one bidirectional link. -/
def c9CexNet : Network :=
  (((Network.empty.add_node ( Node.mk' "a")).1.add_node
      ( Node.mk' "b")).1.add_link ( Link.mk' "L" "a" "b" 100 10 true)).1

theorem c9CexNet_reachable : Network.Reachable c9CexNet :=
  .add_link _ _ _ _ _ _ _ (.add_node _ _ (.add_node _ _ .empty))

/-- The oracle draws used by the counterexample's updates. -/
def o9 : Engine.UpdOracle :=
  { srcIdx := 0, dstIdx := 0, pid := "p9", drain := fun _ => false,
    dummyIds := fun _ _ => "d9" }

/-- `c9CexNet` after one congestion-state sweep. -/
def c9Net : Network :=
  { c9CexNet with
    nodes := c9CexNet.nodes.map (fun p => (p.1, p.2.update_congestion_state)) }

/-- The engine state the demo window leaves behind: auto-generation back on
with the generation gap (2/5) already past the interval (1/4). -/
def c9eD : Engine :=
  { network := c9Net
    is_running := true
    simulation_time := 2/5
    simulation_speed := 1
    store := []
    active_packets := []
    delivered_packets := []
    dropped_packets := []
    last_packet_generation_time := 0
    last_routing_update := 0
    auto_generate := true
    demo_packet_id := none
    total_packets_generated := 0
    average_latency := 0
    delivery_rate := 0 }

/-- The engine of the counterexample: speed set to 0 right after the demo
window closed. -/
def c9Engine : Engine := { c9eD with simulation_speed := 0 }

/-- `_update_packets` is the identity when nothing is in flight. -/
theorem update_packets_empty (e : Engine) (dt now : ℚ)
    (h : e.active_packets = []) : e.update_packets dt now = e := by
  unfold Engine.update_packets
  rw [h]
  rfl

/-- A node that is neither force-congested nor holding queued packets (the
whole per-node drain pass skips it). -/
def quietNodeB (net : Network) (nid : String) : Bool :=
  match net.get_node nid with
  | some node => !node.force_congested && node.queue.queue.isEmpty
  | none => true

theorem process_node_queue_quiet (e : Engine) (nid : String) (dr : Bool)
    (di : Nat → String) (now : ℚ) (h : quietNodeB e.network nid = true) :
    process_node_queue e nid dr di now = e := by
  unfold process_node_queue
  unfold quietNodeB at h
  cases hn : e.network.get_node nid with
  | none => rfl
  | some node =>
    rw [hn] at h
    dsimp only at h ⊢
    simp only [Bool.and_eq_true, Bool.not_eq_true'] at h
    rw [if_neg (by simp [h.1])]
    have hq : node.queue.queue = [] := by
      simpa using h.2
    rw [if_pos (by unfold PacketQueue.is_empty; rw [hq]; rfl)]

theorem foldl_process_quiet (dr : String → Bool) (di : String → Nat → String)
    (now : ℚ) : ∀ (nids : List String) (e : Engine),
    (∀ nid ∈ nids, quietNodeB e.network nid = true) →
    nids.foldl
      (fun acc nid => process_node_queue acc nid (dr nid) (di nid) now) e
      = e := by
  intro nids
  induction nids with
  | nil => intro e h; rfl
  | cons nid rest ih =>
    intro e h
    rw [List.foldl_cons,
      process_node_queue_quiet e nid _ _ now (h nid (List.mem_cons_self _ _))]
    exact ih e (fun x hx => h x (List.mem_cons_of_mem _ hx))

theorem update_congestion_states_simt (e : Engine) :
    (Engine.update_congestion_states e).simulation_time =
      e.simulation_time := rfl

theorem update_congestion_states_lru (e : Engine) :
    (Engine.update_congestion_states e).last_routing_update =
      e.last_routing_update := rfl

/-- The single update ridden out during the demo window: the clock advances
to 2/5, the demo check re-enables auto-generation, and nothing else moves
(the generation gate was checked while auto-generation was still off). -/
theorem c9_demo_update :
    ({ (Engine.mk' cfg9 c9CexNet).start with
        demo_packet_id := some "d", auto_generate := false } : Engine).update
      cfg9 (2/5) o9 1 = c9eD := by
  unfold Engine.update
  split
  · rename_i h
    exact absurd (by decide) h
  · dsimp only [Engine.mk', Engine.start, cfg9, o9]
    split
    · rename_i hgate
      exact absurd hgate.1 (by decide)
    · split
      · split
        · rw [update_packets_empty _ _ _ (by decide)]
          rw [foldl_process_quiet (fun _ => false) (fun _ _ => "d9") 1 _ _
            (by decide)]
          split
          · rename_i hroutegate
            exfalso
            rw [update_congestion_states_simt,
              update_congestion_states_lru] at hroutegate
            norm_num at hroutegate
          · unfold Engine.update_statistics
            dsimp only
            rw [if_pos (by decide), if_neg (by decide)]
            unfold Engine.update_congestion_states c9eD c9Net
            rw [show ((0 : ℚ) + 2/5 * 1) = 2/5 from by norm_num]
        · rename_i h
          exact absurd (by decide) h
      · rename_i h
        exact absurd (by decide) h

/-- The stored record of node `a` in `c9Net`. -/
def c9NodeA : Node := (( Node.mk' "a").add_neighbor "b").update_congestion_state

/-- The adaptive route from `a` to `b` in the counterexample network, walked
through the loop one settled node at a time. -/
theorem c9_route :
    DijkstraRouting.compute_route c9Net "a" "b" = some ["a", "b"] := by
  have hna : c9Net.get_node "a" = some c9NodeA := by decide
  have hlk : c9Net.get_link_between "a" "b" =
      some ( Link.mk' "L" "a" "b" 100 10 true) := by decide
  have hcLT : ((0 + ( Link.mk' "L" "a" "b" 100 10 true).weight *
      congestionMultiplier c9Net "b" : ℚ) : WithTop ℚ) <
      (if ("b" : String) = "a" then ((0 : ℚ) : WithTop ℚ) else ⊤) := by
    rw [if_neg (by decide)]
    exact WithTop.coe_lt_top _
  have h1 : dijkstraLoop c9Net "b"
      { dist := fun node_id =>
          if node_id = "a" then ((0 : ℚ) : WithTop ℚ) else ⊤
        prev := fun _ => none
        pq := [((0 : ℚ), "a")]
        visited := [] } =
      dijkstraLoop c9Net "b"
        (c9NodeA.neighbors.foldl (relaxNeighbor c9Net 0 "a")
          { dist := fun node_id =>
              if node_id = "a" then ((0 : ℚ) : WithTop ℚ) else ⊤
            prev := fun _ => none
            pq := ([] : List (ℚ × String))
            visited := ["a"] }) :=
    dijkstraLoop_relax rfl (by decide) (by decide) hna
  have h2 : c9NodeA.neighbors.foldl (relaxNeighbor c9Net 0 "a")
      { dist := fun node_id =>
          if node_id = "a" then ((0 : ℚ) : WithTop ℚ) else ⊤
        prev := fun _ => none
        pq := ([] : List (ℚ × String))
        visited := ["a"] } =
      { dist := fun x => if x = "b" then
          ((0 + ( Link.mk' "L" "a" "b" 100 10 true).weight *
            congestionMultiplier c9Net "b" : ℚ) : WithTop ℚ)
          else if x = "a" then ((0 : ℚ) : WithTop ℚ) else ⊤
        prev := fun x => if x = "b" then some "a" else none
        pq := [((0 + ( Link.mk' "L" "a" "b" 100 10 true).weight *
            congestionMultiplier c9Net "b" : ℚ), "b")]
        visited := ["a"] } := by
    rw [show c9NodeA.neighbors = ["b"] from rfl]
    rw [List.foldl_cons, List.foldl_nil]
    unfold relaxNeighbor
    rw [if_neg (by decide), hlk]
    dsimp only
    rw [if_pos hcLT]
    rfl
  have h3 : dijkstraLoop c9Net "b"
      { dist := fun x => if x = "b" then
          ((0 + ( Link.mk' "L" "a" "b" 100 10 true).weight *
            congestionMultiplier c9Net "b" : ℚ) : WithTop ℚ)
          else if x = "a" then ((0 : ℚ) : WithTop ℚ) else ⊤
        prev := fun x => if x = "b" then some "a" else none
        pq := [((0 + ( Link.mk' "L" "a" "b" 100 10 true).weight *
            congestionMultiplier c9Net "b" : ℚ), "b")]
        visited := ["a"] } =
      { dist := fun x => if x = "b" then
          ((0 + ( Link.mk' "L" "a" "b" 100 10 true).weight *
            congestionMultiplier c9Net "b" : ℚ) : WithTop ℚ)
          else if x = "a" then ((0 : ℚ) : WithTop ℚ) else ⊤
        prev := fun x => if x = "b" then some "a" else none
        pq := ([] : List (ℚ × String))
        visited := ["a", "b"] } :=
    dijkstraLoop_break rfl (by decide)
  unfold DijkstraRouting.compute_route
  rw [if_neg (by decide), if_neg (by decide)]
  dsimp only
  rw [h1, h2, h3]
  dsimp only
  have hbt : ¬((if ("b" : String) = "b" then
      ((0 + ( Link.mk' "L" "a" "b" 100 10 true).weight *
        congestionMultiplier c9Net "b" : ℚ) : WithTop ℚ)
      else if ("b" : String) = "a" then ((0 : ℚ) : WithTop ℚ) else ⊤) = ⊤) := by
    rw [if_pos rfl]
    exact WithTop.coe_ne_top
  rw [if_neg hbt]
  rfl

/-- The engine `c9Engine` right after the final update's clock stage (the
speed is 0, so the clock does not move). -/
def c9E1 : Engine :=
  { c9Engine with simulation_time :=
      c9Engine.simulation_time + 1 * c9Engine.simulation_speed }

/-- The update after the demo window and `set_speed 0`: the clock stays
put, yet the generation gate fires and a packet is generated. -/
theorem c9_final :
    (c9Engine.update cfg9 1 o9 2).simulation_time =
      c9Engine.simulation_time ∧
    (c9Engine.update cfg9 1 o9 2).total_packets_generated =
      c9Engine.total_packets_generated + 1 := by
  have hsrc_dst : ∀ e : Engine, e.network = c9Net → e.active_packets = [] →
      Engine.generate_random_packet cfg9 e 0 0 "p9" 2 =
        (e.generate_packet "a" "b" "p9" 2).1 := by
    intro e hnet hact
    unfold Engine.generate_random_packet
    rw [hnet, hact]
    rw [if_neg (by decide), if_neg (by decide)]
    rfl
  have hgp : ∀ e : Engine, e.network = c9Net →
      (e.generate_packet "a" "b" "p9" 2).1.total_packets_generated =
        e.total_packets_generated + 1 ∧
      (e.generate_packet "a" "b" "p9" 2).1.simulation_time =
        e.simulation_time := by
    intro e hnet
    unfold Engine.generate_packet
    rw [hnet, c9_route]
    dsimp only
    split
    · exact ⟨rfl, rfl⟩
    · exact ⟨rfl, rfl⟩
  unfold Engine.update
  split
  · rename_i h
    exact absurd (by decide) h
  · dsimp only [o9]
    split
    · rw [show ({ c9Engine with simulation_time :=
          c9Engine.simulation_time + 1 * c9Engine.simulation_speed } :
            Engine) = c9E1 from rfl]
      refine ⟨?_, ?_⟩
      · simp only [Engine.update_statistics, Engine.update_congestion_states,
          apply_ite Engine.simulation_time, ite_self, foldl_process_simt,
          update_packets_simt]
        rw [hsrc_dst c9E1 rfl rfl, (hgp c9E1 rfl).2]
        norm_num [c9E1, c9Engine, c9eD]
      · simp only [Engine.update_statistics, Engine.update_congestion_states,
          apply_ite Engine.total_packets_generated, ite_self,
          foldl_process_tpg, update_packets_tpg]
        rw [hsrc_dst c9E1 rfl rfl, (hgp c9E1 rfl).1]
        rfl
    · rename_i h
      refine absurd ⟨rfl, ?_⟩ h
      norm_num [c9Engine, c9eD, cfg9]

theorem c9_bridge :
    (({ (Engine.mk' cfg9 c9CexNet).start with
        demo_packet_id := some "d", auto_generate := false } : Engine).update
      cfg9 (2/5) o9 1).set_speed cfg9 0 = c9Engine := by
  rw [c9_demo_update]
  unfold Engine.set_speed c9Engine
  dsimp only [cfg9]
  rw [show max (0 : ℚ) (min 0 10) = 0 from by decide]

/-- C9 counterexample: the frozen claim fails as stated.  Through the
engine's own operations (start, the demo command from the driver, one tick
during the demo window, `set_speed 0`) one reaches a running engine at
speed 0 with auto-generation enabled whose very next update generates a
packet — the generation gate compares a stale gap (2/5) against the
interval (1/4) — even though the simulated clock does not move. -/
theorem c9_counterexample :
    EReachable cfg9
      ((({ (Engine.mk' cfg9 c9CexNet).start with
          demo_packet_id := some "d", auto_generate := false } : Engine).update
        cfg9 (2/5) o9 1).set_speed cfg9 0) ∧
    (({ (Engine.mk' cfg9 c9CexNet).start with
        demo_packet_id := some "d", auto_generate := false } : Engine).update
      cfg9 (2/5) o9 1).set_speed cfg9 0 = c9Engine ∧
    c9Engine.is_running = true ∧
    c9Engine.simulation_speed = 0 ∧
    c9Engine.auto_generate = true ∧
    (c9Engine.update cfg9 1 o9 2).simulation_time =
      c9Engine.simulation_time ∧
    (c9Engine.update cfg9 1 o9 2).total_packets_generated =
      c9Engine.total_packets_generated + 1 := by
  refine ⟨?_, c9_bridge, rfl, rfl, rfl, c9_final.1, c9_final.2⟩
  exact .step (.step (.step (.step (.init c9CexNet c9CexNet_reachable)
    (.start _)) (.set_demo _ (some "d"))) (.update _ (2/5) o9 1))
    (.set_speed _ 0)

/-! ## Claim C6 — queued-reference bookkeeping -/

/-- The queued references of a node association list (so that `queuedRefs`
can be reasoned about through `amodify`). -/
def qrefs (l : List (String × Node)) : List Nat :=
  l.foldr (fun p acc => p.2.queue.queue ++ acc) []

theorem queuedRefs_def (net : Network) : queuedRefs net = qrefs net.nodes := rfl

theorem qrefs_cons (p : String × Node) (l : List (String × Node)) :
    qrefs (p :: l) = p.2.queue.queue ++ qrefs l := rfl

theorem mem_qrefs {l : List (String × Node)} {r : Nat} :
    r ∈ qrefs l ↔ ∃ p ∈ l, r ∈ p.2.queue.queue := by
  induction l with
  | nil => simp [qrefs]
  | cons p l ih =>
    constructor
    · intro h
      rcases List.mem_append.mp h with h | h
      · exact ⟨p, List.mem_cons_self _ _, h⟩
      · obtain ⟨q, hq, hr⟩ := ih.mp h
        exact ⟨q, List.mem_cons_of_mem _ hq, hr⟩
    · rintro ⟨q, hq, hr⟩
      rcases List.mem_cons.mp hq with rfl | hq
      · exact List.mem_append.mpr (Or.inl hr)
      · exact List.mem_append.mpr (Or.inr (ih.mpr ⟨q, hq, hr⟩))

theorem amodify_of_alookup_none {l : List (String × α)} {k : String}
    (f : α → α) (h : alookup k l = none) : amodify k f l = l := by
  induction l with
  | nil => rfl
  | cons p rest ih =>
    rcases p with ⟨k', v⟩
    by_cases hk : k' = k
    · simp [alookup, hk] at h
    · have h' : alookup k rest = none := by simpa [alookup, hk] using h
      unfold amodify
      rw [if_neg hk, ih h']

/-- Modifying the node stored at a live key rewrites exactly that node's
segment of the queued-reference concatenation. -/
theorem qrefs_amodify_split {l : List (String × Node)} {k : String} {n : Node}
    (f : Node → Node) (h : alookup k l = some n) :
    ∃ A B, qrefs l = A ++ (n.queue.queue ++ B) ∧
      qrefs (amodify k f l) = A ++ ((f n).queue.queue ++ B) := by
  induction l with
  | nil => simp [alookup] at h
  | cons p rest ih =>
    rcases p with ⟨k', v⟩
    by_cases hk : k' = k
    · have hv : v = n := by simpa [alookup, hk] using h
      subst hv
      refine ⟨[], qrefs rest, ?_, ?_⟩
      · simp [qrefs_cons]
      · show qrefs (amodify k f ((k', v) :: rest)) = _
        unfold amodify
        rw [if_pos hk]
        simp [qrefs_cons]
    · have h' : alookup k rest = some n := by simpa [alookup, hk] using h
      obtain ⟨A, B, h1, h2⟩ := ih h'
      refine ⟨v.queue.queue ++ A, B, ?_, ?_⟩
      · rw [qrefs_cons, h1, List.append_assoc]
      · show qrefs (amodify k f ((k', v) :: rest)) = _
        unfold amodify
        rw [if_neg hk, qrefs_cons, h2, List.append_assoc]

/-- A queue-preserving per-node change leaves the queued references
untouched. -/
theorem qrefs_amodify_same {l : List (String × Node)} {k : String}
    (f : Node → Node) (hf : ∀ n, (f n).queue.queue = n.queue.queue) :
    qrefs (amodify k f l) = qrefs l := by
  cases h : alookup k l with
  | none => rw [amodify_of_alookup_none f h]
  | some n =>
    obtain ⟨A, B, h1, h2⟩ := qrefs_amodify_split f h
    rw [h1, h2, hf n]

theorem qrefs_map_same {l : List (String × Node)} (f : String × Node → Node)
    (hf : ∀ p, (f p).queue.queue = p.2.queue.queue) :
    qrefs (l.map (fun p => (p.1, f p))) = qrefs l := by
  induction l with
  | nil => rfl
  | cons p rest ih =>
    rw [List.map_cons, qrefs_cons, qrefs_cons, hf p, ih]

theorem qrefs_map_clear (l : List (String × Node)) (f : String × Node → Node)
    (hf : ∀ p, (f p).queue.queue = []) :
    qrefs (l.map (fun p => (p.1, f p))) = [] := by
  induction l with
  | nil => rfl
  | cons p rest ih =>
    rw [List.map_cons, qrefs_cons, hf p, ih]
    rfl

/-- All queues in a node list are empty. -/
def QEmpty (l : List (String × Node)) : Prop :=
  ∀ p ∈ l, p.2.queue.queue = []

theorem qempty_amodify {l : List (String × Node)} {k : String}
    {f : Node → Node} (hf : ∀ n, (f n).queue.queue = n.queue.queue)
    (h : QEmpty l) : QEmpty (amodify k f l) := by
  intro p hp
  rcases mem_amodify_weak hp with hp' | ⟨v, hv, rfl⟩
  · exact h p hp'
  · rw [show ((k, f v) : String × Node).2 = f v from rfl, hf v]
    exact h (k, v) hv

theorem add_neighbor_queue (n : Node) (s : String) :
    (n.add_neighbor s).queue.queue = n.queue.queue := by
  unfold Node.add_neighbor
  split <;> rfl

theorem remove_neighbor_queue (n : Node) (s : String) :
    (n.remove_neighbor s).queue.queue = n.queue.queue := rfl

theorem qempty_remove_link {net : Network} (lid : String)
    (h : QEmpty net.nodes) : QEmpty (net.remove_link lid).1.nodes := by
  unfold Network.remove_link
  cases hl : alookup lid net.links with
  | none => exact h
  | some link =>
    dsimp only
    split
    · split
      · exact qempty_amodify (fun n => remove_neighbor_queue n _)
          (qempty_amodify (fun n => remove_neighbor_queue n _) h)
      · exact qempty_amodify (fun n => remove_neighbor_queue n _) h
    · split
      · exact qempty_amodify (fun n => remove_neighbor_queue n _) h
      · exact h

theorem qempty_foldl_remove_link (lids : List String) :
    ∀ net : Network, QEmpty net.nodes →
      QEmpty ((lids.foldl (fun acc lid => (acc.remove_link lid).1) net)).nodes := by
  induction lids with
  | nil => intro net h; exact h
  | cons lid rest ih =>
    intro net h
    rw [List.foldl_cons]
    exact ih _ (qempty_remove_link lid h)

/-- Every network reachable through the four mutators has empty queues
(nothing in `network.py` enqueues). -/
theorem reachable_queues_empty {net : Network} (h : Network.Reachable net) :
    QEmpty net.nodes := by
  induction h with
  | empty => intro p hp; cases hp
  | add_node net nid hr ih =>
    intro p hp
    unfold Network.add_node at hp
    split at hp
    · exact ih p hp
    · rcases List.mem_append.mp hp with h' | h'
      · exact ih p h'
      · rcases List.mem_singleton.mp h' with rfl
        rfl
  | remove_node net nid hr ih =>
    intro p hp
    unfold Network.remove_node at hp
    split at hp
    · exact ih p hp
    · exact qempty_foldl_remove_link _ net ih p ((aerase_sublist nid _).subset hp)
  | add_link net lid sid tid bw lat bidir hr ih =>
    intro p hp
    unfold Network.add_link at hp
    split at hp
    · exact ih p hp
    · split at hp
      · exact ih p hp
      · split at hp
        · exact qempty_amodify (fun n => add_neighbor_queue n _)
            (qempty_amodify (fun n => add_neighbor_queue n _) ih) p hp
        · exact qempty_amodify (fun n => add_neighbor_queue n _) ih p hp
  | remove_link net lid hr ih =>
    exact qempty_remove_link lid ih

/-- Every stored node value carries its own dictionary key as `id` (every
constructor site stores `Node.mk' nid` at key `nid`, and no mutation
rewrites `id`). -/
def IdsOk (l : List (String × Node)) : Prop :=
  ∀ p ∈ l, p.2.id = p.1

theorem ids_amodify {l : List (String × Node)} {k : String}
    {f : Node → Node} (hf : ∀ n, (f n).id = n.id)
    (h : IdsOk l) : IdsOk (amodify k f l) := by
  intro p hp
  rcases mem_amodify_weak hp with hp' | ⟨v, hv, rfl⟩
  · exact h p hp'
  · rw [show ((k, f v) : String × Node).2 = f v from rfl, hf v]
    exact h (k, v) hv

theorem update_congestion_state_queue (n : Node) :
    n.update_congestion_state.queue = n.queue := by
  unfold Node.update_congestion_state
  dsimp only
  (repeat' split) <;> rfl

theorem update_congestion_state_id (n : Node) :
    n.update_congestion_state.id = n.id := by
  unfold Node.update_congestion_state
  dsimp only
  (repeat' split) <;> rfl

theorem ids_remove_link {net : Network} (lid : String)
    (h : IdsOk net.nodes) : IdsOk (net.remove_link lid).1.nodes := by
  unfold Network.remove_link
  cases hl : alookup lid net.links with
  | none => exact h
  | some link =>
    dsimp only
    split
    · split
      · exact ids_amodify (fun n => remove_neighbor_id n _)
          (ids_amodify (fun n => remove_neighbor_id n _) h)
      · exact ids_amodify (fun n => remove_neighbor_id n _) h
    · split
      · exact ids_amodify (fun n => remove_neighbor_id n _) h
      · exact h

theorem ids_foldl_remove_link (lids : List String) :
    ∀ net : Network, IdsOk net.nodes →
      IdsOk ((lids.foldl (fun acc lid => (acc.remove_link lid).1) net)).nodes := by
  induction lids with
  | nil => intro net h; exact h
  | cons lid rest ih =>
    intro net h
    rw [List.foldl_cons]
    exact ih _ (ids_remove_link lid h)

/-- Every reachable network's node dictionary satisfies `IdsOk`. -/
theorem reachable_ids {net : Network} (h : Network.Reachable net) :
    IdsOk net.nodes := by
  induction h with
  | empty => intro p hp; cases hp
  | add_node net nid hr ih =>
    intro p hp
    unfold Network.add_node at hp
    split at hp
    · exact ih p hp
    · rcases List.mem_append.mp hp with h' | h'
      · exact ih p h'
      · rcases List.mem_singleton.mp h' with rfl
        rfl
  | remove_node net nid hr ih =>
    intro p hp
    unfold Network.remove_node at hp
    split at hp
    · exact ih p hp
    · exact ids_foldl_remove_link _ net ih p ((aerase_sublist nid _).subset hp)
  | add_link net lid sid tid bw lat bidir hr ih =>
    intro p hp
    unfold Network.add_link at hp
    split at hp
    · exact ih p hp
    · split at hp
      · exact ih p hp
      · split at hp
        · exact ids_amodify (fun n => add_neighbor_id n _)
            (ids_amodify (fun n => add_neighbor_id n _) ih) p hp
        · exact ids_amodify (fun n => add_neighbor_id n _) ih p hp
  | remove_link net lid hr ih =>
    exact ids_remove_link lid ih

/-! ### Packet-store access lemmas -/

theorem qempty_qrefs {l : List (String × Node)} (h : QEmpty l) :
    qrefs l = [] := by
  induction l with
  | nil => rfl
  | cons p rest ih =>
    rw [qrefs_cons, h p (List.mem_cons_self _ _),
      ih (fun q hq => h q (List.mem_cons_of_mem _ hq))]
    rfl

theorem length_setP (store : List Packet) (r : Nat) (p : Packet) :
    (setP store r p).length = store.length := List.length_set store r p

theorem getP_oob {store : List Packet} {r : Nat} (h : store.length ≤ r) :
    getP store r = default := List.getD_eq_default store default h

theorem setP_oob {store : List Packet} {r : Nat} (p : Packet)
    (h : store.length ≤ r) : setP store r p = store :=
  List.set_eq_of_length_le h

theorem getP_set_self {store : List Packet} {r : Nat} (p : Packet)
    (h : r < store.length) : getP (setP store r p) r = p := by
  unfold getP setP
  rw [List.getD_eq_getElem?_getD, List.getElem?_set_eq h]
  rfl

theorem getP_set_ne {store : List Packet} {r r' : Nat} (p : Packet)
    (h : r' ≠ r) : getP (setP store r p) r' = getP store r' := by
  unfold getP setP
  rw [List.getD_eq_getElem?_getD, List.getElem?_set_ne (fun he => h he.symm),
    ← List.getD_eq_getElem?_getD]

theorem getP_append_lt {store : List Packet} {r : Nat} (l : List Packet)
    (h : r < store.length) : getP (store ++ l) r = getP store r := by
  unfold getP
  rw [List.getD_eq_getElem?_getD, List.getElem?_append, if_pos h,
    ← List.getD_eq_getElem?_getD]

theorem getP_mem {store : List Packet} {r : Nat} (h : r < store.length) :
    getP store r ∈ store := by
  unfold getP
  rw [List.getD_eq_getElem store default h]
  exact List.getElem_mem h

theorem get?_getP {store : List Packet} {r : Nat} {p : Packet}
    (h : store.get? r = some p) : r < store.length ∧ getP store r = p := by
  obtain ⟨hlt, heq⟩ := List.get?_eq_some.mp h
  refine ⟨hlt, ?_⟩
  unfold getP
  rw [List.getD_eq_getElem store default hlt]
  exact heq

theorem getP_get? {store : List Packet} {r : Nat} (h : r < store.length) :
    store.get? r = some (getP store r) := by
  rw [List.get?_eq_getElem?, List.getElem?_eq_some]
  refine ⟨h, ?_⟩
  unfold getP
  rw [List.getD_eq_getElem store default h]

/-! ### Terminal-freezing lemmas -/

theorem frozen_refl (e : Engine) : terminalFrozen e e :=
  fun _ _ h _ => h

theorem frozen_trans {e1 e2 e3 : Engine} (h1 : terminalFrozen e1 e2)
    (h2 : terminalFrozen e2 e3) : terminalFrozen e1 e3 :=
  fun r p hp ht => h2 r p (h1 r p hp ht) ht

theorem frozen_of_store_eq {e e' : Engine} (h : e'.store = e.store) :
    terminalFrozen e e' :=
  fun r p hp _ => h ▸ hp

theorem frozen_append {e e' : Engine} (l : List Packet)
    (h : e'.store = e.store ++ l) : terminalFrozen e e' := by
  intro r p hp _
  rw [h, List.get?_eq_getElem?, List.getElem?_append,
    if_pos (get?_getP hp).1, ← List.get?_eq_getElem?]
  exact hp

theorem frozen_setP {e e' : Engine} (r : Nat) (q : Packet)
    (h : e'.store = setP e.store r q)
    (hnd : (getP e.store r).is_delivered = false)
    (hnr : (getP e.store r).is_dropped = false) : terminalFrozen e e' := by
  intro r' p hp ht
  by_cases hrr : r' = r
  · subst hrr
    obtain ⟨hlt, heq⟩ := get?_getP hp
    rw [heq] at hnd hnr
    rcases ht with ht | ht
    · rw [ht] at hnd; cases hnd
    · rw [ht] at hnr; cases hnr
  · rw [h]
    show (List.set e.store r q).get? r' = some p
    rw [List.get?_set_ne q e.store (fun he => hrr he.symm)]
    exact hp

/-! ### Invariant transport and queue-operation facts -/

theorem einv_of_sub {e e' : Engine} (h : EInv e) (hs : e'.store = e.store)
    (hsub : (qrefs e'.network.nodes).Sublist (qrefs e.network.nodes))
    (hids : IdsOk e'.network.nodes) : EInv e' := by
  refine ⟨?_, ?_, ?_, ?_, ?_, hids⟩
  · intro r hr
    rw [hs]
    exact h.queued_lt r (hsub.subset hr)
  · rw [hs]
    exact h.flags
  · intro r hr
    rw [hs]
    exact h.queued_ok r (hsub.subset hr)
  · exact List.Nodup.sublist hsub h.queued_nodup
  · rw [hs]
    exact h.prog_ok

theorem einv_same {e e' : Engine} (h : EInv e) (hs : e'.store = e.store)
    (hn : e'.network.nodes = e.network.nodes) : EInv e' := by
  refine einv_of_sub h hs ?_ ?_
  · rw [hn]
  · show IdsOk e'.network.nodes
    rw [hn]
    exact h.ids_ok

theorem enqueue_queue_true {q : PacketQueue} {r : Nat}
    (h : (q.enqueue r).2 = true) : (q.enqueue r).1.queue = q.queue ++ [r] := by
  unfold PacketQueue.enqueue at h ⊢
  split at h
  · cases h
  · rename_i hc
    rw [if_neg hc]

theorem enqueue_queue_false {q : PacketQueue} {r : Nat}
    (h : (q.enqueue r).2 = false) : (q.enqueue r).1.queue = q.queue := by
  unfold PacketQueue.enqueue at h ⊢
  split at h
  · rename_i hc
    rw [if_pos hc]
  · cases h

theorem enqueue_queue_cases (q : PacketQueue) (r : Nat) :
    (q.enqueue r).1.queue = q.queue ∨ (q.enqueue r).1.queue = q.queue ++ [r] := by
  unfold PacketQueue.enqueue
  split
  · exact Or.inl rfl
  · exact Or.inr rfl

theorem dequeue_spec (q : PacketQueue) :
    (q.dequeue.2 = none ∧ q.dequeue.1.queue = q.queue) ∨
      ∃ r rest, q.queue = r :: rest ∧ q.dequeue.2 = some r ∧
        q.dequeue.1.queue = rest := by
  unfold PacketQueue.dequeue
  split
  · exact Or.inl ⟨rfl, rfl⟩
  · rename_i r rest heq
    exact Or.inr ⟨r, rest, heq, rfl, rfl⟩

theorem qrefs_amodify_sublist {l : List (String × Node)} {k : String}
    (f : Node → Node) (hf : ∀ n, ((f n).queue.queue).Sublist n.queue.queue) :
    (qrefs (amodify k f l)).Sublist (qrefs l) := by
  cases h : alookup k l with
  | none =>
    rw [amodify_of_alookup_none f h]
  | some n =>
    obtain ⟨A, B, h1, h2⟩ := qrefs_amodify_split f h
    rw [h1, h2]
    exact (List.Sublist.refl A).append ((hf n).append (List.Sublist.refl B))

theorem nodup_insert_mid {A s B : List Nat} {r : Nat}
    (h : (A ++ (s ++ B)).Nodup) (hr : r ∉ A ++ (s ++ B)) :
    (A ++ ((s ++ [r]) ++ B)).Nodup := by
  have h1 : A ++ ((s ++ [r]) ++ B) = (A ++ s) ++ (r :: B) := by
    simp [List.append_assoc]
  rw [h1, (List.perm_middle).nodup_iff]
  rw [← List.append_assoc] at h hr
  exact List.nodup_cons.mpr ⟨hr, h⟩

theorem mem_insert_mid {A s B : List Nat} {r x : Nat}
    (h : x ∈ A ++ ((s ++ [r]) ++ B)) : x ∈ A ++ (s ++ B) ∨ x = r := by
  simp only [List.mem_append, List.mem_singleton] at h ⊢
  tauto

theorem qrefs_ids_foldl {α : Type} (l : List α) (f : Network → α → Network)
    (hf : ∀ net a, qrefs (f net a).nodes = qrefs net.nodes ∧
      (IdsOk net.nodes → IdsOk (f net a).nodes)) :
    ∀ net, qrefs (l.foldl f net).nodes = qrefs net.nodes ∧
      (IdsOk net.nodes → IdsOk (l.foldl f net).nodes) := by
  induction l with
  | nil => intro net; exact ⟨rfl, id⟩
  | cons a rest ih =>
    intro net
    rw [List.foldl_cons]
    obtain ⟨h1, h2⟩ := hf net a
    obtain ⟨h3, h4⟩ := ih (f net a)
    exact ⟨h3.trans h1, fun hi => h4 (h2 hi)⟩

/-- A routing-table refresh never touches queues or node identities. -/
theorem urt_qrefs_ids (net : Network) :
    qrefs (DijkstraRouting.update_routing_tables net).nodes = qrefs net.nodes ∧
      (IdsOk net.nodes →
        IdsOk (DijkstraRouting.update_routing_tables net).nodes) := by
  unfold DijkstraRouting.update_routing_tables
  refine qrefs_ids_foldl _ _ (fun acc sid => ?_) net
  refine qrefs_ids_foldl _ _ (fun acc2 did => ?_) acc
  split
  · exact ⟨rfl, id⟩
  · split
    all_goals
      first
        | exact ⟨rfl, id⟩
        | exact ⟨qrefs_amodify_same _ (fun n => rfl),
            fun hi => ids_amodify (fun n => rfl) hi⟩

/-! ### Per-operation invariant preservation -/

theorem einv_reset {e : Engine} (h : EInv e) : EInv e.reset := by
  have hclear : qrefs e.reset.network.nodes = [] := by
    show qrefs (e.network.nodes.map (fun p =>
      (p.1, { p.2 with queue := p.2.queue.clear, packets_sent := 0,
                       packets_received := 0, packets_forwarded := 0,
                       packets_dropped := 0 }))) = []
    exact qrefs_map_clear _ _ (fun p => rfl)
  refine ⟨?_, ?_, ?_, ?_, ?_, ?_⟩
  · intro r hr
    have hr' : r ∈ qrefs e.reset.network.nodes := hr
    rw [hclear] at hr'
    cases hr'
  · exact h.flags
  · intro r hr
    have hr' : r ∈ qrefs e.reset.network.nodes := hr
    rw [hclear] at hr'
    cases hr'
  · show (qrefs e.reset.network.nodes).Nodup
    rw [hclear]
    exact List.nodup_nil
  · exact h.prog_ok
  · intro p hp
    obtain ⟨q, hq, rfl⟩ := List.mem_map.mp hp
    exact h.ids_ok q hq

theorem update_statistics_frame (e : Engine) :
    (Engine.update_statistics e).store = e.store ∧
      (Engine.update_statistics e).network = e.network := by
  unfold Engine.update_statistics
  dsimp only
  (repeat' split) <;> exact ⟨rfl, rfl⟩

theorem removePacketStep_frame (e : Engine) (r : Nat) :
    (Engine.removePacketStep e r).store = e.store ∧
      (Engine.removePacketStep e r).network.nodes = e.network.nodes := by
  unfold Engine.removePacketStep
  dsimp only
  split <;> exact ⟨rfl, rfl⟩

/-- Appending one well-formed fresh packet to the store (no queue changes)
preserves the invariant and freezes nothing it should not. -/
theorem einv_append_packet {e e' : Engine} (pk : Packet)
    (hs : e'.store = e.store ++ [pk])
    (hq : qrefs e'.network.nodes = qrefs e.network.nodes)
    (hids : IdsOk e'.network.nodes)
    (hflags : ¬(pk.is_delivered = true ∧ pk.is_dropped = true))
    (hprog : pk.is_delivered = false → pk.is_dropped = false →
      1 ≤ pk.progress → strTruthy pk.next_hop_id = true)
    (h : EInv e) : EInv e' ∧ terminalFrozen e e' := by
  refine ⟨⟨?_, ?_, ?_, ?_, ?_, hids⟩, frozen_append [pk] hs⟩
  · intro r hr
    have hr' : r ∈ qrefs e.network.nodes := by
      have hr2 : r ∈ qrefs e'.network.nodes := hr
      rwa [hq] at hr2
    rw [hs, List.length_append]
    exact Nat.lt_of_lt_of_le (h.queued_lt r hr') (Nat.le_add_right _ _)
  · intro p hp
    rw [hs] at hp
    rcases List.mem_append.mp hp with hp | hp
    · exact h.flags p hp
    · rw [List.mem_singleton.mp hp]
      exact hflags
  · intro r hr
    have hr' : r ∈ qrefs e.network.nodes := by
      have hr2 : r ∈ qrefs e'.network.nodes := hr
      rwa [hq] at hr2
    rw [hs, getP_append_lt [pk] (h.queued_lt r hr')]
    exact h.queued_ok r hr'
  · show (qrefs e'.network.nodes).Nodup
    rw [hq]
    exact h.queued_nodup
  · intro p hp
    rw [hs] at hp
    rcases List.mem_append.mp hp with hp | hp
    · exact h.prog_ok p hp
    · rw [List.mem_singleton.mp hp]
      exact hprog

theorem generate_packet_pres {e : Engine} (src dst pid : String) (now : ℚ)
    (h : EInv e) :
    EInv (e.generate_packet src dst pid now).1 ∧
      terminalFrozen e (e.generate_packet src dst pid now).1 := by
  unfold Engine.generate_packet
  dsimp only
  split
  · dsimp only
    split
    · refine einv_append_packet _ rfl ?_ ?_ ?_ ?_ h
      · exact qrefs_amodify_same _ (fun n => rfl)
      · exact ids_amodify (fun n => rfl) h.ids_ok
      · intro hc
        cases hc.1
      · intro h1 h2 h3
        exact absurd (show (1 : ℚ) ≤ 0 from h3) (by norm_num)
    · refine einv_append_packet _ rfl rfl h.ids_ok ?_ ?_ h
      · intro hc
        cases hc.1
      · intro h1 h2 h3
        exact absurd (show (1 : ℚ) ≤ 0 from h3) (by norm_num)
  · refine einv_append_packet _ rfl rfl h.ids_ok ?_ ?_ h
    · intro hc
      cases hc.1
    · intro h1 h2 h3
      cases h2

theorem generate_random_pres (cfg : Config) {e : Engine} (i j : Nat)
    (pid : String) (now : ℚ) (h : EInv e) :
    EInv (Engine.generate_random_packet cfg e i j pid now) ∧
      terminalFrozen e (Engine.generate_random_packet cfg e i j pid now) := by
  unfold Engine.generate_random_packet
  split
  · exact ⟨h, frozen_refl e⟩
  · split
    · exact ⟨h, frozen_refl e⟩
    · dsimp only
      exact generate_packet_pres _ _ _ _ h

theorem toggle_force_pres {e : Engine} (nid : String) (h : EInv e) :
    EInv (e.toggle_force_congested nid) ∧
      terminalFrozen e (e.toggle_force_congested nid) := by
  unfold Engine.toggle_force_congested
  split
  · exact ⟨h, frozen_refl e⟩
  · dsimp only
    refine ⟨einv_of_sub h rfl ?_ ?_, frozen_of_store_eq rfl⟩
    · rw [(urt_qrefs_ids _).1]
      refine qrefs_amodify_sublist _ ?_
      intro n
      dsimp only
      split
      · rw [update_congestion_state_queue]
        exact List.nil_sublist _
      · exact List.Sublist.refl _
    · refine (urt_qrefs_ids _).2 ?_
      refine ids_amodify ?_ h.ids_ok
      intro n
      dsimp only
      split
      · rw [update_congestion_state_id]
      · rfl

theorem force_refresh_pres {e : Engine} (h : EInv e) :
    EInv e.force_refresh ∧ terminalFrozen e e.force_refresh := by
  refine ⟨einv_of_sub h rfl ?_ ?_, frozen_of_store_eq rfl⟩
  · rw [show qrefs e.force_refresh.network.nodes =
        qrefs (DijkstraRouting.update_routing_tables e.network).nodes from rfl,
      (urt_qrefs_ids _).1]
  · exact (urt_qrefs_ids _).2 h.ids_ok

/-! ### Packet movement and arrival -/

theorem movement_frame (net : Network) (p : Packet) (d : ℚ) :
    (Engine.update_packet_movement net p d).is_delivered = p.is_delivered ∧
      (Engine.update_packet_movement net p d).is_dropped = p.is_dropped ∧
      (Engine.update_packet_movement net p d).next_hop_id = p.next_hop_id ∧
      (Engine.update_packet_movement net p d).id = p.id := by
  unfold Engine.update_packet_movement
  (repeat' split) <;> exact ⟨rfl, rfl, rfl, rfl⟩

theorem movement_of_not_truthy {net : Network} {p : Packet} (d : ℚ)
    (h : ¬ strTruthy p.next_hop_id = true) :
    Engine.update_packet_movement net p d = p := by
  unfold Engine.update_packet_movement
  rw [if_pos h]

theorem advance_of_truthy {p : Packet}
    (h : strTruthy p.next_hop_id = true) :
    p.advance_to_next_hop.is_delivered = p.is_delivered ∧
      p.advance_to_next_hop.is_dropped = p.is_dropped ∧
      p.advance_to_next_hop.next_hop_id = none ∧
      p.advance_to_next_hop.progress = 0 := by
  unfold Packet.advance_to_next_hop
  cases hn : p.next_hop_id with
  | none => rw [hn] at h; cases h
  | some nh =>
    rw [hn] at h
    have hne : nh ≠ "" := of_decide_eq_true h
    dsimp only
    rw [if_pos hne]
    exact ⟨rfl, rfl, rfl, rfl⟩

theorem lt_of_truthy {store : List Packet} {r : Nat}
    (h : strTruthy (getP store r).next_hop_id = true) : r < store.length := by
  by_contra hge
  rw [getP_oob (Nat.le_of_not_lt hge)] at h
  exact absurd h (by decide)

theorem not_queued_of_truthy {e : Engine} (h : EInv e) {r : Nat}
    (htr : strTruthy (getP e.store r).next_hop_id = true) :
    r ∉ qrefs e.network.nodes := by
  intro hmem
  have hq := (h.queued_ok r hmem).2.2.1
  rw [hq] at htr
  cases htr

theorem getNodeOpt_some {net : Network} {o : Option String} {n : Node}
    (h : Engine.getNodeOpt net o = some n) :
    ∃ cid, o = some cid ∧ alookup cid net.nodes = some n := by
  cases o with
  | none => cases h
  | some cid => exact ⟨cid, rfl, h⟩

/-- Overwriting a non-queued reference with a packet that satisfies the
per-packet obligations preserves the invariant. -/
theorem einv_setP {e e' : Engine} (h : EInv e) {r : Nat} (q : Packet)
    (hs : e'.store = setP e.store r q)
    (hq : qrefs e'.network.nodes = qrefs e.network.nodes)
    (hids : IdsOk e'.network.nodes)
    (hnq : r ∉ qrefs e.network.nodes)
    (hflags : ¬(q.is_delivered = true ∧ q.is_dropped = true))
    (hprog : q.is_delivered = false → q.is_dropped = false →
      1 ≤ q.progress → strTruthy q.next_hop_id = true) :
    EInv e' := by
  refine ⟨?_, ?_, ?_, ?_, ?_, hids⟩
  · intro r' hr'
    have h2 : r' ∈ qrefs e.network.nodes := by
      have h3 : r' ∈ qrefs e'.network.nodes := hr'
      rwa [hq] at h3
    rw [hs, length_setP]
    exact h.queued_lt r' h2
  · intro p hp
    rw [hs] at hp
    rcases List.mem_or_eq_of_mem_set hp with hp | rfl
    · exact h.flags p hp
    · exact hflags
  · intro r' hr'
    have h2 : r' ∈ qrefs e.network.nodes := by
      have h3 : r' ∈ qrefs e'.network.nodes := hr'
      rwa [hq] at h3
    have hne : r' ≠ r := fun he => hnq (he ▸ h2)
    rw [hs, getP_set_ne q hne]
    exact h.queued_ok r' h2
  · show (qrefs e'.network.nodes).Nodup
    rw [hq]
    exact h.queued_nodup
  · intro p hp
    rw [hs] at hp
    rcases List.mem_or_eq_of_mem_set hp with hp | rfl
    · exact h.prog_ok p hp
    · exact hprog

/-- Writing a fresh in-flight record at `r` and enqueueing `r` into one
node's queue segment preserves the invariant. -/
theorem einv_setP_enqueue {e e' : Engine} (h : EInv e) {r : Nat} (q : Packet)
    {A B seg : List Nat}
    (hs : e'.store = setP e.store r q)
    (hold : qrefs e.network.nodes = A ++ (seg ++ B))
    (hnew : qrefs e'.network.nodes = A ++ ((seg ++ [r]) ++ B))
    (hids : IdsOk e'.network.nodes)
    (hlen : r < e.store.length)
    (hnq : r ∉ qrefs e.network.nodes)
    (hqd : q.is_delivered = false) (hqr : q.is_dropped = false)
    (hqn : q.next_hop_id = none) (hqp : q.progress = 0) :
    EInv e' := by
  have hmem : ∀ r', r' ∈ qrefs e'.network.nodes →
      r' ∈ qrefs e.network.nodes ∨ r' = r := by
    intro r' hr'
    rw [hnew] at hr'
    rcases mem_insert_mid hr' with h3 | h3
    · rw [← hold] at h3
      exact Or.inl h3
    · exact Or.inr h3
  refine ⟨?_, ?_, ?_, ?_, ?_, hids⟩
  · intro r' hr'
    rw [hs, length_setP]
    rcases hmem r' hr' with h2 | rfl
    · exact h.queued_lt r' h2
    · exact hlen
  · intro p hp
    rw [hs] at hp
    rcases List.mem_or_eq_of_mem_set hp with hp | rfl
    · exact h.flags p hp
    · intro hc
      rw [hqd] at hc
      cases hc.1
  · intro r' hr'
    rcases hmem r' hr' with h2 | rfl
    · have hne : r' ≠ r := fun he => hnq (he ▸ h2)
      rw [hs, getP_set_ne q hne]
      exact h.queued_ok r' h2
    · rw [hs, getP_set_self q hlen]
      exact ⟨hqd, hqr, hqn, hqp⟩
  · show (qrefs e'.network.nodes).Nodup
    rw [hnew]
    have hold' : (A ++ (seg ++ B)).Nodup := by
      rw [← hold]
      exact h.queued_nodup
    have hnq' : r ∉ A ++ (seg ++ B) := by
      rw [← hold]
      exact hnq
    exact nodup_insert_mid hold' hnq'
  · intro p hp
    rw [hs] at hp
    rcases List.mem_or_eq_of_mem_set hp with hp | rfl
    · exact h.prog_ok p hp
    · intro h1 h2 h3
      rw [hqp] at h3
      exact absurd h3 (by norm_num)

/-- `_handle_packet_arrival` on an in-flight packet with a resolved next hop
preserves the invariant and leaves terminal packets untouched. -/
theorem handle_arrival_pres {e : Engine} {r : Nat} (now : ℚ) (h : EInv e)
    (hnd : (getP e.store r).is_delivered = false)
    (hnr : (getP e.store r).is_dropped = false)
    (htr : strTruthy (getP e.store r).next_hop_id = true) :
    EInv (Engine.handle_packet_arrival e r now) ∧
      terminalFrozen e (Engine.handle_packet_arrival e r now) := by
  have hlen : r < e.store.length := lt_of_truthy htr
  have hnq : r ∉ qrefs e.network.nodes := not_queued_of_truthy h htr
  obtain ⟨hAd0, hAr0, hAn, hAp⟩ := advance_of_truthy htr
  have hAd : (getP e.store r).advance_to_next_hop.is_delivered = false :=
    hAd0.trans hnd
  have hAr : (getP e.store r).advance_to_next_hop.is_dropped = false :=
    hAr0.trans hnr
  unfold Engine.handle_packet_arrival
  dsimp only
  split
  · refine ⟨einv_setP h _ rfl rfl h.ids_ok hnq ?_ ?_,
      frozen_setP r _ rfl hnd hnr⟩
    · intro hc
      have hc1 := hc.1
      rw [show ((getP e.store r).advance_to_next_hop.mark_dropped
        "Node not found" now).is_delivered =
        (getP e.store r).advance_to_next_hop.is_delivered from rfl, hAd] at hc1
      cases hc1
    · intro h1 h2 h3
      cases h2
  · rename_i current_node hcn
    split
    · refine ⟨einv_setP h _ rfl (qrefs_amodify_same _ (fun n => rfl))
        (ids_amodify (fun n => rfl) h.ids_ok) hnq ?_ ?_,
        frozen_setP r _ rfl hnd hnr⟩
      · intro hc
        have hc2 := hc.2
        rw [show ((getP e.store r).advance_to_next_hop.mark_delivered
          now).is_dropped =
          (getP e.store r).advance_to_next_hop.is_dropped from rfl, hAr] at hc2
        cases hc2
      · intro h1 h2 h3
        cases h1
    · have halk : alookup current_node.id e.network.nodes =
          some current_node := by
        obtain ⟨cid, hc1, hc2⟩ := getNodeOpt_some hcn
        have hid : current_node.id = cid :=
          h.ids_ok (cid, current_node) (alookup_mem hc2)
        rw [hid]
        exact hc2
      split
      · rename_i hsucc
        obtain ⟨A, B, hold, hnew⟩ := qrefs_amodify_split
          (fun n => { n with queue := (n.queue.enqueue r).1,
                             packets_forwarded := n.packets_forwarded + 1 }) halk
        have hseg : ({ current_node with
            queue := (current_node.queue.enqueue r).1,
            packets_forwarded := current_node.packets_forwarded + 1 }
              : Node).queue.queue =
            current_node.queue.queue ++ [r] := enqueue_queue_true hsucc
        rw [hseg] at hnew
        refine ⟨einv_setP_enqueue h _ rfl hold hnew
          (ids_amodify (fun n => rfl) h.ids_ok) hlen hnq hAd hAr hAn hAp,
          frozen_setP r _ rfl hnd hnr⟩
      · rename_i hfail
        have hfq : (current_node.queue.enqueue r).2 = false :=
          Bool.eq_false_iff.mpr hfail
        obtain ⟨A, B, hold, hnew⟩ := qrefs_amodify_split
          (fun n => { n with queue := (n.queue.enqueue r).1,
                             packets_dropped := n.packets_dropped + 1 }) halk
        have hseg : ({ current_node with
            queue := (current_node.queue.enqueue r).1,
            packets_dropped := current_node.packets_dropped + 1 }
              : Node).queue.queue =
            current_node.queue.queue := enqueue_queue_false hfq
        rw [hseg] at hnew
        have hq2 : qrefs (amodify current_node.id
            (fun n => { n with queue := (n.queue.enqueue r).1,
                               packets_dropped := n.packets_dropped + 1 })
            e.network.nodes) = qrefs e.network.nodes := by
          rw [hnew, hold]
        refine ⟨einv_setP h _ rfl hq2
          (ids_amodify (fun n => rfl) h.ids_ok) hnq ?_ ?_,
          frozen_setP r _ rfl hnd hnr⟩
        · intro hc
          have hc1 := hc.1
          rw [show ((getP e.store r).advance_to_next_hop.mark_dropped
            ("Queue full at node " ++ current_node.id) now).is_delivered =
            (getP e.store r).advance_to_next_hop.is_delivered from rfl,
            hAd] at hc1
          cases hc1
        · intro h1 h2 h3
          cases h2

theorem setP_getP (store : List Packet) (r : Nat) :
    setP store r (getP store r) = store := by
  induction store generalizing r with
  | nil => rfl
  | cons x xs ih =>
    cases r with
    | zero => rfl
    | succ n =>
      show x :: setP xs n (getP xs n) = x :: xs
      rw [ih n]

/-- One iteration of the movement/arrival loop preserves the invariant and
terminal freezing. -/
theorem updPacketStep_pres {e0 : Engine} (d now : ℚ)
    {acc : Engine × List Nat} (hinv : EInv acc.1)
    (hfz : terminalFrozen e0 acc.1) (r : Nat) :
    EInv (Engine.updPacketStep d now acc r).1 ∧
      terminalFrozen e0 (Engine.updPacketStep d now acc r).1 := by
  obtain ⟨e, tr⟩ := acc
  dsimp only at hinv hfz
  unfold Engine.updPacketStep
  dsimp only
  split
  · exact ⟨hinv, hfz⟩
  · split
    · split
      · exact ⟨hinv, hfz⟩
      · exact ⟨hinv, hfz⟩
    · rename_i hD hR
      have hD' : (getP e.store r).is_delivered = false :=
        Bool.eq_false_iff.mpr hD
      have hR' : (getP e.store r).is_dropped = false :=
        Bool.eq_false_iff.mpr hR
      have hfzE : terminalFrozen e { e with store := setP e.store r (Engine.update_packet_movement e.network (getP e.store r) d) } :=
        frozen_setP r _ rfl hD' hR'
      have hinvE : EInv { e with store := setP e.store r (Engine.update_packet_movement e.network (getP e.store r) d) } := by
        by_cases htr : strTruthy (getP e.store r).next_hop_id = true
        · refine einv_setP hinv _ rfl rfl hinv.ids_ok
            (not_queued_of_truthy hinv htr) ?_ ?_
          · intro hc
            have hc1 := hc.1
            rw [(movement_frame e.network (getP e.store r) d).1, hD'] at hc1
            cases hc1
          · intro h1 h2 h3
            rw [(movement_frame e.network (getP e.store r) d).2.2.1]
            exact htr
        · have hmv : Engine.update_packet_movement e.network
              (getP e.store r) d = getP e.store r :=
            movement_of_not_truthy d htr
          refine einv_same hinv ?_ rfl
          show setP e.store r (Engine.update_packet_movement e.network
            (getP e.store r) d) = e.store
          rw [hmv]
          exact setP_getP e.store r
      split
      · rename_i hge
        have hrl : r < e.store.length := by
          by_contra hc
          have hdef : getP e.store r = default :=
            getP_oob (Nat.le_of_not_lt hc)
          have hmv : Engine.update_packet_movement e.network
              (getP e.store r) d = getP e.store r :=
            movement_of_not_truthy d (by rw [hdef]; decide)
          rw [hmv, hdef] at hge
          exact absurd hge (by decide)
        have htrue : strTruthy (getP e.store r).next_hop_id = true := by
          by_contra hc
          have hmv : Engine.update_packet_movement e.network
              (getP e.store r) d = getP e.store r :=
            movement_of_not_truthy d hc
          rw [hmv] at hge
          exact hc (hinv.prog_ok (getP e.store r) (getP_mem hrl) hD' hR' hge)
        have hy1 : (getP ({ e with store := setP e.store r (Engine.update_packet_movement e.network (getP e.store r) d) } : Engine).store r).is_delivered = false := by
          show (getP (setP e.store r (Engine.update_packet_movement e.network
            (getP e.store r) d)) r).is_delivered = false
          rw [getP_set_self _ hrl,
            (movement_frame e.network (getP e.store r) d).1]
          exact hD'
        have hy2 : (getP ({ e with store := setP e.store r (Engine.update_packet_movement e.network (getP e.store r) d) } : Engine).store r).is_dropped = false := by
          show (getP (setP e.store r (Engine.update_packet_movement e.network
            (getP e.store r) d)) r).is_dropped = false
          rw [getP_set_self _ hrl,
            (movement_frame e.network (getP e.store r) d).2.1]
          exact hR'
        have hy3 : strTruthy (getP ({ e with store := setP e.store r (Engine.update_packet_movement e.network (getP e.store r) d) } : Engine).store r).next_hop_id = true := by
          show strTruthy (getP (setP e.store r
            (Engine.update_packet_movement e.network (getP e.store r) d))
              r).next_hop_id = true
          rw [getP_set_self _ hrl,
            (movement_frame e.network (getP e.store r) d).2.2.1]
          exact htrue
        obtain ⟨ha1, ha2⟩ := handle_arrival_pres now hinvE hy1 hy2 hy3
        exact ⟨ha1, frozen_trans hfz (frozen_trans hfzE ha2)⟩
      · exact ⟨hinvE, frozen_trans hfz hfzE⟩

theorem foldl_updPacketStep_pres {e0 : Engine} (d now : ℚ) (rs : List Nat) :
    ∀ acc : Engine × List Nat, EInv acc.1 → terminalFrozen e0 acc.1 →
      EInv (rs.foldl (Engine.updPacketStep d now) acc).1 ∧
        terminalFrozen e0 (rs.foldl (Engine.updPacketStep d now) acc).1 := by
  induction rs with
  | nil => intro acc h1 h2; exact ⟨h1, h2⟩
  | cons r rest ih =>
    intro acc h1 h2
    rw [List.foldl_cons]
    obtain ⟨h3, h4⟩ := updPacketStep_pres d now h1 h2 r
    exact ih _ h3 h4

theorem foldl_removePacketStep_pres (rs : List Nat) :
    ∀ e : Engine, EInv e →
      EInv (rs.foldl Engine.removePacketStep e) ∧
        terminalFrozen e (rs.foldl Engine.removePacketStep e) := by
  induction rs with
  | nil => intro e h; exact ⟨h, frozen_refl e⟩
  | cons r rest ih =>
    intro e h
    rw [List.foldl_cons]
    have h1 : EInv (Engine.removePacketStep e r) :=
      einv_same h (removePacketStep_frame e r).1 (removePacketStep_frame e r).2
    obtain ⟨h2, h3⟩ := ih _ h1
    exact ⟨h2,
      frozen_trans (frozen_of_store_eq (removePacketStep_frame e r).1) h3⟩

theorem update_packets_pres {e : Engine} (d now : ℚ) (h : EInv e) :
    EInv (Engine.update_packets e d now) ∧
      terminalFrozen e (Engine.update_packets e d now) := by
  unfold Engine.update_packets
  obtain ⟨hA, hB⟩ :=
    foldl_updPacketStep_pres d now e.active_packets (e, []) h (frozen_refl e)
  rcases hp : e.active_packets.foldl (Engine.updPacketStep d now) (e, [])
    with ⟨e1, tr⟩
  rw [hp] at hA hB
  dsimp only at hA hB ⊢
  obtain ⟨h3, h4⟩ := foldl_removePacketStep_pres tr e1 hA
  exact ⟨h3, frozen_trans hB h4⟩

/-- Appending a fresh packet record and (possibly) enqueueing its reference
`e.store.length` into one node's segment preserves the invariant. -/
theorem einv_append_enqueue {e e' : Engine} (h : EInv e) (pk : Packet)
    {A B seg : List Nat}
    (hs : e'.store = e.store ++ [pk])
    (hold : qrefs e.network.nodes = A ++ (seg ++ B))
    (hnew : qrefs e'.network.nodes = A ++ ((seg ++ [e.store.length]) ++ B) ∨
      qrefs e'.network.nodes = A ++ (seg ++ B))
    (hids : IdsOk e'.network.nodes)
    (hpd : pk.is_delivered = false) (hpr : pk.is_dropped = false)
    (hpn : pk.next_hop_id = none) (hpp : pk.progress = 0) :
    EInv e' := by
  have hfresh : e.store.length ∉ qrefs e.network.nodes :=
    fun hm => absurd (h.queued_lt _ hm) (lt_irrefl _)
  have hmem : ∀ r', r' ∈ qrefs e'.network.nodes →
      r' ∈ qrefs e.network.nodes ∨ r' = e.store.length := by
    intro r' hr'
    rcases hnew with hnew | hnew
    · rw [hnew] at hr'
      rcases mem_insert_mid hr' with h3 | h3
      · rw [← hold] at h3
        exact Or.inl h3
      · exact Or.inr h3
    · rw [hnew, ← hold] at hr'
      exact Or.inl hr'
  refine ⟨?_, ?_, ?_, ?_, ?_, hids⟩
  · intro r' hr'
    rw [hs, List.length_append]
    rcases hmem r' hr' with h2 | rfl
    · exact Nat.lt_of_lt_of_le (h.queued_lt r' h2) (Nat.le_add_right _ _)
    · exact Nat.lt_add_of_pos_right (Nat.succ_pos 0)
  · intro p hp
    rw [hs] at hp
    rcases List.mem_append.mp hp with hp | hp
    · exact h.flags p hp
    · rw [List.mem_singleton.mp hp]
      intro hc
      rw [hpd] at hc
      cases hc.1
  · intro r' hr'
    rcases hmem r' hr' with h2 | rfl
    · rw [hs, getP_append_lt [pk] (h.queued_lt r' h2)]
      exact h.queued_ok r' h2
    · rw [hs, getP_append_length]
      exact ⟨hpd, hpr, hpn, hpp⟩
  · show (qrefs e'.network.nodes).Nodup
    rcases hnew with hnew | hnew
    · rw [hnew]
      refine nodup_insert_mid ?_ ?_
      · rw [← hold]
        exact h.queued_nodup
      · rw [← hold]
        exact hfresh
    · rw [hnew, ← hold]
      exact h.queued_nodup
  · intro p hp
    rw [hs] at hp
    rcases List.mem_append.mp hp with hp | hp
    · exact h.prog_ok p hp
    · rw [List.mem_singleton.mp hp]
      intro h1 h2 h3
      rw [hpp] at h3
      exact absurd h3 (by norm_num)

/-- The dummy-packet filler loop preserves the invariant. -/
theorem fillQueue_pres (nid : String) (ids : Nat → String) (now : ℚ) :
    ∀ (k : Nat) (e : Engine), EInv e →
      EInv (Engine.fillQueue nid ids now e k) ∧
        terminalFrozen e (Engine.fillQueue nid ids now e k) := by
  intro k
  induction k with
  | zero => intro e h; exact ⟨h, frozen_refl e⟩
  | succ k ih =>
    intro e h
    unfold Engine.fillQueue
    split
    · exact ⟨h, frozen_refl e⟩
    · rename_i node hnode
      split
      · exact ⟨h, frozen_refl e⟩
      · rename_i hnf
        dsimp only
        have halk : alookup nid e.network.nodes = some node := hnode
        obtain ⟨A, B, hold, hnew0⟩ := qrefs_amodify_split
          (fun n => { n with queue := (n.queue.enqueue e.store.length).1 }) halk
        have h1 : EInv { e with
            store := e.store ++ [Packet.mk' (ids k) ("BLOCK_" ++ nid) nid now]
            network := { e.network with nodes := amodify nid (fun n => { n with queue := (n.queue.enqueue e.store.length).1 }) e.network.nodes } } := by
          refine einv_append_enqueue h _ rfl hold ?_
            (ids_amodify (fun n => rfl) h.ids_ok) rfl rfl rfl rfl
          rcases enqueue_queue_cases node.queue e.store.length with hc | hc
          · have hseg : ({ node with
                queue := (node.queue.enqueue e.store.length).1 }
                  : Node).queue.queue = node.queue.queue := hc
            rw [hseg] at hnew0
            exact Or.inr hnew0
          · have hseg : ({ node with
                queue := (node.queue.enqueue e.store.length).1 }
                  : Node).queue.queue =
                node.queue.queue ++ [e.store.length] := hc
            rw [hseg] at hnew0
            exact Or.inl hnew0
        obtain ⟨h2, h3⟩ := ih _ h1
        exact ⟨h2, frozen_trans (frozen_append _ rfl) h3⟩

theorem nodup_remove_head {A rest B : List Nat} {r : Nat}
    (h : (A ++ ((r :: rest) ++ B)).Nodup) : r ∉ A ++ (rest ++ B) := by
  have h2 : (A ++ (r :: (rest ++ B))).Nodup := h
  rw [(List.perm_middle).nodup_iff] at h2
  exact (List.nodup_cons.mp h2).1

/-- Resolving a dequeued packet's next hop in place, when the queued
references only shrank and the reference is no longer queued. -/
theorem einv_nexthop_write {e e' : Engine} (h : EInv e) {r : Nat} (nh : String)
    (hs : e'.store = setP e.store r
      { getP e.store r with next_hop_id := some nh })
    (hsub : (qrefs e'.network.nodes).Sublist (qrefs e.network.nodes))
    (hids : IdsOk e'.network.nodes)
    (hnq : r ∉ qrefs e'.network.nodes)
    (hpd : (getP e.store r).is_delivered = false)
    (hpr : (getP e.store r).is_dropped = false)
    (hpp : (getP e.store r).progress = 0) :
    EInv e' ∧ terminalFrozen e e' := by
  refine ⟨⟨?_, ?_, ?_, ?_, ?_, hids⟩, frozen_setP r _ hs hpd hpr⟩
  · intro r' hr'
    rw [hs, length_setP]
    exact h.queued_lt r' (hsub.subset hr')
  · intro p hp
    rw [hs] at hp
    rcases List.mem_or_eq_of_mem_set hp with hp | rfl
    · exact h.flags p hp
    · intro hc
      have hc1 : (getP e.store r).is_delivered = true := hc.1
      rw [hpd] at hc1
      cases hc1
  · intro r' hr'
    have hne : r' ≠ r := fun he => hnq (he ▸ hr')
    rw [hs, getP_set_ne _ hne]
    exact h.queued_ok r' (hsub.subset hr')
  · exact List.Nodup.sublist hsub h.queued_nodup
  · intro p hp
    rw [hs] at hp
    rcases List.mem_or_eq_of_mem_set hp with hp | rfl
    · exact h.prog_ok p hp
    · intro h1 h2 h3
      have h3' : 1 ≤ (getP e.store r).progress := h3
      rw [hpp] at h3'
      exact absurd h3' (by norm_num)

/-- Dropping a non-terminal, no-longer-queued packet in place. -/
theorem einv_dropped_write {e e' : Engine} (h : EInv e) {r : Nat}
    (reason : String) (t : ℚ)
    (hs : e'.store = setP e.store r ((getP e.store r).mark_dropped reason t))
    (hsub : (qrefs e'.network.nodes).Sublist (qrefs e.network.nodes))
    (hids : IdsOk e'.network.nodes)
    (hnq : r ∉ qrefs e'.network.nodes)
    (hpd : (getP e.store r).is_delivered = false)
    (hpr : (getP e.store r).is_dropped = false) :
    EInv e' ∧ terminalFrozen e e' := by
  refine ⟨⟨?_, ?_, ?_, ?_, ?_, hids⟩, frozen_setP r _ hs hpd hpr⟩
  · intro r' hr'
    rw [hs, length_setP]
    exact h.queued_lt r' (hsub.subset hr')
  · intro p hp
    rw [hs] at hp
    rcases List.mem_or_eq_of_mem_set hp with hp | rfl
    · exact h.flags p hp
    · intro hc
      have hc1 : (getP e.store r).is_delivered = true := hc.1
      rw [hpd] at hc1
      cases hc1
  · intro r' hr'
    have hne : r' ≠ r := fun he => hnq (he ▸ hr')
    rw [hs, getP_set_ne _ hne]
    exact h.queued_ok r' (hsub.subset hr')
  · exact List.Nodup.sublist hsub h.queued_nodup
  · intro p hp
    rw [hs] at hp
    rcases List.mem_or_eq_of_mem_set hp with hp | rfl
    · exact h.prog_ok p hp
    · intro h1 h2 h3
      cases h2

/-- `_process_node_queue` preserves the invariant and terminal freezing. -/
theorem process_pres {e : Engine} (nid : String) (drain : Bool)
    (ids : Nat → String) (now : ℚ) (h : EInv e) :
    EInv (Engine.process_node_queue e nid drain ids now) ∧
      terminalFrozen e (Engine.process_node_queue e nid drain ids now) := by
  unfold Engine.process_node_queue
  split
  · exact ⟨h, frozen_refl e⟩
  · rename_i node hnode
    split
    · dsimp only
      obtain ⟨h1, h2⟩ := fillQueue_pres nid ids now node.queue.max_size e h
      refine ⟨einv_of_sub h1 rfl ?_ ?_,
        frozen_trans h2 (frozen_of_store_eq rfl)⟩
      · show (qrefs (amodify nid (fun n => n.update_congestion_state)
          (Engine.fillQueue nid ids now e
            node.queue.max_size).network.nodes)).Sublist
          (qrefs (Engine.fillQueue nid ids now e
            node.queue.max_size).network.nodes)
        rw [qrefs_amodify_same _ (fun n => by
          rw [update_congestion_state_queue])]
      · exact ids_amodify (fun n => update_congestion_state_id n) h1.ids_ok
    · split
      · exact ⟨h, frozen_refl e⟩
      · split
        · exact ⟨h, frozen_refl e⟩
        · dsimp only
          rcases hdq : node.queue.dequeue with ⟨q', res⟩
          dsimp only
          have halk : alookup nid e.network.nodes = some node := hnode
          obtain ⟨A, B, hold, hnew0⟩ := qrefs_amodify_split
            (fun n => { n with queue := q' }) halk
          have hnew' : qrefs (amodify nid (fun n => { n with queue := q' })
              e.network.nodes) = A ++ (q'.queue ++ B) := by
            rw [hnew0]
          cases res with
          | none =>
            have hsub : (q'.queue).Sublist node.queue.queue := by
              rcases dequeue_spec node.queue with ⟨h1, h2⟩ |
                ⟨r0, rest, hq0, hs1, hs2⟩
              · rw [hdq] at h2
                have h2' : q'.queue = node.queue.queue := h2
                rw [h2']
              · rw [hdq] at hs2
                have hs2' : q'.queue = rest := hs2
                rw [hs2', hq0]
                exact List.sublist_cons_self r0 rest
            refine ⟨einv_of_sub h rfl ?_
              (ids_amodify (fun n => rfl) h.ids_ok), frozen_of_store_eq rfl⟩
            show (qrefs (amodify nid (fun n => { n with queue := q' })
              e.network.nodes)).Sublist (qrefs e.network.nodes)
            rw [hnew', hold]
            exact (List.Sublist.refl A).append
              (hsub.append (List.Sublist.refl B))
          | some r =>
            dsimp only
            rcases dequeue_spec node.queue with ⟨h1, h2⟩ |
              ⟨r0, rest, hq0, hs1, hs2⟩
            · rw [hdq] at h1
              cases h1
            · rw [hdq] at hs1 hs2
              have hs1' : some r = some r0 := hs1
              obtain rfl := Option.some.inj hs1'
              have hs2' : q'.queue = rest := hs2
              have hrq : r ∈ qrefs e.network.nodes := by
                rw [hold, hq0]
                exact List.mem_append.mpr (Or.inr (List.mem_append.mpr
                  (Or.inl (List.mem_cons_self r rest))))
              obtain ⟨hpd, hpr, hpn, hpp⟩ := h.queued_ok r hrq
              have hrlen : r < e.store.length := h.queued_lt r hrq
              have hnd0 : (A ++ ((r :: rest) ++ B)).Nodup := by
                have hx : (qrefs e.network.nodes).Nodup := h.queued_nodup
                rw [hold, hq0] at hx
                exact hx
              have hr2 : r ∉ A ++ (rest ++ B) := nodup_remove_head hnd0
              have hrnot2 : r ∉ qrefs (amodify nid
                  (fun n => { n with queue := q' }) e.network.nodes) := by
                rw [hnew', hs2']
                exact hr2
              split
              · rename_i hd nh tl heq
                refine einv_nexthop_write h nh rfl ?_ ?_ ?_ hpd hpr hpp
                · show (qrefs (amodify nid (fun n => { n with queue := q' })
                    e.network.nodes)).Sublist (qrefs e.network.nodes)
                  rw [hnew', hold, hs2', hq0]
                  exact (List.Sublist.refl A).append
                    ((List.sublist_cons_self r rest).append (List.Sublist.refl B))
                · exact ids_amodify (fun n => rfl) h.ids_ok
                · exact hrnot2
              all_goals
                refine einv_dropped_write h "No route from queued node" now
                  ?_ ?_ ?_ ?_ hpd hpr
              all_goals
                first
                  | rfl
                  | (show (qrefs (amodify nid (fun n2 => { n2 with packets_dropped := n2.packets_dropped + 1 }) (amodify nid (fun n => { n with queue := q' }) e.network.nodes))).Sublist (qrefs e.network.nodes)
                     have hq2 : qrefs (amodify nid (fun n2 => { n2 with packets_dropped := n2.packets_dropped + 1 }) (amodify nid (fun n => { n with queue := q' }) e.network.nodes)) = qrefs (amodify nid (fun n => { n with queue := q' }) e.network.nodes) := qrefs_amodify_same _ (fun n => rfl)
                     rw [hq2, hnew', hold, hs2', hq0]
                     exact (List.Sublist.refl A).append
                       ((List.sublist_cons_self r rest).append
                         (List.Sublist.refl B)))
                  | exact ids_amodify (fun n => rfl)
                      (ids_amodify (fun n => rfl) h.ids_ok)
                  | (show r ∉ qrefs (amodify nid (fun n2 => { n2 with packets_dropped := n2.packets_dropped + 1 }) (amodify nid (fun n => { n with queue := q' }) e.network.nodes))
                     have hq2 : qrefs (amodify nid (fun n2 => { n2 with packets_dropped := n2.packets_dropped + 1 }) (amodify nid (fun n => { n with queue := q' }) e.network.nodes)) = qrefs (amodify nid (fun n => { n with queue := q' }) e.network.nodes) := qrefs_amodify_same _ (fun n => rfl)
                     rw [hq2]
                     exact hrnot2)

/-! ### The per-tick pipeline -/

theorem pres_comp {e a b : Engine} (h1 : EInv a ∧ terminalFrozen e a)
    (h2 : EInv a → EInv b ∧ terminalFrozen a b) :
    EInv b ∧ terminalFrozen e b :=
  ⟨(h2 h1.1).1, frozen_trans h1.2 (h2 h1.1).2⟩

theorem update_statistics_pres {t : Engine} (h : EInv t) :
    EInv (Engine.update_statistics t) ∧
      terminalFrozen t (Engine.update_statistics t) := by
  refine ⟨einv_same h (update_statistics_frame t).1 ?_,
    frozen_of_store_eq (update_statistics_frame t).1⟩
  rw [(update_statistics_frame t).2]

theorem ucs_pres {t : Engine} (h : EInv t) :
    EInv (Engine.update_congestion_states t) ∧
      terminalFrozen t (Engine.update_congestion_states t) := by
  refine ⟨einv_of_sub h rfl ?_ ?_, frozen_of_store_eq rfl⟩
  · show (qrefs (t.network.nodes.map
      (fun p => (p.1, p.2.update_congestion_state)))).Sublist
      (qrefs t.network.nodes)
    rw [qrefs_map_same _ (fun p => by rw [update_congestion_state_queue])]
  · intro p hp
    obtain ⟨q, hq, rfl⟩ := List.mem_map.mp hp
    show q.2.update_congestion_state.id = q.1
    rw [update_congestion_state_id]
    exact h.ids_ok q hq

theorem refresh_stage_pres {t : Engine} (h : EInv t) :
    EInv { t with network := DijkstraRouting.update_routing_tables t.network, last_routing_update := t.simulation_time } ∧
      terminalFrozen t { t with network := DijkstraRouting.update_routing_tables t.network, last_routing_update := t.simulation_time } := by
  refine ⟨einv_of_sub h rfl ?_ ?_, frozen_of_store_eq rfl⟩
  · show (qrefs (DijkstraRouting.update_routing_tables
      t.network).nodes).Sublist (qrefs t.network.nodes)
    rw [(urt_qrefs_ids t.network).1]
  · exact (urt_qrefs_ids t.network).2 h.ids_ok

theorem foldl_process_pres (dr : String → Bool) (du : String → Nat → String)
    (now : ℚ) (nids : List String) :
    ∀ e : Engine, EInv e →
      EInv (nids.foldl (fun acc nid =>
        Engine.process_node_queue acc nid (dr nid) (du nid) now) e) ∧
        terminalFrozen e (nids.foldl (fun acc nid =>
          Engine.process_node_queue acc nid (dr nid) (du nid) now) e) := by
  induction nids with
  | nil => intro e h; exact ⟨h, frozen_refl e⟩
  | cons nid rest ih =>
    intro e h
    rw [List.foldl_cons]
    obtain ⟨h1, h2⟩ := process_pres nid (dr nid) (du nid) now h
    obtain ⟨h3, h4⟩ := ih _ h1
    exact ⟨h3, frozen_trans h2 h4⟩

theorem simt_stage_pres {t : Engine} (d : ℚ) (h : EInv t) :
    EInv { t with simulation_time := t.simulation_time + d * t.simulation_speed } ∧
      terminalFrozen t { t with simulation_time := t.simulation_time + d * t.simulation_speed } :=
  ⟨einv_same h rfl rfl, frozen_of_store_eq rfl⟩

theorem demo_stage_pres {t : Engine} (h : EInv t) :
    EInv { t with auto_generate := true, demo_packet_id := none } ∧
      terminalFrozen t { t with auto_generate := true, demo_packet_id := none } :=
  ⟨einv_same h rfl rfl, frozen_of_store_eq rfl⟩

theorem lpg_stage_pres (cfg : Config) {t : Engine} (i j : Nat) (pid : String)
    (now : ℚ) (h : EInv t) :
    EInv { Engine.generate_random_packet cfg t i j pid now with last_packet_generation_time := (Engine.generate_random_packet cfg t i j pid now).simulation_time } ∧
      terminalFrozen t { Engine.generate_random_packet cfg t i j pid now with last_packet_generation_time := (Engine.generate_random_packet cfg t i j pid now).simulation_time } := by
  obtain ⟨h1, h2⟩ := generate_random_pres cfg i j pid now h
  exact ⟨einv_same h1 rfl rfl, frozen_trans h2 (frozen_of_store_eq rfl)⟩

set_option maxHeartbeats 2000000 in
/-- `SimulationEngine.update` preserves the invariant and leaves terminal
packets untouched. -/
theorem update_pres (cfg : Config) {e : Engine} (d : ℚ) (o : Engine.UpdOracle)
    (now : ℚ) (h : EInv e) :
    EInv (Engine.update cfg e d o now) ∧
      terminalFrozen e (Engine.update cfg e d o now) := by
  unfold Engine.update
  split
  · exact ⟨h, frozen_refl e⟩
  · dsimp only
    refine pres_comp ?_ (fun hx => update_statistics_pres hx)
    repeat' split
    all_goals
      first
        | (refine pres_comp ?_ (fun hx => refresh_stage_pres hx)
           refine pres_comp ?_ (fun hx => ucs_pres hx)
           refine pres_comp ?_ (fun hx => foldl_process_pres _ _ now _ _ hx)
           refine pres_comp ?_ (fun hx => update_packets_pres _ now hx)
           first
             | exact pres_comp (pres_comp (simt_stage_pres d h)
                 (fun hx => lpg_stage_pres cfg _ _ _ now hx))
                 (fun hx => demo_stage_pres hx)
             | exact pres_comp (simt_stage_pres d h)
                 (fun hx => demo_stage_pres hx)
             | exact pres_comp (simt_stage_pres d h)
                 (fun hx => lpg_stage_pres cfg _ _ _ now hx)
             | exact simt_stage_pres d h)
        | (refine pres_comp ?_ (fun hx => ucs_pres hx)
           refine pres_comp ?_ (fun hx => foldl_process_pres _ _ now _ _ hx)
           refine pres_comp ?_ (fun hx => update_packets_pres _ now hx)
           first
             | exact pres_comp (pres_comp (simt_stage_pres d h)
                 (fun hx => lpg_stage_pres cfg _ _ _ now hx))
                 (fun hx => demo_stage_pres hx)
             | exact pres_comp (simt_stage_pres d h)
                 (fun hx => demo_stage_pres hx)
             | exact pres_comp (simt_stage_pres d h)
                 (fun hx => lpg_stage_pres cfg _ _ _ now hx)
             | exact simt_stage_pres d h)

/-- Every public engine operation preserves the invariant and leaves every
already-terminal packet record untouched. -/
theorem estep_pres {cfg : Config} {e e' : Engine} (h : EInv e)
    (hs : EStep cfg e e') : EInv e' ∧ terminalFrozen e e' := by
  cases hs with
  | start => exact ⟨einv_same h rfl rfl, frozen_of_store_eq rfl⟩
  | pause => exact ⟨einv_same h rfl rfl, frozen_of_store_eq rfl⟩
  | reset => exact ⟨einv_reset h, frozen_of_store_eq rfl⟩
  | set_speed v => exact ⟨einv_same h rfl rfl, frozen_of_store_eq rfl⟩
  | generate_packet src dst pid now => exact generate_packet_pres src dst pid now h
  | generate_random i j pid now => exact generate_random_pres cfg i j pid now h
  | update delta o now => exact update_pres cfg delta o now h
  | toggle_force nid => exact toggle_force_pres nid h
  | force_refresh => exact force_refresh_pres h
  | set_demo dd => exact ⟨einv_same h rfl rfl, frozen_of_store_eq rfl⟩

/-- The invariant holds for a fresh engine over any reachable network. -/
theorem einv_init (cfg : Config) {net : Network} (hr : Network.Reachable net) :
    EInv (Engine.mk' cfg net) := by
  have hq : qrefs net.nodes = [] := qempty_qrefs (reachable_queues_empty hr)
  refine ⟨?_, ?_, ?_, ?_, ?_, ?_⟩
  · intro r hr2
    have hr3 : r ∈ qrefs net.nodes := hr2
    rw [hq] at hr3
    cases hr3
  · intro p hp
    cases hp
  · intro r hr2
    have hr3 : r ∈ qrefs net.nodes := hr2
    rw [hq] at hr3
    cases hr3
  · show (qrefs net.nodes).Nodup
    rw [hq]
    exact List.nodup_nil
  · intro p hp
    cases hp
  · exact reachable_ids hr

/-- Every reachable engine state satisfies the packet-lifecycle invariant. -/
theorem einv_reachable {cfg : Config} {e : Engine} (h : EReachable cfg e) :
    EInv e := by
  induction h with
  | init net hr => exact einv_init cfg hr
  | step h1 h2 ih => exact (estep_pres ih h2).1

/-- **C6**: in every engine state reachable through the engine's operations
(generation, movement, arrival handling, queue draining, the external
commands), no stored packet ever has both the delivered and the dropped
flag set; and each terminal state is entered at most once: as soon as a
packet is delivered or dropped, every further engine operation leaves its
store record bit-for-bit unchanged, so neither flag is ever set again or
cleared. -/
theorem c6_terminal_flags (cfg : Config) (e : Engine)
    (h : EReachable cfg e) :
    (∀ p ∈ e.store, ¬(p.is_delivered = true ∧ p.is_dropped = true)) ∧
      ∀ e', EStep cfg e e' → terminalFrozen e e' := by
  have hinv := einv_reachable h
  exact ⟨hinv.flags, fun e' hs => (estep_pres hinv hs).2⟩

theorem c6_witness :
    (∀ p ∈ (Engine.mk' ⟨1, 1, 10, 0, 10⟩ Network.empty).store,
        ¬(p.is_delivered = true ∧ p.is_dropped = true)) ∧
      ∀ e', EStep ⟨1, 1, 10, 0, 10⟩
          (Engine.mk' ⟨1, 1, 10, 0, 10⟩ Network.empty) e' →
        terminalFrozen (Engine.mk' ⟨1, 1, 10, 0, 10⟩ Network.empty) e' :=
  c6_terminal_flags ⟨1, 1, 10, 0, 10⟩
    (Engine.mk' ⟨1, 1, 10, 0, 10⟩ Network.empty)
    (.init Network.empty .empty)

end NetSim
